import Mathlib

/-!
# FrozenObjects native serializer

A shallow embedding of `Serializer/native` (`Types.h`, `MethodTable.h`, `Object.h`,
`GCDesc.h`, `Microsoft.FrozenObjects.Serializer.Native.cpp`).

Conventions of the embedding:

* `W` is `sizeof(size_t)` (4 or 8); `size_t` values are naturals reduced modulo
  `wordMod W = 2 ^ (8 * W)`, `DWORD` values modulo `2 ^ 32`, `int`/`int32_t` values are
  integers wrapped by `toInt32`.
* The source heap is a byte memory `Mem`; multi-byte fields are read little-endian
  (the build does not define `BIGENDIAN`).
* The output stream is a byte list with a put position (`OFile`).
* Loops that need not terminate take a fuel argument and return `none` when it runs out.
-/

namespace FrozenObjects

/-! ## Machine words and memory -/

/-- Number of values of a `size_t`: `2 ^ (8 * sizeof(size_t))`. -/
def wordMod (W : Nat) : Nat := 2 ^ (8 * W)

/-- Conversion of an integer value to `int32_t` (wrap to 32 bits, two's complement). -/
def toInt32 (i : Int) : Int :=
  if i % 4294967296 < 2147483648 then i % 4294967296 else i % 4294967296 - 4294967296

/-- Pointer-sized arithmetic: `p + d` reduced to a `size_t`. -/
def padd (W : Nat) (p : Nat) (d : Int) : Nat :=
  Int.toNat (((p : Int) + d) % (wordMod W : Int))

/-- Byte-addressed source memory; a cell holds a byte (values are reduced modulo 256 on read). -/
abbrev Mem := Nat → Nat

/-- Little-endian read of `n` bytes starting at address `a`. -/
def readLE (mem : Mem) : Nat → Nat → Nat
  | _, 0 => 0
  | a, n + 1 => mem a % 256 + 256 * readLE mem (a + 1) n

/-- Byte `i` of the little-endian representation of `v`. -/
def leByte (v i : Nat) : Nat := v / 256 ^ i % 256

/-! ## Types.h -/

/-- The macro `OBJHEADER_SIZE`: two `DWORD`s on 64-bit builds, one otherwise. -/
def OBJHEADER_SIZE (W : Nat) : Nat := if W = 8 then 4 + 4 else 4

/-- The macro `TARGET_POINTER_SIZE`. -/
def TARGET_POINTER_SIZE (W : Nat) : Nat := if W = 8 then 8 else 4

/-- The macro `MIN_OBJECT_SIZE`. -/
def MIN_OBJECT_SIZE (W : Nat) : Nat := 2 * TARGET_POINTER_SIZE W + OBJHEADER_SIZE W

/-- The macro `DATA_ALIGNMENT`. -/
def DATA_ALIGNMENT : Nat := 8

/-- The macro `PTRALIGNCONST`. -/
def PTRALIGNCONST : Nat := DATA_ALIGNMENT - 1

/-- The macro `PtrAlign(size)`: `(size + PTRALIGNCONST) & ~PTRALIGNCONST` on `size_t`. -/
def PtrAlign (W : Nat) (size : Nat) : Nat :=
  ((size + PTRALIGNCONST) % wordMod W) &&& (wordMod W - 1 - PTRALIGNCONST)

/-- The macro `PADDING(num, align)`: `(0 - num) & (align - 1)` on `size_t`. -/
def PADDING (W : Nat) (num align : Nat) : Nat :=
  ((wordMod W - num % wordMod W) % wordMod W) &&& (align - 1)

/-! ## MethodTable.h -/

/-- The flag `enum_flag_ContainsPointers`. -/
def enum_flag_ContainsPointers : Nat := 0x01000000

/-- The flag `enum_flag_Collectible`. -/
def enum_flag_Collectible : Nat := 0x10000000

/-- The flag `enum_flag_HasComponentSize`. -/
def enum_flag_HasComponentSize : Nat := 0x80000000

/-- The field `m_dwFlags` (first `DWORD` of a `MethodTable`). -/
def m_dwFlags (mem : Mem) (mt : Nat) : Nat := readLE mem mt 4

/-- The field `m_BaseSize` (second `DWORD` of a `MethodTable`). -/
def m_BaseSize (mem : Mem) (mt : Nat) : Nat := readLE mem (mt + 4) 4

/-- The method `MethodTable::GetFlag`. -/
def GetFlag (mem : Mem) (mt : Nat) (flag : Nat) : Nat := m_dwFlags mem mt &&& flag

/-- The method `MethodTable::GetBaseSize`. -/
def GetBaseSize (mem : Mem) (mt : Nat) : Nat := m_BaseSize mem mt

/-- The method `MethodTable::HasComponentSize` (as a truth value). -/
def HasComponentSize (mem : Mem) (mt : Nat) : Bool :=
  GetFlag mem mt enum_flag_HasComponentSize != 0

/-- The method `MethodTable::RawGetComponentSize`: the low `WORD` of `m_dwFlags`. -/
def RawGetComponentSize (mem : Mem) (mt : Nat) : Nat := readLE mem mt 2

/-- The method `MethodTable::ContainsPointersOrCollectible`. -/
def ContainsPointersOrCollectible (mem : Mem) (mt : Nat) : Bool :=
  GetFlag mem mt enum_flag_ContainsPointers != 0 || GetFlag mem mt enum_flag_Collectible != 0

/-! ## Object.h -/

/-- The method `Object::RawGetMethodTable`: the field `pMT` at offset 0. -/
def RawGetMethodTable (W : Nat) (mem : Mem) (o : Nat) : Nat := readLE mem o W

/-- The method `Object::GetNumComponents`: `ArrayBase::m_NumComponents`, the `DWORD` after `pMT`. -/
def GetNumComponents (W : Nat) (mem : Mem) (o : Nat) : Nat := readLE mem (o + W) 4

/-- The method `Object::GetSize`. -/
def GetSize (W : Nat) (mem : Mem) (o : Nat) : Nat :=
  let pMT := RawGetMethodTable W mem o
  let s := GetBaseSize mem pMT
  if HasComponentSize mem pMT then
    (s + GetNumComponents W mem o * RawGetComponentSize mem pMT % wordMod W) % wordMod W
  else s

/-! ## Microsoft.FrozenObjects.Serializer.Native.cpp: sizes -/

/-- The function `GetObjectSize2`. -/
def GetObjectSize2 (W : Nat) (mem : Mem) (objectId : Nat) : Nat :=
  let size := GetSize W mem objectId
  if size < MIN_OBJECT_SIZE W then PtrAlign W size else size

/-- The function `GetMTFromObject`. -/
def GetMTFromObject (W : Nat) (mem : Mem) (objectId : Nat) : Nat := RawGetMethodTable W mem objectId

/-! ## GCDesc.h -/

/-- The function `ComputeSize` (result converted to `int`). -/
def ComputeSize (W : Nat) (series : Int) : Int := toInt32 ((W : Int) + series * W * 2)

/-- The class `GCDesc`: a descriptor blob given by its start address and byte length. -/
structure GCDesc where
  /-- Start address of the blob. -/
  data : Nat
  /-- Byte length of the blob. -/
  size : Nat
  deriving DecidableEq, Repr

/-- The method `GCDesc::GetNumSeries`: the last pointer-sized word, truncated to `int32_t`. -/
def GetNumSeries (W : Nat) (mem : Mem) (d : GCDesc) : Int :=
  toInt32 (readLE mem (padd W d.data ((d.size : Int) - W)) W)

/-- The method `GCDesc::GetHighestSeries`. -/
def GetHighestSeries (W : Nat) (d : GCDesc) : Int := toInt32 ((d.size : Int) - W * 3)

/-- The method `GCDesc::GetLowestSeries`. -/
def GetLowestSeries (W : Nat) (mem : Mem) (d : GCDesc) : Int :=
  toInt32 ((d.size : Int) - ComputeSize W (GetNumSeries W mem d))

/-- The method `GCDesc::GetSeriesSize`. -/
def GetSeriesSize (W : Nat) (mem : Mem) (d : GCDesc) (curr : Int) : Int :=
  toInt32 (readLE mem (padd W d.data curr) W)

/-- The method `GCDesc::GetSeriesOffset`. -/
def GetSeriesOffset (W : Nat) (mem : Mem) (d : GCDesc) (curr : Int) : Nat :=
  readLE mem (padd W d.data (curr + W)) W

/-- The method `GCDesc::GetPointers`: a half-word read at `data + curr + i * sizeof(size_t)`. -/
def GetPointers (W : Nat) (mem : Mem) (d : GCDesc) (curr i : Int) : Nat :=
  readLE mem (padd W d.data (curr + toInt32 (i * W))) (W / 2)

/-- The method `GCDesc::GetSkip`: the half-word after the one `GetPointers` reads. -/
def GetSkip (W : Nat) (mem : Mem) (d : GCDesc) (curr i : Int) : Nat :=
  readLE mem (padd W d.data (curr + toInt32 (i * W + (W / 2 : Nat)))) (W / 2)

/-- Loop body shared by every scan in `WalkObject`: `if (*(size_t *)ptr != 0) refCallback(addr, ptr, context)`. -/
def reportSlot {σ : Type} (W : Nat) (mem : Mem) (refCallback : Nat → Nat → σ → σ)
    (addr ptr : Nat) (ctx : σ) : σ :=
  if readLE mem ptr W ≠ 0 then refCallback addr ptr ctx else ctx

/-- The loop `while (ptr < stop) { ...; ptr += sizeof(size_t); }` of the fixed-series branch. -/
def scanWhile {σ : Type} (W : Nat) (mem : Mem) (refCallback : Nat → Nat → σ → σ)
    (addr stop : Nat) : Nat → Nat → σ → Option σ
  | 0, _, _ => none
  | fuel + 1, ptr, ctx =>
    if ptr < stop then
      scanWhile W mem refCallback addr stop fuel (padd W ptr W) (reportSlot W mem refCallback addr ptr ctx)
    else some ctx

/-- The loop `do { ... curr -= sizeof(size_t) * 2; } while (curr >= lowest)` over the series. -/
def seriesLoop {σ : Type} (W : Nat) (mem : Mem) (refCallback : Nat → Nat → σ → σ)
    (d : GCDesc) (addr size : Nat) (lowest : Int) (F : Nat) : Nat → Int → σ → Option σ
  | 0, _, _ => none
  | fuel + 1, curr, ctx =>
    let ptr := padd W addr (GetSeriesOffset W mem d curr)
    let stop := padd W ptr (GetSeriesSize W mem d curr + size)
    match scanWhile W mem refCallback addr stop F ptr ctx with
    | none => none
    | some ctx1 =>
      let curr1 := toInt32 (curr - W * 2)
      if curr1 ≥ lowest then seriesLoop W mem refCallback d addr size lowest F fuel curr1 ctx1
      else some ctx1

/-- The loop `do { ...; ptr += sizeof(size_t); } while (ptr < stop)` of the repeating branch. -/
def groupDo {σ : Type} (W : Nat) (mem : Mem) (refCallback : Nat → Nat → σ → σ)
    (addr stop : Nat) : Nat → Nat → σ → Option (Nat × σ)
  | 0, _, _ => none
  | fuel + 1, ptr, ctx =>
    let ctx1 := reportSlot W mem refCallback addr ptr ctx
    let ptr1 := padd W ptr W
    if ptr1 < stop then groupDo W mem refCallback addr stop fuel ptr1 ctx1
    else some (ptr1, ctx1)

/-- The loop `for (int32_t i = 0; i > series; i--)` of the repeating branch. -/
def groupFor {σ : Type} (W : Nat) (mem : Mem) (refCallback : Nat → Nat → σ → σ)
    (d : GCDesc) (addr : Nat) (series curr : Int) (F : Nat) : Nat → Int → Nat → σ → Option (Nat × σ)
  | 0, _, _, _ => none
  | fuel + 1, i, ptr, ctx =>
    if i > series then
      let nptrs := GetPointers W mem d curr i
      let skip := GetSkip W mem d curr i
      let stop := padd W ptr (nptrs * W % wordMod W : Nat)
      match groupDo W mem refCallback addr stop F ptr ctx with
      | none => none
      | some (ptr1, ctx1) =>
        groupFor W mem refCallback d addr series curr F fuel (toInt32 (i - 1)) (padd W ptr1 skip) ctx1
    else some (ptr, ctx)

/-- The loop `while (ptr < addr + size - sizeof(size_t))` of the repeating branch. -/
def elementWhile {σ : Type} (W : Nat) (mem : Mem) (refCallback : Nat → Nat → σ → σ)
    (d : GCDesc) (addr size : Nat) (series curr : Int) (F : Nat) : Nat → Nat → σ → Option σ
  | 0, _, _ => none
  | fuel + 1, ptr, ctx =>
    if ptr < padd W addr ((size : Int) - W) then
      match groupFor W mem refCallback d addr series curr F F 0 ptr ctx with
      | none => none
      | some (ptr1, ctx1) => elementWhile W mem refCallback d addr size series curr F fuel ptr1 ctx1
    else some ctx

/-- The method `GCDesc::WalkObject`; `F` bounds the iterations of each loop. -/
def WalkObject {σ : Type} (W : Nat) (mem : Mem) (d : GCDesc) (F : Nat) (addr size : Nat) (context : σ)
    (refCallback : Nat → Nat → σ → σ) : Option σ :=
  let series := GetNumSeries W mem d
  let highest := GetHighestSeries W d
  let curr := highest
  if series > 0 then
    let lowest := GetLowestSeries W mem d
    seriesLoop W mem refCallback d addr size lowest F F curr context
  else
    let ptr := padd W addr (GetSeriesOffset W mem d curr)
    elementWhile W mem refCallback d addr size series curr F F ptr context

/-! ## The output stream -/

/-- The output `std::ofstream`: the bytes written so far and the put position. -/
structure OFile where
  /-- Contents of the file. -/
  bytes : List Nat
  /-- Put position of the stream. -/
  pos : Nat
  deriving DecidableEq, Repr

/-- The call `file.seekp(position, std::ios::beg)`. -/
def OFile.seekp (f : OFile) (position : Nat) : OFile := { f with pos := position }

/-- The call `file.write(buf, n)`: `n` bytes of `buf` replace the bytes at the put position;
a gap between the end of the file and the put position reads as zero. -/
def OFile.write (f : OFile) (buf : Nat → Nat) (n : Nat) : OFile :=
  { bytes := (f.bytes ++ List.replicate (f.pos - f.bytes.length) 0).take f.pos
      ++ (List.range n).map buf ++ f.bytes.drop (f.pos + n)
    pos := f.pos + n }

/-- Byte of the file at offset `i` (zero past the end). -/
def OFile.byteAt (f : OFile) (i : Nat) : Nat := f.bytes.getD i 0

/-- Little-endian read of `n` bytes of the file starting at offset `p`. -/
def OFile.readLE (f : OFile) : Nat → Nat → Nat
  | _, 0 => 0
  | p, n + 1 => f.byteAt p + 256 * OFile.readLE f (p + 1) n

/-- The function `WriteFileAtPosition`. -/
def WriteFileAtPosition (file : OFile) (position : Nat) (lpBuffer : Nat → Nat)
    (nNumberOfBytesToWrite : Nat) : OFile :=
  (file.seekp position).write lpBuffer nNumberOfBytesToWrite

/-- The function `WriteFileAndMoveCurrentFilePointer`; returns the stream and the updated
`currentFilePointer`. -/
def WriteFileAndMoveCurrentFilePointer (W : Nat) (file : OFile) (currentFilePointer : Nat)
    (lpBuffer : Nat → Nat) (nNumberOfBytesToWrite : Nat) : OFile × Nat :=
  (file.write lpBuffer nNumberOfBytesToWrite, (currentFilePointer + nNumberOfBytesToWrite) % wordMod W)

/-! ## The serializer -/

/-- The struct `WalkObjectContext`, with the objects its pointers refer to held by value. -/
structure WalkObjectContext where
  /-- The map `SerializedObjectMap` as an association list in insertion order. -/
  SerializedObjectMap : List (Nat × Nat)
  /-- The queue `ObjectQueue`, front first. -/
  ObjectQueue : List Nat
  /-- The output stream `File`. -/
  File : OFile
  /-- The field `ObjectStart`. -/
  ObjectStart : Nat
  /-- The cursor `LastReservedObjectEnd`. -/
  LastReservedObjectEnd : Nat
  deriving DecidableEq, Repr

/-- The callback `EachObjectReference`. -/
def EachObjectReference (W : Nat) (mem : Mem) (curr reference : Nat)
    (context : WalkObjectContext) : WalkObjectContext :=
  let objectReference := readLE mem reference W
  match context.SerializedObjectMap.lookup objectReference with
  | none =>
    let objectReferenceDiskOffset := (context.LastReservedObjectEnd + W) % wordMod W
    let objectSize := GetObjectSize2 W mem objectReference
    { context with
      LastReservedObjectEnd :=
        (context.LastReservedObjectEnd + (objectSize + PADDING W objectSize W) % wordMod W) % wordMod W
      SerializedObjectMap := context.SerializedObjectMap ++ [(objectReference, objectReferenceDiskOffset)]
      ObjectQueue := context.ObjectQueue ++ [objectReference]
      File := WriteFileAtPosition context.File (padd W (context.ObjectStart + reference) (-(curr : Int)))
        (leByte objectReferenceDiskOffset) W }
  | some objectReferenceDiskOffset =>
    { context with
      File := WriteFileAtPosition context.File (padd W (context.ObjectStart + reference) (-(curr : Int)))
        (leByte objectReferenceDiskOffset) W }

/-- The descriptor that `EnumerateObjectReferences` builds in front of a method table. -/
def gcdescOf (W : Nat) (mem : Mem) (methodTable : Nat) : GCDesc :=
  let entries0 := toInt32 (readLE mem (padd W methodTable (-(W : Int))) 4)
  let entries := if entries0 < 0 then toInt32 (-entries0) else entries0
  let slots := toInt32 (1 + entries * 2)
  { data := padd W methodTable (-(slots * W)), size := padd W 0 (slots * W) }

/-- The function `EnumerateObjectReferences`, for an arbitrary callback. -/
def EnumerateObjectReferences {σ : Type} (W : Nat) (mem : Mem) (F : Nat) (curr : Nat) (context : σ)
    (refCallback : Nat → Nat → σ → σ) : Option σ :=
  let size := GetObjectSize2 W mem curr
  let methodTable := RawGetMethodTable W mem curr
  if ContainsPointersOrCollectible mem methodTable then
    WalkObject W mem (gcdescOf W mem methodTable) F curr size context refCallback
  else some context

/-- One record as written by an iteration of the loop of `SerializeObject` (bookkeeping only). -/
structure RecordInfo where
  /-- The object popped from the queue. -/
  objectId : Nat
  /-- Value of `currentFilePointer` when the iteration starts. -/
  recordStart : Nat
  /-- Put position of the stream when the iteration starts. -/
  filePos : Nat
  /-- Put position of the stream after the padding has been written. -/
  fileEnd : Nat
  /-- The method table of the object. -/
  mt : Nat
  /-- The token written after the header. -/
  mtToken : Nat
  /-- The value of `objectStart`. -/
  objectStart : Nat
  /-- Value of `currentFilePointer` after the padding has been written. -/
  recordEnd : Nat
  deriving DecidableEq, Repr

/-- Local state of `SerializeObject`. The fields `pushed` and `records` are bookkeeping that the
source does not have: every identity pushed on the queue, and every record written, in order. -/
structure SerState where
  /-- The map `serializedObjectMap`. -/
  serializedObjectMap : List (Nat × Nat)
  /-- The map `mtTokenMap`. -/
  mtTokenMap : List (Nat × Nat)
  /-- The queue `objectQueue`, front first. -/
  objectQueue : List Nat
  /-- The vector `functionPointerFixupList`. -/
  functionPointerFixupList : List Nat
  /-- The vector `methodTableTokenTupleList` of `(MT, Token)`. -/
  methodTableTokenTupleList : List (Nat × Nat)
  /-- The variable `currentFilePointer`. -/
  currentFilePointer : Nat
  /-- The variable `lastReservedObjectEnd`. -/
  lastReservedObjectEnd : Nat
  /-- The stream `file`. -/
  file : OFile
  /-- Every identity pushed on `objectQueue` so far, in push order. -/
  pushed : List Nat
  /-- Every record written so far, in write order. -/
  records : List RecordInfo
  deriving DecidableEq, Repr

/-- State of `SerializeObject` when the loop is first reached. -/
def initState (W : Nat) (mem : Mem) (root : Nat) : SerState :=
  let lastReservedObjectEnd := GetObjectSize2 W mem root
  { serializedObjectMap := []
    mtTokenMap := []
    objectQueue := [root]
    functionPointerFixupList := []
    methodTableTokenTupleList := []
    currentFilePointer := 0
    lastReservedObjectEnd :=
      (lastReservedObjectEnd + PADDING W lastReservedObjectEnd W) % wordMod W
    file := { bytes := [], pos := 0 }
    pushed := [root]
    records := [] }

/-- Lines 172-185 of the loop body: find the token of `mt` or assign the next one. Returns the
token, the updated `mtTokenMap` and the updated `methodTableTokenTupleList`. -/
def assignToken (st : SerState) (mt : Nat) : Nat × List (Nat × Nat) × List (Nat × Nat) :=
  match st.mtTokenMap.lookup mt with
  | none =>
    (st.mtTokenMap.length, st.mtTokenMap ++ [(mt, st.mtTokenMap.length)],
      st.methodTableTokenTupleList ++ [(mt, st.mtTokenMap.length)])
  | some t => (t, st.mtTokenMap, st.methodTableTokenTupleList)

/-- The value of `objectStart`: `currentFilePointer` after the header has been written. -/
def objectStartOf (W : Nat) (st : SerState) : Nat :=
  (WriteFileAndMoveCurrentFilePointer W st.file st.currentFilePointer (fun _ => 0) (W % 4294967296)).2

/-- Lines 188-215 of the loop body: the four writes of a record (blank header, token, object
contents, padding). Returns the stream and `currentFilePointer` after the last write. -/
def writeRecord (W : Nat) (mem : Mem) (st : SerState) (objectId mtToken : Nat) : OFile × Nat :=
  let w1 := WriteFileAndMoveCurrentFilePointer W st.file st.currentFilePointer (fun _ => 0) (W % 4294967296)
  let objectSize := GetObjectSize2 W mem objectId
  let padding := PADDING W objectSize W % 4294967296
  let w2 := WriteFileAndMoveCurrentFilePointer W w1.1 w1.2 (leByte mtToken) (W % 4294967296)
  let objectSize1 := padd W objectSize (-((W : Int) + W))
  let w3 := WriteFileAndMoveCurrentFilePointer W w2.1 w2.2 (fun i => mem (objectId + W + i) % 256)
    (objectSize1 % 4294967296)
  WriteFileAndMoveCurrentFilePointer W w3.1 w3.2 (fun _ => 0) padding

/-- Line 217 of the loop body: the `WalkObjectContext` handed to the walker. -/
def stepContext (W : Nat) (mem : Mem) (objectId : Nat) (st : SerState) : WalkObjectContext :=
  { SerializedObjectMap := st.serializedObjectMap
    ObjectQueue := st.objectQueue
    File := (writeRecord W mem st objectId (assignToken st (GetMTFromObject W mem objectId)).1).1
    ObjectStart := objectStartOf W st
    LastReservedObjectEnd := st.lastReservedObjectEnd }

/-- State at the end of an iteration, given the context the walker left: the fixup entry of
lines 201-204, the `seekp` of line 224 and the `pop` of line 226. -/
def stepState (W : Nat) (mem : Mem) (functionPointerMT : Nat) (objectId : Nat) (st : SerState)
    (ctx : WalkObjectContext) : SerState :=
  let mt := GetMTFromObject W mem objectId
  let tok := assignToken st mt
  let w4 := writeRecord W mem st objectId tok.1
  { serializedObjectMap := ctx.SerializedObjectMap
    mtTokenMap := tok.2.1
    objectQueue := ctx.ObjectQueue.tail
    functionPointerFixupList :=
      if mt = functionPointerMT then st.functionPointerFixupList ++ [objectStartOf W st]
      else st.functionPointerFixupList
    methodTableTokenTupleList := tok.2.2
    currentFilePointer := w4.2
    lastReservedObjectEnd := ctx.LastReservedObjectEnd
    file := ctx.File.seekp w4.2
    pushed := st.pushed ++ ctx.ObjectQueue.drop st.objectQueue.length
    records := st.records ++
      [{ objectId := objectId, recordStart := st.currentFilePointer, filePos := st.file.pos,
         fileEnd := w4.1.pos, mt := mt, mtToken := tok.1, objectStart := objectStartOf W st,
         recordEnd := w4.2 }] }

/-- Body of the loop of `SerializeObject` for the object at the front of the queue. -/
def serializeStep (W : Nat) (mem : Mem) (functionPointerMT : Nat) (F : Nat) (objectId : Nat)
    (st : SerState) : Option SerState :=
  match EnumerateObjectReferences W mem F objectId (stepContext W mem objectId st)
      (EachObjectReference W mem) with
  | none => none
  | some ctx => some (stepState W mem functionPointerMT objectId st ctx)

/-- The loop `while (!objectQueue.empty())` of `SerializeObject`. -/
def serializeLoop (W : Nat) (mem : Mem) (functionPointerMT : Nat) (F : Nat) : Nat → SerState → Option SerState
  | 0, _ => none
  | fuel + 1, st =>
    match st.objectQueue with
    | [] => some st
    | objectId :: _ =>
      match serializeStep W mem functionPointerMT F objectId st with
      | none => none
      | some st1 => serializeLoop W mem functionPointerMT F fuel st1

/-- The function `SerializeObject`: the final state holds the output file, the type-token list
and the fixup list. `F` bounds the iterations of each loop of the walker and `fuel` those of the
traversal loop. -/
def SerializeObject (W : Nat) (mem : Mem) (root : Nat) (functionPointerMT : Nat) (F fuel : Nat) :
    Option SerState :=
  serializeLoop W mem functionPointerMT F fuel (initState W mem root)

/-- Two optional results agree: both absent, or both present and related by `R`. -/
inductive OptRel {σ τ : Type} (R : σ → τ → Prop) : Option σ → Option τ → Prop
  | none : OptRel R none none
  | some {a : σ} {b : τ} : R a b → OptRel R (some a) (some b)

/-- The slots for which `EnumerateObjectReferences` invokes the callback on `curr`, in call order. -/
def walkSlots (W : Nat) (mem : Mem) (F : Nat) (curr : Nat) : Option (List Nat) :=
  EnumerateObjectReferences W mem F curr [] (fun _ ptr acc => acc ++ [ptr])

/-- The walker halts on `x` and every reference it reports in `x` leads to a member of `objs`. -/
def closedAt (W : Nat) (mem : Mem) (F : Nat) (objs : List Nat) (x : Nat) : Bool :=
  match walkSlots W mem F x with
  | some sl => sl.all (fun p => decide (readLE mem p W ∈ objs))
  | none => false

/-- The list `objs` contains the root and is closed under reported references, and the walker
halts on each of its members. Every list with these properties contains the objects reachable
from the root. -/
def Closed (W : Nat) (mem : Mem) (F : Nat) (root : Nat) (objs : List Nat) : Prop :=
  root ∈ objs ∧ ∀ x ∈ objs, closedAt W mem F objs x = true

instance (W : Nat) (mem : Mem) (F : Nat) (root : Nat) (objs : List Nat) :
    Decidable (Closed W mem F root objs) := by
  unfold Closed
  infer_instance

/-- The patches of one iteration: `EachObjectReference` applied to the reported slots in order. -/
def patchAll (W : Nat) (mem : Mem) (curr : Nat) (sl : List Nat) (ctx : WalkObjectContext) :
    WalkObjectContext :=
  sl.foldl (fun c p => EachObjectReference W mem curr p c) ctx

/-- A state with the fixup list blanked, used to compare runs with different sentinels. -/
def eraseFixups (st : SerState) : SerState := { st with functionPointerFixupList := [] }

/-- The extent reserved for an object, as added to `LastReservedObjectEnd`. -/
def reservedLen (W : Nat) (mem : Mem) (x : Nat) : Nat :=
  (GetObjectSize2 W mem x + PADDING W (GetObjectSize2 W mem x) W) % wordMod W

/-- Value of the reservation cursor once extents for the objects of `l` are reserved in order. -/
def resvEnd (W : Nat) (mem : Mem) (l : List Nat) : Nat :=
  l.foldl (fun acc x => (acc + reservedLen W mem x) % wordMod W) 0

/-- The map entries assigned to the objects of the second list when they are referenced in
order, after extents for the objects of `pre` have been reserved. -/
def resvMap (W : Nat) (mem : Mem) : List Nat → List Nat → List (Nat × Nat)
  | _, [] => []
  | pre, x :: xs => (x, (resvEnd W mem pre + W) % wordMod W) :: resvMap W mem (pre ++ [x]) xs

/-- Number of bytes an iteration writes for an object: header, token, contents and padding. -/
def writtenLen (W : Nat) (mem : Mem) (x : Nat) : Nat :=
  W % 4294967296 + W % 4294967296
    + padd W (GetObjectSize2 W mem x) (-((W : Int) + W)) % 4294967296
    + PADDING W (GetObjectSize2 W mem x) W % 4294967296

/-- Value of `currentFilePointer` after the four writes of a record that starts at `cfp`. -/
def cfpAfter (W : Nat) (mem : Mem) (cfp x : Nat) : Nat :=
  ((((cfp + W % 4294967296) % wordMod W + W % 4294967296) % wordMod W
    + padd W (GetObjectSize2 W mem x) (-((W : Int) + W)) % 4294967296) % wordMod W
    + PADDING W (GetObjectSize2 W mem x) W % 4294967296) % wordMod W

/-- Value of `currentFilePointer` once records for the objects of `l` are written in order. -/
def cfpEnd (W : Nat) (mem : Mem) (l : List Nat) : Nat := l.foldl (cfpAfter W mem) 0

/-- What an iteration records about the record it writes, `pre` being the objects written
before it. -/
structure RecLocal (W : Nat) (mem : Mem) (pre : List Nat) (rec : RecordInfo) : Prop where
  /-- The record starts where the records before it end. -/
  start_eq : rec.recordStart = cfpEnd W mem pre
  /-- The stream is positioned at `currentFilePointer`. -/
  filePos_eq : rec.filePos = rec.recordStart
  /-- The value of `objectStart` follows the header. -/
  objectStart_eq : rec.objectStart = (rec.recordStart + W % 4294967296) % wordMod W
  /-- The value of `currentFilePointer` after the record. -/
  recordEnd_eq : rec.recordEnd = cfpAfter W mem rec.recordStart rec.objectId
  /-- The stream position after the record. -/
  fileEnd_eq : rec.fileEnd = rec.filePos + writtenLen W mem rec.objectId
  /-- The method table is the one of the object. -/
  mt_eq : rec.mt = GetMTFromObject W mem rec.objectId

/-- Bookkeeping invariant of the loop of `SerializeObject`. -/
structure Inv (W : Nat) (mem : Mem) (root : Nat) (st : SerState) : Prop where
  /-- The pushed identities are those written followed by those still queued. -/
  pushed_eq : st.pushed = st.records.map (fun r => r.objectId) ++ st.objectQueue
  /-- The first identity pushed is the root. -/
  pushed_root : ∃ rest, st.pushed = root :: rest
  /-- The map holds one entry for each identity pushed after the root. -/
  map_eq : st.serializedObjectMap = resvMap W mem [root] st.pushed.tail
  /-- The identities pushed after the root are pairwise distinct. -/
  nodup : st.pushed.tail.Nodup
  /-- The reservation cursor covers every identity pushed. -/
  lre_eq : st.lastReservedObjectEnd = resvEnd W mem st.pushed
  /-- The write cursor covers every record written. -/
  cfp_eq : st.currentFilePointer = cfpEnd W mem (st.records.map (fun r => r.objectId))
  /-- The stream is positioned at the write cursor. -/
  pos_eq : st.file.pos = st.currentFilePointer
  /-- Every record carries the values of its iteration. -/
  recs : ∀ pre rec post, st.records = pre ++ rec :: post →
    RecLocal W mem (pre.map (fun r => r.objectId)) rec

/-- The distinct elements of a list in the order of their first occurrence. -/
def firstSeen (l : List Nat) : List Nat :=
  l.foldl (fun acc m => if m ∈ acc then acc else acc ++ [m]) []

/-- Invariant of the loop of `SerializeObject` about the file length, the type tokens and the
fixup list. -/
structure Inv2 (fp : Nat) (st : SerState) : Prop where
  /-- The file extends at least to the end of every record written. -/
  fileEnd_le : ∀ rec ∈ st.records, rec.fileEnd ≤ st.file.bytes.length
  /-- The token list mirrors the token map. -/
  tokens_eq : st.methodTableTokenTupleList = st.mtTokenMap
  /-- The tokens are `0, 1, 2, ...` in list order. -/
  tokens_snd : st.mtTokenMap.map Prod.snd = List.range st.mtTokenMap.length
  /-- The types are listed in the order in which records first used them. -/
  tokens_fst : st.mtTokenMap.map Prod.fst = firstSeen (st.records.map (fun r => r.mt))
  /-- The types listed are pairwise distinct. -/
  tokens_nodup : (st.mtTokenMap.map Prod.fst).Nodup
  /-- Every record carries the token of its type. -/
  rec_token : ∀ rec ∈ st.records, st.mtTokenMap.lookup rec.mt = some rec.mtToken
  /-- The fixup list holds `objectStart` of the records of the sentinel type. -/
  fixups_eq : st.functionPointerFixupList =
    (st.records.filter (fun rec => decide (rec.mt = fp))).map (fun rec => rec.objectStart)

/-- The object `x` is well formed for the writer: the walker halts on it, its computed size `s`
covers the header and the type pointer, its contents fit the `DWORD` length of a write, and
every reported slot lies `W`-aligned inside the contents `[x + W, x + s - W)`. -/
def wfObject (W : Nat) (mem : Mem) (F : Nat) (x : Nat) : Bool :=
  match walkSlots W mem F x with
  | some sl =>
    decide (2 * W ≤ GetObjectSize2 W mem x) &&
    decide (GetObjectSize2 W mem x - 2 * W < 4294967296) &&
    sl.all (fun p => decide (x + W ≤ p) && decide (p + 2 * W ≤ x + GetObjectSize2 W mem x) &&
      decide ((p - x) % W = 0))
  | none => false

/-- Contents of the file `f` in the extent of the record `rec`, `m` being the identity-to-offset
map: a zero header, the token, the object contents with every reported slot holding the offset
the map gives for its referent, and zero padding. -/
structure RecordContent (W : Nat) (mem : Mem) (F : Nat) (m : List (Nat × Nat)) (f : OFile)
    (rec : RecordInfo) : Prop where
  /-- The header is `W` zero bytes. -/
  header : ∀ i, i < W → f.byteAt (rec.filePos + i) = 0
  /-- The token follows, little-endian. -/
  token : ∀ i, i < W → f.byteAt (rec.filePos + W + i) = leByte rec.mtToken i
  /-- A reported slot holds the offset mapped to the object it references. -/
  slots : ∀ sl, walkSlots W mem F rec.objectId = some sl → ∀ p ∈ sl,
    ∃ off, m.lookup (readLE mem p W) = some off ∧
      ∀ i, i < W → f.byteAt (rec.filePos + W + (p - rec.objectId) + i) = leByte off i
  /-- A byte of the contents outside the reported slots is the byte of the source memory. -/
  payload : ∀ sl, walkSlots W mem F rec.objectId = some sl →
    ∀ j, j < GetObjectSize2 W mem rec.objectId - 2 * W →
      (∀ p ∈ sl, rec.objectId + W + j < p ∨ p + W ≤ rec.objectId + W + j) →
      f.byteAt (rec.filePos + 2 * W + j) = mem (rec.objectId + W + j) % 256
  /-- The padding is zero. -/
  padding : ∀ k, k < PADDING W (GetObjectSize2 W mem rec.objectId) W →
    f.byteAt (rec.filePos + GetObjectSize2 W mem rec.objectId + k) = 0

/-- Invariant of the loop of `SerializeObject` about the contents of the file, for a list `objs`
that holds every identity pushed. -/
structure Inv3 (W : Nat) (mem : Mem) (F : Nat) (objs : List Nat) (st : SerState) : Prop where
  /-- Every identity pushed is a member of `objs`. -/
  pushed_in : ∀ x ∈ st.pushed, x ∈ objs
  /-- While the file is shorter than `2 ^ (8 * W)` bytes, every record written lies before the
  put position and has the contents of its iteration. -/
  content : st.file.bytes.length < wordMod W → ∀ rec ∈ st.records,
    rec.fileEnd ≤ st.file.pos ∧ RecordContent W mem F st.serializedObjectMap st.file rec

/-- The states the loop of `SerializeObject` passes through at the start of an iteration. -/
inductive Reached (W : Nat) (mem : Mem) (root fp F : Nat) : SerState → Prop
  | init : Reached W mem root fp F (initState W mem root)
  | step {st st1 : SerState} {x : Nat} {q : List Nat} :
    Reached W mem root fp F st → st.objectQueue = x :: q →
    serializeStep W mem fp F x st = some st1 → Reached W mem root fp F st1

/-- Number of bytes of object contents an iteration writes for `x`: `objectSize` less the
header and the type pointer, as a `size_t`, cast to `DWORD` (line 212). -/
def contentsLen (W : Nat) (mem : Mem) (x : Nat) : Nat :=
  padd W (GetObjectSize2 W mem x) (-((W : Int) + W)) % 4294967296

/-- Invariant of the loop of `SerializeObject` relating the identities pushed after the root to
the references reported in the objects already visited. -/
structure Inv4 (W : Nat) (mem : Mem) (F : Nat) (st : SerState) : Prop where
  /-- Every reference reported in a visited object has been pushed after the root. -/
  visited_slots : ∀ rec ∈ st.records, ∃ sl, walkSlots W mem F rec.objectId = some sl ∧
    ∀ p ∈ sl, readLE mem p W ∈ st.pushed.tail
  /-- Every identity pushed after the root is a reference reported in a visited object. -/
  pushed_from : ∀ y ∈ st.pushed.tail, ∃ rec ∈ st.records, ∃ sl,
    walkSlots W mem F rec.objectId = some sl ∧ ∃ p ∈ sl, readLE mem p W = y

/-- Invariant of the loop of `SerializeObject` about the file cursor, for well-formed heaps:
while the file is shorter than `2 ^ (8 * W)` bytes, the put position is the end of the file and
`currentFilePointer` is the summed length of the records written. -/
structure Inv5 (W : Nat) (st : SerState) : Prop where
  /-- The put position is the end of the file. -/
  len_eq : st.file.bytes.length < wordMod W → st.file.bytes.length = st.file.pos
  /-- The write cursor is the summed length of the records. -/
  cfp_sum : st.file.bytes.length < wordMod W →
    st.currentFilePointer = (st.records.map (fun rec => rec.fileEnd - rec.filePos)).sum

/-! ## Slots and descriptor offsets visited by `GCDesc::WalkObject` -/

/-- The `n` consecutive pointer-sized slots `b, b + W, b + 2 * W, ...`. -/
def slotsFrom (W : Nat) : Nat → Nat → List Nat
  | _, 0 => []
  | b, n + 1 => b :: slotsFrom W (b + W) n

/-- Number of slots `b, b + W, ...` that lie strictly below `s`. -/
def slotCount (W b s : Nat) : Nat := (s - b + (W - 1)) / W

/-- The slots `b, b + W, ...` strictly below `s` whose stored word is non-zero, ascending. -/
def slotRun (W : Nat) (mem : Mem) (b s : Nat) : List Nat :=
  (slotsFrom W b (slotCount W b s)).filter (fun p => decide (readLE mem p W ≠ 0))

/-- The `n` blob offsets `c, c - 2 * W, c - 4 * W, ...`. -/
def seriesOffsetsFrom (W : Nat) : Int → Nat → List Int
  | _, 0 => []
  | c, n + 1 => c :: seriesOffsetsFrom W (c - 2 * W) n

/-- Blob offsets of the series of a descriptor with `n` series, from the highest series
`size - 3 * W` down in steps of `2 * W`. -/
def seriesOffsets (W size n : Nat) : List Int := seriesOffsetsFrom W ((size : Int) - 3 * W) n

/-- The local `ptr` of the fixed-series branch of `WalkObject` before the scan of the series at
blob offset `curr`: `addr + GetSeriesOffset(curr)`. -/
def seriesBegin (W : Nat) (mem : Mem) (d : GCDesc) (addr : Nat) (curr : Int) : Nat :=
  padd W addr (GetSeriesOffset W mem d curr)

/-- The local `stop` of the fixed-series branch of `WalkObject` for the series at blob offset
`curr`: `ptr + GetSeriesSize(curr) + size`. -/
def seriesStop (W : Nat) (mem : Mem) (d : GCDesc) (addr size : Nat) (curr : Int) : Nat :=
  padd W (seriesBegin W mem d addr curr) (GetSeriesSize W mem d curr + size)

/-- The slots of all series of a descriptor with a positive series count, series by series from
the highest blob offset to the lowest, each series ascending, zero-valued slots left out. -/
def fixedSlots (W : Nat) (mem : Mem) (d : GCDesc) (addr size : Nat) : List Nat :=
  (seriesOffsets W d.size (GetNumSeries W mem d).toNat).flatMap
    (fun curr => slotRun W mem (seriesBegin W mem d addr curr) (seriesStop W mem d addr size curr))

/-- The `(pointerCount, skipBytes)` groups read by `GetPointers` and `GetSkip` at the `n` group
indices `i, i - 1, ...`. -/
def groupsFrom (W : Nat) (mem : Mem) (d : GCDesc) (curr : Int) : Int → Nat → List (Nat × Nat)
  | _, 0 => []
  | i, n + 1 => (GetPointers W mem d curr i, GetSkip W mem d curr i) ::
      groupsFrom W mem d curr (i - 1) n

/-- The groups of a repeating pattern (negative series count `N`), in the order in which they
are applied: group indices `0, -1, ..., N + 1`. -/
def patternGroups (W : Nat) (mem : Mem) (d : GCDesc) : List (Nat × Nat) :=
  groupsFrom W mem d (GetHighestSeries W d) 0 (-(GetNumSeries W mem d)).toNat

/-- One pass over the groups starting at `ptr`: for each group `max 1 pointerCount` consecutive
slots are considered, then the cursor skips `skipBytes`. Gives the slots considered and the
cursor after the pass. -/
def passSlots (W : Nat) : List (Nat × Nat) → Nat → List Nat × Nat
  | [], ptr => ([], ptr)
  | g :: gs, ptr =>
    ((slotsFrom W ptr (max 1 g.1)) ++ (passSlots W gs (ptr + max 1 g.1 * W + g.2)).1,
      (passSlots W gs (ptr + max 1 g.1 * W + g.2)).2)

/-- Bytes by which one pass over the groups advances the cursor. -/
def passStride (W : Nat) (gs : List (Nat × Nat)) : Nat :=
  (gs.map (fun g => max 1 g.1 * W + g.2)).sum

/-- The slots considered by at most `n` passes over the groups, a pass being started while the
cursor is below `stop`. -/
def patternSlotsUpTo (W : Nat) (gs : List (Nat × Nat)) (stop : Nat) : Nat → Nat → List Nat
  | 0, _ => []
  | n + 1, ptr =>
    if ptr < stop then
      (passSlots W gs ptr).1 ++ patternSlotsUpTo W gs stop n (passSlots W gs ptr).2
    else []

/-- The slots considered in the repeating-pattern branch from the cursor `ptr` until the cursor
reaches `stop` (every pass advances the cursor, so `stop - ptr` passes are enough when the
pattern has a group). -/
def patternSlots (W : Nat) (gs : List (Nat × Nat)) (stop ptr : Nat) : List Nat :=
  patternSlotsUpTo W gs stop (stop - ptr) ptr

/-- The local `ptr` of the repeating-pattern branch of `WalkObject` before its loop:
`addr + GetSeriesOffset(highest)`. -/
def patternBegin (W : Nat) (mem : Mem) (d : GCDesc) (addr : Nat) : Nat :=
  padd W addr (GetSeriesOffset W mem d (GetHighestSeries W d))

/-- The bound of the loop of the repeating-pattern branch: `addr + size - sizeof(size_t)`. -/
def patternStop (W : Nat) (addr size : Nat) : Nat := padd W addr ((size : Int) - W)

/-- The slots reported in the repeating-pattern branch: the non-zero ones among the slots
considered. -/
def patternReported (W : Nat) (mem : Mem) (d : GCDesc) (addr size : Nat) : List Nat :=
  (patternSlots W (patternGroups W mem d) (patternStop W addr size)
    (patternBegin W mem d addr)).filter (fun p => decide (readLE mem p W ≠ 0))

/-- The slots reported by `WalkObject` on a descriptor, in call order. -/
def walkObjectSlots (W : Nat) (mem : Mem) (d : GCDesc) (F addr size : Nat) : Option (List Nat) :=
  WalkObject W mem d F addr size [] (fun _ ptr acc => acc ++ [ptr])

/-- Values taken by `curr` in the first `fuel` iterations of the loop
`do { ... curr -= sizeof(size_t) * 2; } while (curr >= lowest)`. -/
def seriesCurrs (W : Nat) (lowest : Int) : Nat → Int → List Int
  | 0, _ => []
  | fuel + 1, curr =>
    curr :: (if toInt32 (curr - W * 2) ≥ lowest then
      seriesCurrs W lowest fuel (toInt32 (curr - W * 2)) else [])

/-- Values taken by `i` in the first `fuel` iterations of `for (int32_t i = 0; i > series; i--)`. -/
def groupIndices (series : Int) : Nat → Int → List Int
  | 0, _ => []
  | fuel + 1, i => if i > series then i :: groupIndices series fuel (toInt32 (i - 1)) else []

/-- Blob offset (relative to `data`) and width of the reads of the descriptor that `WalkObject`
performs through the accessors in the first `F` iterations of its loops: `GetNumSeries` reads
the word at `size - sizeof(size_t)`; in the fixed-series branch every iteration reads
`GetSeriesOffset(curr)`, the word at `curr + sizeof(size_t)`, and `GetSeriesSize(curr)`, the word
at `curr`; in the repeating-pattern branch `GetSeriesOffset(curr)` is read once and every pass
of the group loop, if there is one, reads `GetPointers(curr, i)` and `GetSkip(curr, i)`, the
half-words at `curr + offset`. -/
def descriptorReads (W : Nat) (mem : Mem) (d : GCDesc) (F : Nat) : List (Int × Nat) :=
  let series := GetNumSeries W mem d
  let highest := GetHighestSeries W d
  if series > 0 then
    ((d.size : Int) - W, W) ::
      (seriesCurrs W (GetLowestSeries W mem d) F highest).flatMap
        (fun curr => [(curr + W, W), (curr, W)])
  else
    ((d.size : Int) - W, W) :: (highest + W, W) ::
      (groupIndices series F 0).flatMap
        (fun i => [(highest + toInt32 (i * W), W / 2),
          (highest + toInt32 (i * W + (W / 2 : Nat)), W / 2)])

/-! ## The decoding as the specification words it -/

/-- The lowest series offset as the specification words it: `blobEnd - W - (N + 1) * 2W`. -/
def specLowestSeries (W size : Nat) (n : Int) : Int := (size : Int) - W - (n + 1) * (2 * W)

/-- The slots of a fixed series list as the specification words it: `N + 1` pairs are decoded,
from the highest series down. -/
def specFixedSlots (W : Nat) (mem : Mem) (d : GCDesc) (addr size : Nat) : List Nat :=
  (seriesOffsets W d.size ((GetNumSeries W mem d).toNat + 1)).flatMap
    (fun curr => slotRun W mem (seriesBegin W mem d addr curr) (seriesStop W mem d addr size curr))

/-- One pass over the groups as the specification words it: for each group exactly
`pointerCount` consecutive slots are considered, then the cursor skips `skipBytes`. -/
def specPassSlots (W : Nat) : List (Nat × Nat) → Nat → List Nat × Nat
  | [], ptr => ([], ptr)
  | g :: gs, ptr =>
    ((slotsFrom W ptr g.1) ++ (specPassSlots W gs (ptr + g.1 * W + g.2)).1,
      (specPassSlots W gs (ptr + g.1 * W + g.2)).2)

/-- The slots considered by at most `n` passes as the specification words them, a pass being
started while the cursor is below `stop`. -/
def specPatternSlotsUpTo (W : Nat) (gs : List (Nat × Nat)) (stop : Nat) : Nat → Nat → List Nat
  | 0, _ => []
  | n + 1, ptr =>
    if ptr < stop then
      (specPassSlots W gs ptr).1 ++ specPatternSlotsUpTo W gs stop n (specPassSlots W gs ptr).2
    else []

/-! ## Relocated heaps -/

/-- The slots reported in two corresponding objects `x1` and `x2` correspond: there are equally
many, they lie at the same offsets from the object addresses, and their referents are
corresponding objects. -/
def slotsMatch (W : Nat) (mem1 mem2 : Mem) (pairs : List (Nat × Nat)) (x1 x2 : Nat) :
    List Nat → List Nat → Bool
  | [], [] => true
  | p1 :: t1, p2 :: t2 =>
    decide ((p1 : Int) - x1 = (p2 : Int) - x2) &&
      decide ((readLE mem1 p1 W, readLE mem2 p2 W) ∈ pairs) &&
      slotsMatch W mem1 mem2 pairs x1 x2 t1 t2
  | _, _ => false

/-- Every byte of the contents copied for `x1` (the `contentsLen` bytes after the type pointer)
that lies in no reported slot of `x1` equals the byte at the same offset of `x2`. -/
def payloadMatch (W : Nat) (mem1 mem2 : Mem) (x1 x2 : Nat) (sl1 : List Nat) : Bool :=
  (List.range (contentsLen W mem1 x1)).all (fun i =>
    decide (mem1 (x1 + W + i) % 256 = mem2 (x2 + W + i) % 256) ||
      sl1.any (fun p => decide (p ≤ x1 + W + i ∧ x1 + W + i < p + W)))

/-- The objects `x1` of the first heap and `x2` of the second correspond: same computed size,
the walker halts on both and reports corresponding slots, and the contents outside the reported
slots are equal. -/
def relocatedAt (W : Nat) (mem1 mem2 : Mem) (F : Nat) (pairs : List (Nat × Nat)) (x1 x2 : Nat) :
    Bool :=
  decide (GetObjectSize2 W mem1 x1 = GetObjectSize2 W mem2 x2) &&
    match walkSlots W mem1 F x1, walkSlots W mem2 F x2 with
    | some sl1, some sl2 =>
      slotsMatch W mem1 mem2 pairs x1 x2 sl1 sl2 && payloadMatch W mem1 mem2 x1 x2 sl1
    | _, _ => false

/-- The second heap is a relocation of the first along `pairs`, a list of pairs of corresponding
object addresses: the correspondence is one-to-one on object addresses, it induces a one-to-one
correspondence of the type-descriptor addresses of corresponding objects, and corresponding
objects are related by `relocatedAt` (in particular referents of corresponding slots are again
in `pairs`). -/
def Relocated (W : Nat) (mem1 mem2 : Mem) (F : Nat) (pairs : List (Nat × Nat)) : Prop :=
  (∀ a ∈ pairs, ∀ b ∈ pairs, a.1 = b.1 ↔ a.2 = b.2) ∧
  (∀ a ∈ pairs, ∀ b ∈ pairs, GetMTFromObject W mem1 a.1 = GetMTFromObject W mem1 b.1 ↔
    GetMTFromObject W mem2 a.2 = GetMTFromObject W mem2 b.2) ∧
  (∀ a ∈ pairs, relocatedAt W mem1 mem2 F pairs a.1 a.2 = true)

instance (W : Nat) (mem1 mem2 : Mem) (F : Nat) (pairs : List (Nat × Nat)) :
    Decidable (Relocated W mem1 mem2 F pairs) := by
  unfold Relocated
  infer_instance

/-- The sentinel types `fp1` and `fp2` of two runs correspond: an object has the type `fp1`
exactly when the corresponding object has the type `fp2`. -/
def SentinelsCorrespond (W : Nat) (mem1 mem2 : Mem) (fp1 fp2 : Nat) (pairs : List (Nat × Nat)) :
    Prop :=
  ∀ a ∈ pairs, GetMTFromObject W mem1 a.1 = fp1 ↔ GetMTFromObject W mem2 a.2 = fp2

instance (W : Nat) (mem1 mem2 : Mem) (fp1 fp2 : Nat) (pairs : List (Nat × Nat)) :
    Decidable (SentinelsCorrespond W mem1 mem2 fp1 fp2 pairs) := by
  unfold SentinelsCorrespond
  infer_instance

/-- Two type-descriptor addresses correspond: they are the types of corresponding objects. -/
def TypesCorrespond (W : Nat) (mem1 mem2 : Mem) (pairs : List (Nat × Nat)) (t1 t2 : Nat) : Prop :=
  ∃ a ∈ pairs, GetMTFromObject W mem1 a.1 = t1 ∧ GetMTFromObject W mem2 a.2 = t2

/-- The states of two runs of `SerializeObject` on relocated heaps correspond: queues and map
keys hold corresponding addresses, and everything else is equal, the fixup lists if the
sentinels correspond and the file contents as long as the file is shorter than `2 ^ (8 * W)`
bytes. -/
structure RelocState (W : Nat) (mem1 mem2 : Mem) (fp1 fp2 : Nat) (pairs : List (Nat × Nat))
    (st1 st2 : SerState) : Prop where
  /-- The queues hold corresponding objects. -/
  queue : List.Forall₂ (fun a b => (a, b) ∈ pairs) st1.objectQueue st2.objectQueue
  /-- The maps assign equal offsets to corresponding objects, in the same order. -/
  omap : List.Forall₂ (fun e1 e2 => (e1.1, e2.1) ∈ pairs ∧ e1.2 = e2.2)
    st1.serializedObjectMap st2.serializedObjectMap
  /-- The token maps assign equal tokens to corresponding types, in the same order. -/
  tmap : List.Forall₂ (fun e1 e2 => TypesCorrespond W mem1 mem2 pairs e1.1 e2.1 ∧ e1.2 = e2.2)
    st1.mtTokenMap st2.mtTokenMap
  /-- The token lists assign equal tokens to corresponding types, in the same order. -/
  tuples : List.Forall₂ (fun e1 e2 => TypesCorrespond W mem1 mem2 pairs e1.1 e2.1 ∧ e1.2 = e2.2)
    st1.methodTableTokenTupleList st2.methodTableTokenTupleList
  /-- The fixup lists are equal when the sentinels correspond. -/
  fixups : SentinelsCorrespond W mem1 mem2 fp1 fp2 pairs →
    st1.functionPointerFixupList = st2.functionPointerFixupList
  /-- The write cursors are equal. -/
  cfp : st1.currentFilePointer = st2.currentFilePointer
  /-- The reservation cursors are equal. -/
  lre : st1.lastReservedObjectEnd = st2.lastReservedObjectEnd
  /-- The put positions are equal. -/
  pos : st1.file.pos = st2.file.pos
  /-- The put position is the write cursor. -/
  pos_cfp : st1.file.pos = st1.currentFilePointer
  /-- The files have the same length. -/
  len : st1.file.bytes.length = st2.file.bytes.length
  /-- The files have the same bytes. -/
  bytes : st1.file.bytes.length < wordMod W → st1.file.bytes = st2.file.bytes
  /-- The records are for corresponding objects and carry equal tokens, positions and
  extents. -/
  records : List.Forall₂ (fun r1 r2 => (r1.objectId, r2.objectId) ∈ pairs ∧
      r1.mtToken = r2.mtToken ∧ r1.filePos = r2.filePos ∧ r1.fileEnd = r2.fileEnd ∧
      r1.objectStart = r2.objectStart)
    st1.records st2.records

/-- The contexts of two runs during the patches of corresponding objects correspond. -/
structure RelocCtx (pairs : List (Nat × Nat)) (c1 c2 : WalkObjectContext) : Prop where
  /-- The maps assign equal offsets to corresponding objects, in the same order. -/
  omap : List.Forall₂ (fun e1 e2 => (e1.1, e2.1) ∈ pairs ∧ e1.2 = e2.2)
    c1.SerializedObjectMap c2.SerializedObjectMap
  /-- The queues hold corresponding objects. -/
  queue : List.Forall₂ (fun a b => (a, b) ∈ pairs) c1.ObjectQueue c2.ObjectQueue
  /-- The record starts are equal. -/
  os : c1.ObjectStart = c2.ObjectStart
  /-- The reservation cursors are equal. -/
  lre : c1.LastReservedObjectEnd = c2.LastReservedObjectEnd
  /-- The put positions are equal. -/
  pos : c1.File.pos = c2.File.pos
  /-- The files have the same length. -/
  len : c1.File.bytes.length = c2.File.bytes.length

/-- Two files agree at every offset that no `W`-byte patch at one of the positions `qs` covers. -/
def AgreeOutside (W : Nat) (qs : List Nat) (f1 f2 : OFile) : Prop :=
  ∀ j, (∀ q ∈ qs, ¬ (q ≤ j ∧ j < q + W)) → f1.byteAt j = f2.byteAt j

/-! ## Concrete heaps used to evaluate the model -/

/-- Memory cells holding the `n`-byte little-endian representation of `v` at address `a`. -/
def cellsLE (a v : Nat) : Nat → List (Nat × Nat)
  | 0 => []
  | n + 1 => (a, v % 256) :: cellsLE (a + 1) (v / 256) n

/-- The memory given by a list of cells; every other cell is zero. -/
def memOf (cells : List (Nat × Nat)) : Mem := fun a => (cells.lookup a).getD 0

/-- A 64-bit method table at address 4096 for a class with one reference field: base size 24,
flag `enum_flag_ContainsPointers`, one series `(-16, 8)`. -/
def nodeMT : List (Nat × Nat) :=
  cellsLE 4072 18446744073709551600 8 ++ cellsLE 4080 8 8 ++ cellsLE 4088 1 8 ++
  cellsLE 4096 16777216 4 ++ cellsLE 4100 24 4

/-- A 64-bit method table at address 5000 for a class without reference fields, base size 24. -/
def plainMT : List (Nat × Nat) := cellsLE 5000 0 4 ++ cellsLE 5004 24 4

/-- A 64-bit method table at address 6000 whose base size is 12. -/
def smallMT : List (Nat × Nat) := cellsLE 6000 0 4 ++ cellsLE 6004 12 4

/-- A 64-bit method table at address 7000 for an array of 8-byte values without references:
base size 24, component size 8. -/
def arrayMT : List (Nat × Nat) := cellsLE 7000 2147483656 4 ++ cellsLE 7004 24 4

/-- A 64-bit method table at address 4296 for a class with two reference fields: base size 32,
flag `enum_flag_ContainsPointers`, one series `(-16, 8)`. -/
def pairMT : List (Nat × Nat) :=
  cellsLE 4272 18446744073709551600 8 ++ cellsLE 4280 8 8 ++ cellsLE 4288 1 8 ++
  cellsLE 4296 16777216 4 ++ cellsLE 4300 32 4

/-- One node at 8192 whose reference field points to the node itself. -/
def selfHeap : Mem := memOf (nodeMT ++ cellsLE 8192 4096 8 ++ cellsLE 8200 8192 8)

/-- A node at 8192 referencing an object without references at 8300, whose payload is `0x1122`. -/
def twoHeap : Mem :=
  memOf (nodeMT ++ plainMT ++ cellsLE 8192 4096 8 ++ cellsLE 8200 8300 8 ++
    cellsLE 8300 5000 8 ++ cellsLE 8308 4386 8)

/-- Two nodes at 8192 and 8300 referencing each other. -/
def cycleHeap : Mem :=
  memOf (nodeMT ++ cellsLE 8192 4096 8 ++ cellsLE 8200 8300 8 ++
    cellsLE 8300 4096 8 ++ cellsLE 8308 8192 8)

/-- One object at 8192 whose type has base size 12. -/
def smallHeap : Mem := memOf (smallMT ++ cellsLE 8192 6000 8)

/-- One array at 8192 with `2 ^ 29` components of 8 bytes; a payload byte far inside is 7. -/
def hugeHeap : Mem :=
  memOf (arrayMT ++ cellsLE 8192 7000 8 ++ cellsLE 8200 536870912 4 ++ cellsLE 8300 7 1)

/-- A pair at 8192 referencing an array of `2 ^ 29` components at 9000 and a plain object
at 8300. -/
def hugeRefHeap : Mem :=
  memOf (pairMT ++ arrayMT ++ plainMT ++ cellsLE 8192 4296 8 ++ cellsLE 8200 9000 8 ++
    cellsLE 8208 8300 8 ++ cellsLE 9000 7000 8 ++ cellsLE 9008 536870912 4 ++
    cellsLE 8300 5000 8)

/-- A 64-bit method table at address 6100 for a class without reference fields whose base size
is 20. -/
def shortMT : List (Nat × Nat) := cellsLE 6100 0 4 ++ cellsLE 6104 20 4

/-- One object at 8192 whose type has base size 20 and no reference fields. -/
def shortHeap : Mem := memOf (shortMT ++ cellsLE 8192 6100 8)

/-- A 64-bit method table at address 7200 for an array of references in the repeating-pattern
encoding: base size 24, component size 8, flags `enum_flag_HasComponentSize` and
`enum_flag_ContainsPointers`, series count `-1`, start offset 16, one group of one pointer
followed by a skip of `2 ^ 32 - 100` bytes. -/
def refArrayMT : List (Nat × Nat) :=
  cellsLE 7176 1 4 ++ cellsLE 7180 4294967196 4 ++ cellsLE 7184 16 8 ++
  cellsLE 7192 18446744073709551615 8 ++ cellsLE 7200 2164260872 4 ++ cellsLE 7204 24 4

/-- An array at 8192 of the type at 7200 with `2 ^ 29` components whose first component
references a plain object at 8300. -/
def hugeRefArrayHeap : Mem :=
  memOf (refArrayMT ++ plainMT ++ cellsLE 8192 7200 8 ++ cellsLE 8200 536870912 4 ++
    cellsLE 8208 8300 8 ++ cellsLE 8300 5000 8)

/-- A 64-bit method table at address 4496 for a class with two reference fields of which the
descriptor covers the first only: base size 32, flag `enum_flag_ContainsPointers`, series count
1, one series `(-24, 8)`. The two words below the blob hold `(-24, 16)`. -/
def oneSeriesMT : List (Nat × Nat) :=
  cellsLE 4456 18446744073709551592 8 ++ cellsLE 4464 16 8 ++
  cellsLE 4472 18446744073709551592 8 ++ cellsLE 4480 8 8 ++ cellsLE 4488 1 8 ++
  cellsLE 4496 16777216 4 ++ cellsLE 4500 32 4

/-- An object at 8192 of the type at 4496 whose words at 8200 and 8208 both hold the address of
a plain object at 8300. -/
def oneSeriesHeap : Mem :=
  memOf (oneSeriesMT ++ plainMT ++ cellsLE 8192 4496 8 ++ cellsLE 8200 8300 8 ++
    cellsLE 8208 8300 8 ++ cellsLE 8300 5000 8)

/-- A 64-bit method table at address 4696 with flag `enum_flag_ContainsPointers`, base size 24
and series count 0; the word at 4680 below the blob holds `startOffset`. -/
def zeroSeriesMT (startOffset : Nat) : List (Nat × Nat) :=
  cellsLE 4680 startOffset 8 ++ cellsLE 4688 0 8 ++ cellsLE 4696 16777216 4 ++ cellsLE 4700 24 4

/-- An object at 8192 of the type at 4696, the word at 4680 holding `startOffset`. -/
def zeroSeriesHeap (startOffset : Nat) : Mem :=
  memOf (zeroSeriesMT startOffset ++ cellsLE 8192 4696 8 ++ cellsLE 8200 8300 8)

/-- A 64-bit method table at address 7400 for an array in the repeating-pattern encoding whose
only group has pointer count 0 and skip 8: base size 24, component size 8, flags
`enum_flag_HasComponentSize` and `enum_flag_ContainsPointers`, series count `-1`, start
offset 16. -/
def zeroCountArrayMT : List (Nat × Nat) :=
  cellsLE 7376 0 4 ++ cellsLE 7380 8 4 ++ cellsLE 7384 16 8 ++
  cellsLE 7392 18446744073709551615 8 ++ cellsLE 7400 2164260872 4 ++ cellsLE 7404 24 4

/-- An array at 8192 of the type at 7400 with one component, which holds the address of a plain
object at 8300. -/
def zeroCountArrayHeap : Mem :=
  memOf (zeroCountArrayMT ++ plainMT ++ cellsLE 8192 7400 8 ++ cellsLE 8200 1 4 ++
    cellsLE 8208 8300 8 ++ cellsLE 8300 5000 8)

/-- A 64-bit method table at address 7600 for an array of references in the repeating-pattern
encoding: base size 24, component size 8, flags `enum_flag_HasComponentSize` and
`enum_flag_ContainsPointers`, series count `-1`, start offset 16, one group of one pointer
followed by a skip of 0 bytes. -/
def smallRefArrayMT : List (Nat × Nat) :=
  cellsLE 7576 1 4 ++ cellsLE 7580 0 4 ++ cellsLE 7584 16 8 ++
  cellsLE 7592 18446744073709551615 8 ++ cellsLE 7600 2164260872 4 ++ cellsLE 7604 24 4

/-- An array at 8192 of the type at 7600 with three components: a reference to a plain object at
8300, a null reference, and a reference to the array itself. -/
def refArrayHeap : Mem :=
  memOf (smallRefArrayMT ++ plainMT ++ cellsLE 8192 7600 8 ++ cellsLE 8200 3 4 ++
    cellsLE 8208 8300 8 ++ cellsLE 8224 8192 8 ++ cellsLE 8300 5000 8)

/-- Cells of a 64-bit method table at address `2 ^ 33` with flag `enum_flag_ContainsPointers`,
base size 32 and series count `2 ^ 28`, and of an object of this type at 8192 whose word at 8208
holds 8300. The blob of the type is `[2 ^ 32 - 8, 2 ^ 33)`. -/
def bigSeriesCells : List (Nat × Nat) :=
  cellsLE 8589934584 268435456 8 ++ cellsLE 8589934592 16777216 4 ++ cellsLE 8589934596 32 4 ++
  cellsLE 8192 8589934592 8 ++ cellsLE 8208 8300 8

/-- The heap of `bigSeriesCells` with all other cells zero. -/
def bigSeriesBareHeap : Mem := memOf bigSeriesCells

/-- The heap of `bigSeriesCells` where in addition the two words just below the blob, at
`2 ^ 32 - 24` and `2 ^ 32 - 16`, hold `-24` and `16`. -/
def bigSeriesHeap : Mem :=
  memOf (cellsLE 4294967272 18446744073709551592 8 ++ cellsLE 4294967280 16 8 ++ bigSeriesCells)

/-- A descriptor of 24 bytes at address 7000. -/
def wrapDesc : GCDesc := { data := 7000, size := 24 }

/-- A memory in which the last word of `wrapDesc` holds the series count `2 ^ 27 + 1`. -/
def wrapHeap : Mem := memOf (cellsLE 7016 134217729 8)

/-- The heap `twoHeap` relocated: the node type at 6096, the plain type at 3000, the node at
20000 and the plain object, whose payload is `0x1122`, at 12000. -/
def twoHeapMoved : Mem :=
  memOf (cellsLE 6072 18446744073709551600 8 ++ cellsLE 6080 8 8 ++ cellsLE 6088 1 8 ++
    cellsLE 6096 16777216 4 ++ cellsLE 6100 24 4 ++ cellsLE 3000 0 4 ++ cellsLE 3004 24 4 ++
    cellsLE 20000 6096 8 ++ cellsLE 20008 12000 8 ++ cellsLE 12000 3000 8 ++
    cellsLE 12008 4386 8)

/-! # Theorems -/

/-! ## Machine arithmetic -/

theorem wordMod_four : wordMod 4 = 4294967296 := by norm_num [wordMod]

theorem wordMod_eight : wordMod 8 = 18446744073709551616 := by norm_num [wordMod]

theorem wordMod_ge (W : Nat) (hW : W = 4 ∨ W = 8) : 4294967296 ≤ wordMod W := by
  rcases hW with rfl | rfl
  · rw [wordMod_four]
  · rw [wordMod_eight]; norm_num

theorem PADDING_eq (W : Nat) (hW : W = 4 ∨ W = 8) (n : Nat) :
    PADDING W n W = (W - n % W) % W := by
  rcases hW with rfl | rfl
  · have h := Nat.and_pow_two_sub_one_eq_mod ((wordMod 4 - n % wordMod 4) % wordMod 4) 2
    norm_num at h
    unfold PADDING
    rw [show (4 - 1 : Nat) = 3 from rfl, h, wordMod_four]
    omega
  · have h := Nat.and_pow_two_sub_one_eq_mod ((wordMod 8 - n % wordMod 8) % wordMod 8) 3
    norm_num at h
    unfold PADDING
    rw [show (8 - 1 : Nat) = 7 from rfl, h, wordMod_eight]
    omega

theorem PtrAlign_small (W : Nat) (hW : W = 4 ∨ W = 8) (size : Nat) (h : size < 24) :
    PtrAlign W size = (size + 7) / 8 * 8 := by
  rcases hW with rfl | rfl <;> interval_cases size <;> rfl

theorem readLE_lt (mem : Mem) (n a : Nat) : readLE mem a n < 256 ^ n := by
  induction n generalizing a with
  | zero => simp [readLE]
  | succ k ih =>
    have h1 := ih (a + 1)
    have h2 : mem a % 256 < 256 := Nat.mod_lt _ (by norm_num)
    simp only [readLE, pow_succ]
    nlinarith

theorem wordMod_eq_pow (W : Nat) : wordMod W = 256 ^ W := by
  unfold wordMod
  rw [show (256 : Nat) = 2 ^ 8 from rfl, ← pow_mul]

theorem readLE_word_lt (W : Nat) (mem : Mem) (a : Nat) : readLE mem a W < wordMod W := by
  have h := readLE_lt mem W a
  rw [wordMod_eq_pow]
  exact h

theorem GetObjectSize2_lt (W : Nat) (hW : W = 4 ∨ W = 8) (mem : Mem) (o : Nat) :
    GetObjectSize2 W mem o < wordMod W := by
  have hM := wordMod_ge W hW
  have hmin : MIN_OBJECT_SIZE W ≤ 24 := by
    rcases hW with rfl | rfl <;> decide
  unfold GetObjectSize2
  simp only
  split
  · rename_i h
    rw [PtrAlign_small W hW _ (by omega)]
    omega
  · unfold GetSize
    simp only
    split
    · exact Nat.mod_lt _ (by omega)
    · have := readLE_lt mem 4 (RawGetMethodTable W mem o + 4)
      unfold GetBaseSize m_BaseSize
      omega

section Sim
variable {σ τ : Type} (W : Nat) (mem : Mem) (cb : Nat → Nat → σ → σ) (cb2 : Nat → Nat → τ → τ)
  (R : σ → τ → Prop) (addr : Nat)

theorem reportSlot_sim (hcb : ∀ p c t, readLE mem p W ≠ 0 → R c t → R (cb addr p c) (cb2 addr p t))
    (ptr : Nat) (c : σ) (t : τ) (h : R c t) :
    R (reportSlot W mem cb addr ptr c) (reportSlot W mem cb2 addr ptr t) := by
  unfold reportSlot
  split
  · rename_i hne
    exact hcb _ _ _ hne h
  · exact h

theorem scanWhile_sim (hcb : ∀ p c t, readLE mem p W ≠ 0 → R c t → R (cb addr p c) (cb2 addr p t)) (stop : Nat) :
    ∀ (fuel ptr : Nat) (c : σ) (t : τ), R c t →
      OptRel R (scanWhile W mem cb addr stop fuel ptr c) (scanWhile W mem cb2 addr stop fuel ptr t) := by
  intro fuel
  induction fuel with
  | zero => intro ptr c t _; exact OptRel.none
  | succ n ih =>
    intro ptr c t h
    simp only [scanWhile]
    split
    · exact ih _ _ _ (reportSlot_sim W mem cb cb2 R addr hcb ptr c t h)
    · exact OptRel.some h

theorem seriesLoop_sim (hcb : ∀ p c t, readLE mem p W ≠ 0 → R c t → R (cb addr p c) (cb2 addr p t))
    (d : GCDesc) (size : Nat) (lowest : Int) (F : Nat) :
    ∀ (fuel : Nat) (curr : Int) (c : σ) (t : τ), R c t →
      OptRel R (seriesLoop W mem cb d addr size lowest F fuel curr c)
        (seriesLoop W mem cb2 d addr size lowest F fuel curr t) := by
  intro fuel
  induction fuel with
  | zero => intro curr c t _; exact OptRel.none
  | succ n ih =>
    intro curr c t h
    simp only [seriesLoop]
    have hs := scanWhile_sim W mem cb cb2 R addr hcb
      (padd W (padd W addr (GetSeriesOffset W mem d curr)) (GetSeriesSize W mem d curr + size))
      F (padd W addr (GetSeriesOffset W mem d curr)) c t h
    generalize scanWhile W mem cb addr _ F _ c = x at hs ⊢
    generalize scanWhile W mem cb2 addr _ F _ t = y at hs ⊢
    cases hs with
    | none => exact OptRel.none
    | some hs =>
      dsimp only
      split
      · exact ih _ _ _ hs
      · exact OptRel.some hs

theorem groupDo_sim (hcb : ∀ p c t, readLE mem p W ≠ 0 → R c t → R (cb addr p c) (cb2 addr p t)) (stop : Nat) :
    ∀ (fuel ptr : Nat) (c : σ) (t : τ), R c t →
      OptRel (fun a b => a.1 = b.1 ∧ R a.2 b.2) (groupDo W mem cb addr stop fuel ptr c)
        (groupDo W mem cb2 addr stop fuel ptr t) := by
  intro fuel
  induction fuel with
  | zero => intro ptr c t _; exact OptRel.none
  | succ n ih =>
    intro ptr c t h
    simp only [groupDo]
    split
    · exact ih _ _ _ (reportSlot_sim W mem cb cb2 R addr hcb ptr c t h)
    · exact OptRel.some ⟨rfl, reportSlot_sim W mem cb cb2 R addr hcb ptr c t h⟩

theorem groupFor_sim (hcb : ∀ p c t, readLE mem p W ≠ 0 → R c t → R (cb addr p c) (cb2 addr p t))
    (d : GCDesc) (series curr : Int) (F : Nat) :
    ∀ (fuel : Nat) (i : Int) (ptr : Nat) (c : σ) (t : τ), R c t →
      OptRel (fun a b => a.1 = b.1 ∧ R a.2 b.2) (groupFor W mem cb d addr series curr F fuel i ptr c)
        (groupFor W mem cb2 d addr series curr F fuel i ptr t) := by
  intro fuel
  induction fuel with
  | zero => intro i ptr c t _; exact OptRel.none
  | succ n ih =>
    intro i ptr c t h
    simp only [groupFor]
    split
    · have hs := groupDo_sim W mem cb cb2 R addr hcb
        (padd W ptr ((GetPointers W mem d curr i * W % wordMod W : Nat) : Int)) F ptr c t h
      generalize groupDo W mem cb addr _ F ptr c = x at hs ⊢
      generalize groupDo W mem cb2 addr _ F ptr t = y at hs ⊢
      cases hs with
      | none => exact OptRel.none
      | some hs =>
        rename_i a b
        obtain ⟨a1, a2⟩ := a
        obtain ⟨b1, b2⟩ := b
        obtain ⟨h1, h2⟩ := hs
        dsimp only at h1 h2 ⊢
        subst h1
        exact ih _ _ _ _ h2
    · exact OptRel.some ⟨rfl, h⟩

theorem elementWhile_sim (hcb : ∀ p c t, readLE mem p W ≠ 0 → R c t → R (cb addr p c) (cb2 addr p t))
    (d : GCDesc) (size : Nat) (series curr : Int) (F : Nat) :
    ∀ (fuel : Nat) (ptr : Nat) (c : σ) (t : τ), R c t →
      OptRel R (elementWhile W mem cb d addr size series curr F fuel ptr c)
        (elementWhile W mem cb2 d addr size series curr F fuel ptr t) := by
  intro fuel
  induction fuel with
  | zero => intro ptr c t _; exact OptRel.none
  | succ n ih =>
    intro ptr c t h
    simp only [elementWhile]
    split
    · have hs := groupFor_sim W mem cb cb2 R addr hcb d series curr F F 0 ptr c t h
      generalize groupFor W mem cb d addr series curr F F 0 ptr c = x at hs ⊢
      generalize groupFor W mem cb2 d addr series curr F F 0 ptr t = y at hs ⊢
      cases hs with
      | none => exact OptRel.none
      | some hs =>
        rename_i a b
        obtain ⟨a1, a2⟩ := a
        obtain ⟨b1, b2⟩ := b
        obtain ⟨h1, h2⟩ := hs
        dsimp only at h1 h2 ⊢
        subst h1
        exact ih _ _ _ h2
    · exact OptRel.some h

theorem WalkObject_sim (hcb : ∀ p c t, readLE mem p W ≠ 0 → R c t → R (cb addr p c) (cb2 addr p t))
    (d : GCDesc) (F size : Nat) (c : σ) (t : τ) (h : R c t) :
    OptRel R (WalkObject W mem d F addr size c cb) (WalkObject W mem d F addr size t cb2) := by
  unfold WalkObject
  dsimp only
  split
  · exact seriesLoop_sim W mem cb cb2 R addr hcb d size _ F F _ c t h
  · exact elementWhile_sim W mem cb cb2 R addr hcb d size _ _ F F _ c t h

theorem EnumerateObjectReferences_sim (hcb : ∀ p c t, readLE mem p W ≠ 0 → R c t → R (cb addr p c) (cb2 addr p t))
    (F : Nat) (c : σ) (t : τ) (h : R c t) :
    OptRel R (EnumerateObjectReferences W mem F addr c cb)
      (EnumerateObjectReferences W mem F addr t cb2) := by
  unfold EnumerateObjectReferences
  dsimp only
  split
  · exact WalkObject_sim W mem cb cb2 R addr hcb _ F _ c t h
  · exact OptRel.some h

end Sim

/-- The walker only folds the callback over the reported slots. -/
theorem EnumerateObjectReferences_eq_foldl {σ : Type} (W : Nat) (mem : Mem) (F : Nat) (curr : Nat)
    (ctx : σ) (cb : Nat → Nat → σ → σ) :
    EnumerateObjectReferences W mem F curr ctx cb =
      (walkSlots W mem F curr).map (fun sl => sl.foldl (fun c p => cb curr p c) ctx) := by
  have h := EnumerateObjectReferences_sim W mem cb (fun _ ptr acc => acc ++ [ptr])
    (fun c acc => c = acc.foldl (fun c p => cb curr p c) ctx) curr
    (by intro p c t _ h; simp [List.foldl_append, h]) F ctx [] rfl
  unfold walkSlots
  generalize EnumerateObjectReferences W mem F curr ctx cb = x at h ⊢
  generalize EnumerateObjectReferences W mem F curr ([] : List Nat) (fun _ ptr acc => acc ++ [ptr]) = y at h ⊢
  cases h with
  | none => rfl
  | some h => simp [h]

/-! ## The loop of `SerializeObject` -/

theorem serializeStep_eq (W : Nat) (mem : Mem) (fp F x : Nat) (st : SerState) :
    serializeStep W mem fp F x st =
      (walkSlots W mem F x).map
        (fun sl => stepState W mem fp x st (patchAll W mem x sl (stepContext W mem x st))) := by
  unfold serializeStep
  rw [EnumerateObjectReferences_eq_foldl]
  cases walkSlots W mem F x <;> rfl

theorem serializeLoop_mono (W : Nat) (mem : Mem) (fp F : Nat) :
    ∀ (fuel : Nat) (st r : SerState), serializeLoop W mem fp F fuel st = some r →
      ∀ k, serializeLoop W mem fp F (fuel + k) st = some r := by
  intro fuel
  induction fuel with
  | zero => intro st r h; simp [serializeLoop] at h
  | succ n ih =>
    intro st r h k
    rw [show n + 1 + k = (n + k) + 1 by omega]
    simp only [serializeLoop] at h ⊢
    cases hq : st.objectQueue with
    | nil => rw [hq] at h; exact h
    | cons x q =>
      rw [hq] at h
      dsimp only at h ⊢
      cases hs : serializeStep W mem fp F x st with
      | none => rw [hs] at h; simp at h
      | some st1 =>
        rw [hs] at h
        dsimp only at h ⊢
        exact ih st1 r h k

/-- Induction principle for the loop: a property of the initial state that every iteration
preserves holds of the final state, whose queue is empty. -/
theorem serializeLoop_inv (W : Nat) (mem : Mem) (fp F : Nat) (P : SerState → Prop)
    (hstep : ∀ st x q st1, P st → st.objectQueue = x :: q →
      serializeStep W mem fp F x st = some st1 → P st1) :
    ∀ (fuel : Nat) (st r : SerState), P st → serializeLoop W mem fp F fuel st = some r →
      P r ∧ r.objectQueue = [] := by
  intro fuel
  induction fuel with
  | zero => intro st r _ h; simp [serializeLoop] at h
  | succ n ih =>
    intro st r hP h
    simp only [serializeLoop] at h
    cases hq : st.objectQueue with
    | nil =>
      rw [hq] at h
      simp only [Option.some.injEq] at h
      subst h
      exact ⟨hP, hq⟩
    | cons x q =>
      rw [hq] at h
      dsimp only at h
      cases hs : serializeStep W mem fp F x st with
      | none => rw [hs] at h; simp at h
      | some st1 =>
        rw [hs] at h
        dsimp only at h
        exact ih st1 r (hstep st x q st1 hP hq hs) h

theorem patchAll_nil (W : Nat) (mem : Mem) (x : Nat) (ctx : WalkObjectContext) :
    patchAll W mem x [] ctx = ctx := rfl

theorem patchAll_cons (W : Nat) (mem : Mem) (x p : Nat) (sl : List Nat) (ctx : WalkObjectContext) :
    patchAll W mem x (p :: sl) ctx = patchAll W mem x sl (EachObjectReference W mem x p ctx) := rfl

/-- Induction principle for the patches of one iteration. -/
theorem patchAll_inv (W : Nat) (mem : Mem) (x : Nat) (P : WalkObjectContext → Prop)
    (sl : List Nat)
    (hstep : ∀ c p, p ∈ sl → P c → P (EachObjectReference W mem x p c)) :
    ∀ ctx, P ctx → P (patchAll W mem x sl ctx) := by
  induction sl with
  | nil => intro ctx h; exact h
  | cons p l ih =>
    intro ctx h
    rw [patchAll_cons]
    exact ih (fun c q hq hc => hstep c q (List.mem_cons_of_mem _ hq) hc) _
      (hstep ctx p (List.mem_cons_self _ _) h)

/-! ## Reservation and write cursors -/

theorem resvEnd_append (W : Nat) (mem : Mem) (l : List Nat) (x : Nat) :
    resvEnd W mem (l ++ [x]) = (resvEnd W mem l + reservedLen W mem x) % wordMod W := by
  simp [resvEnd, List.foldl_append]

theorem cfpEnd_append (W : Nat) (mem : Mem) (l : List Nat) (x : Nat) :
    cfpEnd W mem (l ++ [x]) = cfpAfter W mem (cfpEnd W mem l) x := by
  simp [cfpEnd, List.foldl_append]

theorem resvMap_append (W : Nat) (mem : Mem) (l : List Nat) (y : Nat) :
    ∀ pre, resvMap W mem pre (l ++ [y]) =
      resvMap W mem pre l ++ [(y, (resvEnd W mem (pre ++ l) + W) % wordMod W)] := by
  induction l with
  | nil => intro pre; simp [resvMap]
  | cons x xs ih =>
    intro pre
    have h := ih (pre ++ [x])
    rw [List.append_assoc, List.singleton_append] at h
    rw [List.cons_append]
    simp only [resvMap]
    rw [h, List.cons_append]

theorem resvMap_keys (W : Nat) (mem : Mem) (l : List Nat) :
    ∀ pre, (resvMap W mem pre l).map Prod.fst = l := by
  induction l with
  | nil => intro pre; rfl
  | cons x xs ih => intro pre; simp [resvMap, ih]

theorem resvMap_mem (W : Nat) (mem : Mem) (l : List Nat) :
    ∀ pre k off, (k, off) ∈ resvMap W mem pre l →
      ∃ a b, l = a ++ k :: b ∧ off = (resvEnd W mem (pre ++ a) + W) % wordMod W := by
  induction l with
  | nil => intro pre k off h; simp [resvMap] at h
  | cons x xs ih =>
    intro pre k off h
    simp only [resvMap, List.mem_cons, Prod.mk.injEq] at h
    rcases h with ⟨rfl, rfl⟩ | h
    · exact ⟨[], xs, rfl, by simp⟩
    · obtain ⟨a, b, hab, hoff⟩ := ih _ _ _ h
      refine ⟨x :: a, b, by simp [hab], ?_⟩
      simpa using hoff

theorem lookup_resvMap_none (W : Nat) (mem : Mem) (pre l : List Nat) (k : Nat) :
    (resvMap W mem pre l).lookup k = none ↔ k ∉ l := by
  rw [List.lookup_eq_none_iff]
  constructor
  · intro h hk
    rw [← resvMap_keys W mem l pre] at hk
    obtain ⟨p, hp, rfl⟩ := List.mem_map.mp hk
    have := h p hp
    simp at this
  · intro h p hp
    have : p.1 ∈ l := by
      rw [← resvMap_keys W mem l pre]
      exact List.mem_map_of_mem _ hp
    simp only [bne_iff_ne, ne_eq]
    rintro rfl
    exact h this

/-! ## Bookkeeping invariant -/

theorem EachObjectReference_grow (W : Nat) (mem : Mem) (x p root : Nat) (ctx : WalkObjectContext)
    (q0 tl news : List Nat)
    (hq : ctx.ObjectQueue = q0 ++ news)
    (hm : ctx.SerializedObjectMap = resvMap W mem [root] (tl ++ news))
    (hl : ctx.LastReservedObjectEnd = resvEnd W mem (root :: tl ++ news))
    (hn : (tl ++ news).Nodup) :
    ∃ news1, (EachObjectReference W mem x p ctx).ObjectQueue = q0 ++ news1 ∧
      (EachObjectReference W mem x p ctx).SerializedObjectMap = resvMap W mem [root] (tl ++ news1) ∧
      (EachObjectReference W mem x p ctx).LastReservedObjectEnd = resvEnd W mem (root :: tl ++ news1) ∧
      (tl ++ news1).Nodup ∧
      (news1 = news ∨ news1 = news ++ [readLE mem p W]) ∧
      (EachObjectReference W mem x p ctx).ObjectStart = ctx.ObjectStart := by
  unfold EachObjectReference
  dsimp only
  cases hlk : ctx.SerializedObjectMap.lookup (readLE mem p W) with
  | none =>
    refine ⟨news ++ [readLE mem p W], ?_, ?_, ?_, ?_, Or.inr rfl, rfl⟩
    · simp [hq]
    · dsimp only
      rw [hm, ← List.append_assoc, resvMap_append, hl]
      simp
    · dsimp only
      rw [hl, show root :: tl ++ (news ++ [readLE mem p W]) = (root :: tl ++ news) ++ [readLE mem p W] by simp,
        resvEnd_append]
      rfl
    · rw [hm, lookup_resvMap_none] at hlk
      rw [← List.append_assoc]
      exact List.Nodup.append hn (List.nodup_singleton _) (by
        intro a ha hb
        simp only [List.mem_singleton] at hb
        subst hb
        exact hlk ha)
  | some off =>
    exact ⟨news, hq, hm, hl, hn, Or.inl rfl, rfl⟩

theorem patchAll_grow (W : Nat) (mem : Mem) (x root : Nat) (sl : List Nat) (ctx : WalkObjectContext)
    (tl : List Nat)
    (hm : ctx.SerializedObjectMap = resvMap W mem [root] tl)
    (hl : ctx.LastReservedObjectEnd = resvEnd W mem (root :: tl))
    (hn : tl.Nodup) :
    ∃ news, (patchAll W mem x sl ctx).ObjectQueue = ctx.ObjectQueue ++ news ∧
      (patchAll W mem x sl ctx).SerializedObjectMap = resvMap W mem [root] (tl ++ news) ∧
      (patchAll W mem x sl ctx).LastReservedObjectEnd = resvEnd W mem (root :: tl ++ news) ∧
      (tl ++ news).Nodup ∧
      (∀ t ∈ news, ∃ p ∈ sl, readLE mem p W = t) ∧
      (patchAll W mem x sl ctx).ObjectStart = ctx.ObjectStart := by
  refine patchAll_inv W mem x (fun c => ∃ news, c.ObjectQueue = ctx.ObjectQueue ++ news ∧
      c.SerializedObjectMap = resvMap W mem [root] (tl ++ news) ∧
      c.LastReservedObjectEnd = resvEnd W mem (root :: tl ++ news) ∧
      (tl ++ news).Nodup ∧
      (∀ t ∈ news, ∃ p ∈ sl, readLE mem p W = t) ∧
      c.ObjectStart = ctx.ObjectStart) sl ?_ ctx ?_
  · rintro c p hp ⟨news, h1, h2, h3, h4, h5, h6⟩
    obtain ⟨news1, g1, g2, g3, g4, g5, g6⟩ :=
      EachObjectReference_grow W mem x p root c ctx.ObjectQueue tl news h1 h2 h3 h4
    refine ⟨news1, g1, g2, g3, g4, ?_, g6.trans h6⟩
    rcases g5 with rfl | rfl
    · exact h5
    · intro t ht
      rcases List.mem_append.mp ht with ht | ht
      · exact h5 t ht
      · simp only [List.mem_singleton] at ht
        exact ⟨p, hp, ht.symm⟩
  · exact ⟨[], by simp, by simpa using hm, by simpa using hl, by simpa using hn, by simp, rfl⟩

theorem writeRecord_snd (W : Nat) (mem : Mem) (st : SerState) (x tok : Nat) :
    (writeRecord W mem st x tok).2 = cfpAfter W mem st.currentFilePointer x := rfl

theorem writeRecord_pos (W : Nat) (mem : Mem) (st : SerState) (x tok : Nat) :
    (writeRecord W mem st x tok).1.pos = st.file.pos + writtenLen W mem x := by
  simp only [writeRecord, WriteFileAndMoveCurrentFilePointer, OFile.write, writtenLen]
  omega

theorem Inv_init (W : Nat) (mem : Mem) (root : Nat) : Inv W mem root (initState W mem root) where
  pushed_eq := rfl
  pushed_root := ⟨[], rfl⟩
  map_eq := rfl
  nodup := List.nodup_nil
  lre_eq := by
    simp only [initState, resvEnd, List.foldl_cons, List.foldl_nil, reservedLen, Nat.zero_add,
      Nat.mod_mod]
  cfp_eq := rfl
  pos_eq := rfl
  recs := by
    intro pre rec post h
    simp [initState] at h

/-- What one iteration does to the bookkeeping: it writes the record of the front object and
pushes the identities `news` the map did not hold. -/
theorem serializeStep_spec (W : Nat) (mem : Mem) (fp F root x : Nat) (q : List Nat)
    (st st1 : SerState) (hI : Inv W mem root st) (hq : st.objectQueue = x :: q)
    (hs : serializeStep W mem fp F x st = some st1) :
    ∃ sl news, walkSlots W mem F x = some sl ∧
      st1 = stepState W mem fp x st (patchAll W mem x sl (stepContext W mem x st)) ∧
      st1.objectQueue = q ++ news ∧ st1.pushed = st.pushed ++ news ∧
      (∀ t ∈ news, ∃ p ∈ sl, readLE mem p W = t) ∧
      st1.serializedObjectMap = resvMap W mem [root] (st.pushed.tail ++ news) ∧
      st1.lastReservedObjectEnd = resvEnd W mem (st.pushed ++ news) ∧
      (st.pushed.tail ++ news).Nodup := by
  rw [serializeStep_eq] at hs
  cases hw : walkSlots W mem F x with
  | none => rw [hw] at hs; simp at hs
  | some sl =>
    rw [hw] at hs
    simp only [Option.map_some', Option.some.injEq] at hs
    obtain ⟨rest, hrest⟩ := hI.pushed_root
    obtain ⟨news, g1, g2, g3, g4, g5, _⟩ := patchAll_grow W mem x root sl (stepContext W mem x st)
      st.pushed.tail hI.map_eq
      (by show st.lastReservedObjectEnd = _; rw [hI.lre_eq, hrest]; rfl) hI.nodup
    have hq0 : (stepContext W mem x st).ObjectQueue = x :: q := hq
    rw [hq0] at g1
    refine ⟨sl, news, rfl, hs.symm, ?_, ?_, g5, ?_, ?_, g4⟩
    · rw [← hs]
      simp only [stepState, g1, List.cons_append, List.tail_cons]
    · rw [← hs]
      simp only [stepState, g1, hq]
      simp
    · rw [← hs]
      exact g2
    · rw [← hs]
      simp only [stepState, g3, hrest, List.tail_cons, List.cons_append]

theorem Inv_step (W : Nat) (mem : Mem) (fp F root x : Nat) (q : List Nat)
    (st st1 : SerState) (hI : Inv W mem root st) (hq : st.objectQueue = x :: q)
    (hs : serializeStep W mem fp F x st = some st1) : Inv W mem root st1 := by
  obtain ⟨sl, news, _, h1, h2, h3, _, h5, h6, h7⟩ := serializeStep_spec W mem fp F root x q st st1 hI hq hs
  obtain ⟨rest, hrest⟩ := hI.pushed_root
  have hrec : st1.records = st.records ++
      [{ objectId := x, recordStart := st.currentFilePointer, filePos := st.file.pos,
         fileEnd := (writeRecord W mem st x (assignToken st (GetMTFromObject W mem x)).1).1.pos,
         mt := GetMTFromObject W mem x, mtToken := (assignToken st (GetMTFromObject W mem x)).1,
         objectStart := objectStartOf W st,
         recordEnd := (writeRecord W mem st x (assignToken st (GetMTFromObject W mem x)).1).2 }] := by
    rw [h1]; rfl
  have hcfp : st1.currentFilePointer = cfpAfter W mem st.currentFilePointer x := by
    rw [h1]; rfl
  have hpos : st1.file.pos = st1.currentFilePointer := by
    rw [h1]; rfl
  refine ⟨?_, ?_, ?_, ?_, by rw [h6, h3], ?_, hpos, ?_⟩
  · rw [h3, h2, hrec, hI.pushed_eq, hq]
    simp
  · exact ⟨rest ++ news, by rw [h3, hrest]; rfl⟩
  · rw [h5, h3, hrest]; rfl
  · rw [h3, hrest]
    rw [hrest] at h7
    exact h7
  · rw [hcfp, hrec, List.map_append, List.map_singleton, cfpEnd_append, hI.cfp_eq]
  · intro pre rec post hsplit
    rw [hrec] at hsplit
    rcases List.eq_nil_or_concat post with rfl | ⟨post1, last, rfl⟩
    · have := List.append_inj' (show st.records ++ [_] = pre ++ [rec] from hsplit) rfl
      obtain ⟨e1, e2⟩ := this
      simp only [List.cons.injEq, and_true] at e2
      subst e1
      subst e2
      exact ⟨hI.cfp_eq, hI.pos_eq, rfl, writeRecord_snd W mem st x _,
        writeRecord_pos W mem st x _, rfl⟩
    · rw [List.concat_eq_append, ← List.cons_append, ← List.append_assoc] at hsplit
      have := List.append_inj' hsplit rfl
      exact hI.recs pre rec post1 this.1

/-! ## Termination of the traversal -/

theorem closedAt_spec (W : Nat) (mem : Mem) (F : Nat) (objs : List Nat) (x : Nat)
    (h : closedAt W mem F objs x = true) :
    ∃ sl, walkSlots W mem F x = some sl ∧ ∀ p ∈ sl, readLE mem p W ∈ objs := by
  unfold closedAt at h
  cases hw : walkSlots W mem F x with
  | none => rw [hw] at h; simp at h
  | some sl =>
    rw [hw] at h
    refine ⟨sl, rfl, ?_⟩
    intro p hp
    have := List.all_eq_true.mp h p hp
    simpa using this

theorem SerializeObject_inv (W : Nat) (mem : Mem) (root fp F fuel : Nat) (r : SerState)
    (h : SerializeObject W mem root fp F fuel = some r) :
    Inv W mem root r ∧ r.objectQueue = [] :=
  serializeLoop_inv W mem fp F (Inv W mem root)
    (fun st x q st1 hP hq hs => Inv_step W mem fp F root x q st st1 hP hq hs)
    fuel (initState W mem root) r (Inv_init W mem root) h

theorem Inv_length_le (W : Nat) (mem : Mem) (root : Nat) (objs : List Nat) (st : SerState)
    (hI : Inv W mem root st) (ho : ∀ x ∈ st.pushed, x ∈ objs) :
    st.records.length + st.objectQueue.length ≤ objs.length + 1 := by
  obtain ⟨rest, hrest⟩ := hI.pushed_root
  have hn := hI.nodup
  rw [hrest, List.tail_cons] at hn
  have hsub : rest ⊆ objs := by
    intro a ha
    exact ho a (by rw [hrest]; exact List.mem_cons_of_mem _ ha)
  have hle : rest.length ≤ objs.length := (List.subperm_of_subset hn hsub).length_le
  have hlen := congrArg List.length hI.pushed_eq
  rw [hrest] at hlen
  simp only [List.length_cons, List.length_append, List.length_map] at hlen
  omega

theorem serializeLoop_total (W : Nat) (mem : Mem) (fp F root : Nat) (objs : List Nat)
    (hc : Closed W mem F root objs) :
    ∀ (n : Nat) (st : SerState), Inv W mem root st → (∀ x ∈ st.pushed, x ∈ objs) →
      objs.length + 1 - st.records.length ≤ n →
      ∃ r, serializeLoop W mem fp F (n + 1) st = some r := by
  intro n
  induction n with
  | zero =>
    intro st hI ho hn
    have hle := Inv_length_le W mem root objs st hI ho
    have hq : st.objectQueue = [] := by
      apply List.eq_nil_of_length_eq_zero
      omega
    exact ⟨st, by simp [serializeLoop, hq]⟩
  | succ n ih =>
    intro st hI ho hn
    cases hq : st.objectQueue with
    | nil => exact ⟨st, by simp [serializeLoop, hq]⟩
    | cons x q =>
      have hx : x ∈ objs := by
        apply ho
        rw [hI.pushed_eq, hq]
        simp
      obtain ⟨sl, hw, hsl⟩ := closedAt_spec W mem F objs x (hc.2 x hx)
      have hs : serializeStep W mem fp F x st =
          some (stepState W mem fp x st (patchAll W mem x sl (stepContext W mem x st))) := by
        rw [serializeStep_eq, hw]; rfl
      obtain ⟨sl1, news, hw1, h1, _, h3, h4, _⟩ :=
        serializeStep_spec W mem fp F root x q st _ hI hq hs
      rw [hw] at hw1
      simp only [Option.some.injEq] at hw1
      subst hw1
      have hI1 := Inv_step W mem fp F root x q st _ hI hq hs
      have ho1 : ∀ y ∈ (stepState W mem fp x st (patchAll W mem x sl (stepContext W mem x st))).pushed,
          y ∈ objs := by
        intro y hy
        rw [h3] at hy
        rcases List.mem_append.mp hy with hy | hy
        · exact ho y hy
        · obtain ⟨p, hp, rfl⟩ := h4 y hy
          exact hsl p hp
      have hlen : (stepState W mem fp x st (patchAll W mem x sl (stepContext W mem x st))).records.length
          = st.records.length + 1 := by
        simp [stepState]
      obtain ⟨r, hr⟩ := ih _ hI1 ho1 (by omega)
      refine ⟨r, ?_⟩
      rw [serializeLoop, hq]
      dsimp only
      rw [hs]
      exact hr

/-- The traversal terminates: with a closed list of `n` objects, `n + 2` iterations suffice, and
more fuel does not change the result. -/
theorem SerializeObject_total (W : Nat) (mem : Mem) (root fp F : Nat) (objs : List Nat)
    (hc : Closed W mem F root objs) :
    ∃ r, ∀ fuel, objs.length + 2 ≤ fuel → SerializeObject W mem root fp F fuel = some r := by
  obtain ⟨r, hr⟩ := serializeLoop_total W mem fp F root objs hc (objs.length + 1)
    (initState W mem root) (Inv_init W mem root)
    (by intro x hx; simp only [initState, List.mem_singleton] at hx; subst hx; exact hc.1)
    (by omega)
  refine ⟨r, ?_⟩
  intro fuel hf
  have := serializeLoop_mono W mem fp F _ _ _ hr (fuel - (objs.length + 2))
  unfold SerializeObject
  rw [show fuel = objs.length + 1 + 1 + (fuel - (objs.length + 2)) by omega]
  exact this

/-! ## The output stream -/

theorem OFile.length_write (f : OFile) (buf : Nat → Nat) (n : Nat) :
    (f.write buf n).bytes.length = max f.bytes.length (f.pos + n) := by
  simp only [OFile.write, List.length_append, List.length_take, List.length_replicate,
    List.length_map, List.length_range, List.length_drop]
  omega

theorem OFile.pos_write (f : OFile) (buf : Nat → Nat) (n : Nat) :
    (f.write buf n).pos = f.pos + n := rfl

theorem OFile.byteAt_write (f : OFile) (buf : Nat → Nat) (n i : Nat) :
    (f.write buf n).byteAt i =
      if f.pos ≤ i ∧ i < f.pos + n then buf (i - f.pos) else f.byteAt i := by
  have hlen : ((f.bytes ++ List.replicate (f.pos - f.bytes.length) 0).take f.pos).length = f.pos := by
    simp only [List.length_take, List.length_append, List.length_replicate]
    omega
  simp only [OFile.byteAt, OFile.write, List.getD_eq_getElem?_getD]
  by_cases h1 : i < f.pos
  · rw [if_neg (by omega), List.append_assoc, List.getElem?_append_left (by omega),
      List.getElem?_take_of_lt h1]
    by_cases h2 : i < f.bytes.length
    · rw [List.getElem?_append_left h2]
    · rw [List.getElem?_append_right (by omega),
        List.getElem?_eq_none (show f.bytes.length ≤ i by omega), List.getElem?_replicate,
        if_pos (by omega)]
      rfl
  · by_cases h2 : i < f.pos + n
    · rw [if_pos ⟨by omega, h2⟩, List.append_assoc, List.getElem?_append_right (by omega), hlen,
        List.getElem?_append_left (by simp; omega)]
      simp only [List.getElem?_map, List.getElem?_range (show i - f.pos < n by omega)]
      rfl
    · rw [if_neg (by omega), List.getElem?_append_right (by simp [hlen]; omega)]
      simp only [List.length_append, hlen, List.length_map, List.length_range, List.getElem?_drop]
      rw [show f.pos + n + (i - (f.pos + n)) = i by omega]

/-! ## File length, type tokens and fixups -/

theorem firstSeen_append (l : List Nat) (m : Nat) :
    firstSeen (l ++ [m]) = if m ∈ firstSeen l then firstSeen l else firstSeen l ++ [m] := by
  simp [firstSeen, List.foldl_append]

theorem EachObjectReference_length (W : Nat) (mem : Mem) (x p : Nat) (ctx : WalkObjectContext) :
    ctx.File.bytes.length ≤ (EachObjectReference W mem x p ctx).File.bytes.length := by
  unfold EachObjectReference
  dsimp only
  split <;>
  · simp only [WriteFileAtPosition, OFile.length_write, OFile.seekp]
    exact le_max_left _ _

theorem patchAll_length (W : Nat) (mem : Mem) (x : Nat) (sl : List Nat) (ctx : WalkObjectContext) :
    ctx.File.bytes.length ≤ (patchAll W mem x sl ctx).File.bytes.length :=
  patchAll_inv W mem x (fun c => ctx.File.bytes.length ≤ c.File.bytes.length) sl
    (fun c p _ h => le_trans h (EachObjectReference_length W mem x p c)) ctx (le_refl _)

theorem writeRecord_length (W : Nat) (mem : Mem) (st : SerState) (x tok : Nat) :
    st.file.bytes.length ≤ (writeRecord W mem st x tok).1.bytes.length ∧
      (writeRecord W mem st x tok).1.pos ≤ (writeRecord W mem st x tok).1.bytes.length := by
  simp only [writeRecord, WriteFileAndMoveCurrentFilePointer, OFile.length_write, OFile.pos_write]
  omega

theorem assignToken_lookup (st : SerState) (mt : Nat) :
    (assignToken st mt).2.1.lookup mt = some (assignToken st mt).1 := by
  unfold assignToken
  cases h : st.mtTokenMap.lookup mt with
  | none =>
    dsimp only
    rw [List.lookup_append, h]
    simp
  | some t => exact h

theorem assignToken_stable (st : SerState) (mt k v : Nat) (h : st.mtTokenMap.lookup k = some v) :
    (assignToken st mt).2.1.lookup k = some v := by
  unfold assignToken
  cases h1 : st.mtTokenMap.lookup mt with
  | none =>
    dsimp only
    rw [List.lookup_append, h]
    rfl
  | some t => exact h

theorem Inv2_init (W : Nat) (mem : Mem) (root fp : Nat) : Inv2 fp (initState W mem root) where
  fileEnd_le := by intro rec h; simp [initState] at h
  tokens_eq := rfl
  tokens_snd := rfl
  tokens_fst := rfl
  tokens_nodup := List.nodup_nil
  rec_token := by intro rec h; simp [initState] at h
  fixups_eq := rfl

theorem Inv2_step (W : Nat) (mem : Mem) (fp F x : Nat) (st st1 : SerState) (hI : Inv2 fp st)
    (hs : serializeStep W mem fp F x st = some st1) : Inv2 fp st1 := by
  rw [serializeStep_eq] at hs
  cases hw : walkSlots W mem F x with
  | none => rw [hw] at hs; simp at hs
  | some sl =>
    rw [hw] at hs
    simp only [Option.map_some', Option.some.injEq] at hs
    subst hs
    have hlen1 := patchAll_length W mem x sl (stepContext W mem x st)
    have hlen2 := writeRecord_length W mem st x (assignToken st (GetMTFromObject W mem x)).1
    have hfile : (stepState W mem fp x st (patchAll W mem x sl (stepContext W mem x st))).file.bytes.length
        = (patchAll W mem x sl (stepContext W mem x st)).File.bytes.length := rfl
    have hctx : (stepContext W mem x st).File =
        (writeRecord W mem st x (assignToken st (GetMTFromObject W mem x)).1).1 := rfl
    rw [hctx] at hlen1
    refine ⟨?_, ?_, ?_, ?_, ?_, ?_, ?_⟩
    · intro rec hrec
      rw [hfile]
      simp only [stepState, List.mem_append, List.mem_singleton] at hrec
      rcases hrec with hrec | rfl
      · have := hI.fileEnd_le rec hrec
        omega
      · dsimp only
        omega
    · simp only [stepState, assignToken]
      split
      · rw [hI.tokens_eq]
      · exact hI.tokens_eq
    · simp only [stepState, assignToken]
      split
      · simp only [List.map_append, hI.tokens_snd, List.map_singleton, List.length_append,
          List.length_singleton, List.range_succ]
      · exact hI.tokens_snd
    · simp only [stepState, assignToken, List.map_append, List.map_singleton, firstSeen_append]
      rw [← hI.tokens_fst]
      split
      · rename_i hnone
        rw [List.lookup_eq_none_iff] at hnone
        rw [if_neg]
        · simp
        · intro hmem
          obtain ⟨p, hp, hpe⟩ := List.mem_map.mp hmem
          have := hnone p hp
          simp [hpe] at this
      · rename_i t hsome
        rw [if_pos]
        have : (st.mtTokenMap.lookup (GetMTFromObject W mem x)).isSome := by simp [hsome]
        rw [List.lookup_isSome_iff] at this
        obtain ⟨p, hp, hpe⟩ := this
        simp only [beq_iff_eq] at hpe
        rw [hpe]
        exact List.mem_map_of_mem _ hp
    · simp only [stepState, assignToken]
      split
      · rename_i hnone
        rw [List.lookup_eq_none_iff] at hnone
        rw [List.map_append, List.map_singleton]
        refine List.Nodup.append hI.tokens_nodup (List.nodup_singleton _) ?_
        intro a ha hb
        simp only [List.mem_singleton] at hb
        subst hb
        obtain ⟨p, hp, hpe⟩ := List.mem_map.mp ha
        have := hnone p hp
        simp [hpe] at this
      · exact hI.tokens_nodup
    · intro rec hrec
      simp only [stepState, List.mem_append, List.mem_singleton] at hrec
      rcases hrec with hrec | rfl
      · exact assignToken_stable st _ _ _ (hI.rec_token rec hrec)
      · exact assignToken_lookup st _
    · simp only [stepState, List.filter_append, List.map_append, ← hI.fixups_eq]
      by_cases hmt : GetMTFromObject W mem x = fp
      · simp [hmt]
      · simp [hmt]

theorem SerializeObject_inv2 (W : Nat) (mem : Mem) (root fp F fuel : Nat) (r : SerState)
    (h : SerializeObject W mem root fp F fuel = some r) : Inv2 fp r :=
  (serializeLoop_inv W mem fp F (Inv2 fp)
    (fun st x _ st1 hP _ hs => Inv2_step W mem fp F x st st1 hP hs)
    fuel (initState W mem root) r (Inv2_init W mem root fp) h).1

/-! ## Record order, tokens, fixups -/

theorem cfpAfter_eq_of_lt (W : Nat) (mem : Mem) (c x : Nat)
    (h : c + writtenLen W mem x < wordMod W) : cfpAfter W mem c x = c + writtenLen W mem x := by
  unfold cfpAfter
  unfold writtenLen at h ⊢
  rw [Nat.mod_eq_of_lt (a := c + W % 4294967296) (by omega),
    Nat.mod_eq_of_lt (a := c + W % 4294967296 + W % 4294967296) (by omega),
    Nat.mod_eq_of_lt (a := c + W % 4294967296 + W % 4294967296 + _) (by omega),
    Nat.mod_eq_of_lt (by omega)]
  omega

theorem Inv_consecutive (W : Nat) (mem : Mem) (root : Nat) (st : SerState) (hI : Inv W mem root st)
    (pre post : List RecordInfo) (a b : RecordInfo) (h : st.records = pre ++ a :: b :: post) :
    b.recordStart = a.recordEnd := by
  have ha := hI.recs pre a (b :: post) h
  have hb := hI.recs (pre ++ [a]) b post (by simp [h])
  rw [hb.start_eq, List.map_append, List.map_singleton, cfpEnd_append, ha.recordEnd_eq, ha.start_eq]

theorem Inv_rec_mem (W : Nat) (mem : Mem) (root : Nat) (st : SerState) (hI : Inv W mem root st)
    (rec : RecordInfo) (h : rec ∈ st.records) :
    rec.filePos = rec.recordStart ∧
      rec.objectStart = (rec.recordStart + W % 4294967296) % wordMod W ∧
      rec.recordEnd = cfpAfter W mem rec.recordStart rec.objectId ∧
      rec.fileEnd = rec.filePos + writtenLen W mem rec.objectId ∧
      rec.mt = GetMTFromObject W mem rec.objectId := by
  obtain ⟨pre, post, hsplit⟩ := List.append_of_mem h
  have := hI.recs pre rec post hsplit
  exact ⟨this.filePos_eq, this.objectStart_eq, this.recordEnd_eq, this.fileEnd_eq, this.mt_eq⟩

/-- When the file is shorter than `2 ^ (8 * W)` bytes no cursor wraps. -/
theorem Inv_nowrap (W : Nat) (hW : W = 4 ∨ W = 8) (mem : Mem) (root fp : Nat) (st : SerState)
    (hI : Inv W mem root st) (hI2 : Inv2 fp st) (hfit : st.file.bytes.length < wordMod W)
    (rec : RecordInfo) (h : rec ∈ st.records) :
    rec.recordEnd = rec.fileEnd ∧ rec.objectStart = rec.filePos + W ∧
      rec.filePos + 2 * W ≤ rec.fileEnd ∧ rec.fileEnd < wordMod W := by
  obtain ⟨h1, h2, h3, h4, _⟩ := Inv_rec_mem W mem root st hI rec h
  have h5 := hI2.fileEnd_le rec h
  have hlen : 2 * W ≤ writtenLen W mem rec.objectId := by
    unfold writtenLen
    rcases hW with rfl | rfl <;> omega
  have hWm : W % 4294967296 = W := by rcases hW with rfl | rfl <;> rfl
  refine ⟨?_, ?_, by omega, by omega⟩
  · rw [h3, cfpAfter_eq_of_lt W mem _ _ (by omega), h4, h1]
  · rw [h2, hWm, Nat.mod_eq_of_lt (by omega), h1]

/-! ## Claims C5 to C8 -/

/-- C5. Records are written in breadth-first discovery order: the run returns, the objects of
the records written are, in order, the identities pushed on the queue, the first record is the
root's and starts at offset 0, every record starts at the value `currentFilePointer` had after
the previous one, and (the file being shorter than `2 ^ (8 * W)` bytes) at the stream position
where the previous record ended. -/
theorem records_in_discovery_order (W : Nat) (mem : Mem) (root fp F : Nat) (objs : List Nat)
    (hc : Closed W mem F root objs) :
    ∃ r, (∀ fuel, objs.length + 2 ≤ fuel → SerializeObject W mem root fp F fuel = some r) ∧
      r.records.map (fun rec => rec.objectId) = r.pushed ∧
      (∃ rec rest, r.records = rec :: rest ∧ rec.objectId = root ∧ rec.recordStart = 0 ∧
        rec.filePos = 0) ∧
      (∀ rec ∈ r.records, rec.filePos = rec.recordStart) ∧
      (∀ pre a b post, r.records = pre ++ a :: b :: post → b.recordStart = a.recordEnd) ∧
      (r.file.bytes.length < wordMod W →
        ∀ pre a b post, r.records = pre ++ a :: b :: post → b.filePos = a.fileEnd) := by
  obtain ⟨r, hr⟩ := SerializeObject_total W mem root fp F objs hc
  have hrun := hr (objs.length + 2) (le_refl _)
  obtain ⟨hI, hq⟩ := SerializeObject_inv W mem root fp F _ r hrun
  have hI2 := SerializeObject_inv2 W mem root fp F _ r hrun
  have hpush : r.records.map (fun rec => rec.objectId) = r.pushed := by
    rw [hI.pushed_eq, hq, List.append_nil]
  refine ⟨r, hr, hpush, ?_, ?_, ?_, ?_⟩
  · obtain ⟨rest, hrest⟩ := hI.pushed_root
    rw [← hpush] at hrest
    cases hrec : r.records with
    | nil => rw [hrec] at hrest; simp at hrest
    | cons rec tl =>
      rw [hrec] at hrest
      simp only [List.map_cons, List.cons.injEq] at hrest
      have hl := hI.recs [] rec tl (by simp [hrec])
      have hs : rec.recordStart = 0 := hl.start_eq
      exact ⟨rec, tl, rfl, hrest.1, hs, by rw [hl.filePos_eq, hs]⟩
  · intro rec hrec
    exact (Inv_rec_mem W mem root r hI rec hrec).1
  · intro pre a b post h
    exact Inv_consecutive W mem root r hI pre post a b h
  · intro hfit pre a b post h
    have ha : a ∈ r.records := by rw [h]; simp
    have hb : b ∈ r.records := by rw [h]; simp
    obtain ⟨a1, _, a3, a4, _⟩ := Inv_rec_mem W mem root r hI a ha
    have hle := hI2.fileEnd_le a ha
    rw [(Inv_rec_mem W mem root r hI b hb).1, Inv_consecutive W mem root r hI pre post a b h, a3,
      cfpAfter_eq_of_lt W mem _ _ (by omega), a4, a1]

set_option maxRecDepth 100000 in
/-- Witness for C5: a node referencing an object without references. -/
theorem records_in_discovery_order_witness :
    Closed 8 twoHeap 5 8192 [8192, 8300] ∧
    (SerializeObject 8 twoHeap 8192 0 5 4).map (fun r => r.file.bytes.length) = some 48 ∧
    ∃ r, (∀ fuel, 4 ≤ fuel → SerializeObject 8 twoHeap 8192 0 5 fuel = some r) ∧
      r.records.map (fun rec => rec.objectId) = r.pushed ∧
      (∃ rec rest, r.records = rec :: rest ∧ rec.objectId = 8192 ∧ rec.recordStart = 0 ∧
        rec.filePos = 0) ∧
      (∀ rec ∈ r.records, rec.filePos = rec.recordStart) ∧
      (∀ pre a b post, r.records = pre ++ a :: b :: post → b.recordStart = a.recordEnd) ∧
      (r.file.bytes.length < wordMod 8 →
        ∀ pre a b post, r.records = pre ++ a :: b :: post → b.filePos = a.fileEnd) :=
  ⟨by decide, by decide, records_in_discovery_order 8 twoHeap 8192 0 5 [8192, 8300] (by decide)⟩

theorem lookup_getElem_of_range (l : List (Nat × Nat)) (k v : Nat)
    (hs : l.map Prod.snd = List.range l.length) (h : l.lookup k = some v) :
    l[v]? = some (k, v) := by
  rw [List.lookup_eq_some_iff] at h
  obtain ⟨l1, l2, rfl, _⟩ := h
  have h1 : ((l1 ++ (k, v) :: l2).map Prod.snd)[l1.length]? = some v := by
    rw [List.map_append, List.getElem?_append_right (by simp)]
    simp
  rw [hs, List.getElem?_range (by simp)] at h1
  simp only [Option.some.injEq] at h1
  rw [← h1, List.getElem?_append_right (le_refl _)]
  simp

/-- C6. Type tokens are dense and first-seen-ordered: the run returns; in the type-token list
the type descriptors are pairwise distinct and are the method tables of the records in order of
first use, the entry at index `i` carries token `i`, and the token written for a record is the
index at which the list holds the method table of the record's object. -/
theorem tokens_dense_first_seen (W : Nat) (mem : Mem) (root fp F : Nat) (objs : List Nat)
    (hc : Closed W mem F root objs) :
    ∃ r, (∀ fuel, objs.length + 2 ≤ fuel → SerializeObject W mem root fp F fuel = some r) ∧
      (r.methodTableTokenTupleList.map Prod.fst).Nodup ∧
      r.methodTableTokenTupleList.map Prod.snd = List.range r.methodTableTokenTupleList.length ∧
      r.methodTableTokenTupleList.map Prod.fst = firstSeen (r.records.map (fun rec => rec.mt)) ∧
      ∀ rec ∈ r.records, rec.mt = GetMTFromObject W mem rec.objectId ∧
        r.methodTableTokenTupleList[rec.mtToken]? = some (rec.mt, rec.mtToken) := by
  obtain ⟨r, hr⟩ := SerializeObject_total W mem root fp F objs hc
  have hrun := hr (objs.length + 2) (le_refl _)
  obtain ⟨hI, _⟩ := SerializeObject_inv W mem root fp F _ r hrun
  have hI2 := SerializeObject_inv2 W mem root fp F _ r hrun
  refine ⟨r, hr, ?_, ?_, ?_, ?_⟩
  · rw [hI2.tokens_eq]; exact hI2.tokens_nodup
  · rw [hI2.tokens_eq]; exact hI2.tokens_snd
  · rw [hI2.tokens_eq]; exact hI2.tokens_fst
  · intro rec hrec
    refine ⟨(Inv_rec_mem W mem root r hI rec hrec).2.2.2.2, ?_⟩
    rw [hI2.tokens_eq]
    exact lookup_getElem_of_range _ _ _ hI2.tokens_snd (hI2.rec_token rec hrec)

set_option maxRecDepth 100000 in
/-- Witness for C6: a node referencing an object of another type. -/
theorem tokens_dense_first_seen_witness :
    Closed 8 twoHeap 5 8192 [8192, 8300] ∧
    ∃ r, (∀ fuel, 4 ≤ fuel → SerializeObject 8 twoHeap 8192 0 5 fuel = some r) ∧
      (r.methodTableTokenTupleList.map Prod.fst).Nodup ∧
      r.methodTableTokenTupleList.map Prod.snd = List.range r.methodTableTokenTupleList.length ∧
      r.methodTableTokenTupleList.map Prod.fst = firstSeen (r.records.map (fun rec => rec.mt)) ∧
      ∀ rec ∈ r.records, rec.mt = GetMTFromObject 8 twoHeap rec.objectId ∧
        r.methodTableTokenTupleList[rec.mtToken]? = some (rec.mt, rec.mtToken) :=
  ⟨by decide, tokens_dense_first_seen 8 twoHeap 8192 0 5 [8192, 8300] (by decide)⟩

/-- C7. The fixup list holds, in the order the records are written, one entry for each record
whose method table is the sentinel and none for any other record; the entry is `objectStart`,
the value of `currentFilePointer` after the header, which is the record's start plus `W`
whenever the file is shorter than `2 ^ (8 * W)` bytes. -/
theorem fixups_are_sentinel_records (W : Nat) (hW : W = 4 ∨ W = 8) (mem : Mem) (root fp F : Nat)
    (objs : List Nat) (hc : Closed W mem F root objs) :
    ∃ r, (∀ fuel, objs.length + 2 ≤ fuel → SerializeObject W mem root fp F fuel = some r) ∧
      r.functionPointerFixupList =
        (r.records.filter (fun rec => decide (rec.mt = fp))).map (fun rec => rec.objectStart) ∧
      (∀ rec ∈ r.records, rec.mt = GetMTFromObject W mem rec.objectId ∧
        rec.filePos = rec.recordStart ∧ rec.objectStart = (rec.recordStart + W) % wordMod W) ∧
      (r.file.bytes.length < wordMod W → ∀ rec ∈ r.records, rec.objectStart = rec.filePos + W) := by
  obtain ⟨r, hr⟩ := SerializeObject_total W mem root fp F objs hc
  have hrun := hr (objs.length + 2) (le_refl _)
  obtain ⟨hI, _⟩ := SerializeObject_inv W mem root fp F _ r hrun
  have hI2 := SerializeObject_inv2 W mem root fp F _ r hrun
  have hWm : W % 4294967296 = W := by rcases hW with rfl | rfl <;> rfl
  refine ⟨r, hr, hI2.fixups_eq, ?_, ?_⟩
  · intro rec hrec
    obtain ⟨h1, h2, _, _, h5⟩ := Inv_rec_mem W mem root r hI rec hrec
    rw [hWm] at h2
    exact ⟨h5, h1, h2⟩
  · intro hfit rec hrec
    exact (Inv_nowrap W hW mem root fp r hI hI2 hfit rec hrec).2.1

set_option maxRecDepth 100000 in
/-- Witness for C7: the type of the referenced object is the sentinel. -/
theorem fixups_are_sentinel_records_witness :
    (8 = 4 ∨ 8 = 8) ∧ Closed 8 twoHeap 5 8192 [8192, 8300] ∧
    (SerializeObject 8 twoHeap 8192 5000 5 4).map
      (fun r => (r.file.bytes.length, r.functionPointerFixupList)) = some (48, [32]) ∧
    ∃ r, (∀ fuel, 4 ≤ fuel → SerializeObject 8 twoHeap 8192 5000 5 fuel = some r) ∧
      r.functionPointerFixupList =
        (r.records.filter (fun rec => decide (rec.mt = 5000))).map (fun rec => rec.objectStart) ∧
      (∀ rec ∈ r.records, rec.mt = GetMTFromObject 8 twoHeap rec.objectId ∧
        rec.filePos = rec.recordStart ∧ rec.objectStart = (rec.recordStart + 8) % wordMod 8) ∧
      (r.file.bytes.length < wordMod 8 → ∀ rec ∈ r.records, rec.objectStart = rec.filePos + 8) :=
  ⟨Or.inr rfl, by decide, by decide,
    fixups_are_sentinel_records 8 (Or.inr rfl) twoHeap 8192 5000 5 [8192, 8300] (by decide)⟩

theorem eraseFixups_step (W : Nat) (mem : Mem) (fp1 fp2 F x : Nat) (s1 s2 : SerState)
    (h : eraseFixups s1 = eraseFixups s2) :
    (serializeStep W mem fp1 F x s1).map eraseFixups =
      (serializeStep W mem fp2 F x s2).map eraseFixups := by
  obtain ⟨a1, a2, a3, a4, a5, a6, a7, a8, a9, a10⟩ := s1
  obtain ⟨b1, b2, b3, b4, b5, b6, b7, b8, b9, b10⟩ := s2
  simp only [eraseFixups, SerState.mk.injEq, true_and] at h
  obtain ⟨rfl, rfl, rfl, rfl, rfl, rfl, rfl, rfl, rfl⟩ := h
  rw [serializeStep_eq, serializeStep_eq]
  cases walkSlots W mem F x with
  | none => rfl
  | some sl => rfl

theorem eraseFixups_loop (W : Nat) (mem : Mem) (fp1 fp2 F : Nat) :
    ∀ (fuel : Nat) (s1 s2 : SerState), eraseFixups s1 = eraseFixups s2 →
      (serializeLoop W mem fp1 F fuel s1).map eraseFixups =
        (serializeLoop W mem fp2 F fuel s2).map eraseFixups := by
  intro fuel
  induction fuel with
  | zero => intro s1 s2 _; rfl
  | succ n ih =>
    intro s1 s2 h
    have hq : (eraseFixups s1).objectQueue = (eraseFixups s2).objectQueue :=
      congrArg SerState.objectQueue h
    change s1.objectQueue = s2.objectQueue at hq
    simp only [serializeLoop]
    rw [← hq]
    cases hq1 : s1.objectQueue with
    | nil => simpa using h
    | cons x q =>
      dsimp only
      have hstep := eraseFixups_step W mem fp1 fp2 F x s1 s2 h
      cases h1 : serializeStep W mem fp1 F x s1 with
      | none =>
        rw [h1] at hstep
        cases h2 : serializeStep W mem fp2 F x s2 with
        | none => rfl
        | some t2 => rw [h2] at hstep; simp at hstep
      | some t1 =>
        rw [h1] at hstep
        cases h2 : serializeStep W mem fp2 F x s2 with
        | none => rw [h2] at hstep; simp at hstep
        | some t2 =>
          rw [h2] at hstep
          simp only [Option.map_some', Option.some.injEq] at hstep
          exact ih t1 t2 hstep

/-- C8. The sentinel influences only the fixup list: for every heap, root and amount of fuel, two
runs with different values of `functionPointerMT` either both fail to return or both return,
with the same file, the same type-token list and the same state apart from the fixup list; in
particular the walker scans objects of the sentinel type like any other. -/
theorem sentinel_only_affects_fixups (W : Nat) (mem : Mem) (root fp1 fp2 F fuel : Nat) :
    (SerializeObject W mem root fp1 F fuel).map eraseFixups =
        (SerializeObject W mem root fp2 F fuel).map eraseFixups ∧
      (SerializeObject W mem root fp1 F fuel).map
          (fun s => (s.file.bytes, s.methodTableTokenTupleList)) =
        (SerializeObject W mem root fp2 F fuel).map
          (fun s => (s.file.bytes, s.methodTableTokenTupleList)) := by
  have h := eraseFixups_loop W mem fp1 fp2 F fuel (initState W mem root) (initState W mem root) rfl
  refine ⟨h, ?_⟩
  have h2 := congrArg (Option.map (fun s : SerState => (s.file.bytes, s.methodTableTokenTupleList))) h
  simpa [Option.map_map, Function.comp_def, eraseFixups] using h2

/-! ## Claims C9 and C10 -/

/-- C10, as stated, fails: an object whose computed size is 12, below `MIN_OBJECT_SIZE = 24`,
gets size 16, not 24. -/
theorem GetObjectSize2_not_raised_to_minimum :
    GetSize 8 smallHeap 8192 = 12 ∧ MIN_OBJECT_SIZE 8 = 24 ∧
      GetObjectSize2 8 smallHeap 8192 = 16 := by
  decide

/-- C10, amended. `GetObjectSize2` returns the computed size when it is at least
`MIN_OBJECT_SIZE`; a smaller computed size is rounded up to the next multiple of
`DATA_ALIGNMENT = 8`, which is `MIN_OBJECT_SIZE` exactly when `W = 8` and the computed size
exceeds 16. -/
theorem GetObjectSize2_policy (W : Nat) (hW : W = 4 ∨ W = 8) (mem : Mem) (o : Nat) :
    (MIN_OBJECT_SIZE W ≤ GetSize W mem o → GetObjectSize2 W mem o = GetSize W mem o) ∧
      (GetSize W mem o < MIN_OBJECT_SIZE W →
        GetObjectSize2 W mem o = (GetSize W mem o + 7) / 8 * 8 ∧
        GetSize W mem o ≤ GetObjectSize2 W mem o ∧ GetObjectSize2 W mem o < GetSize W mem o + 8 ∧
        (GetObjectSize2 W mem o = MIN_OBJECT_SIZE W ↔ W = 8 ∧ 16 < GetSize W mem o)) := by
  have hmin : MIN_OBJECT_SIZE W = if W = 8 then 24 else 12 := by
    rcases hW with rfl | rfl <;> rfl
  constructor
  · intro h
    unfold GetObjectSize2
    simp only
    rw [if_neg (by omega)]
  · intro h
    have hlt : GetSize W mem o < 24 := by
      rw [hmin] at h
      split at h <;> omega
    have he : GetObjectSize2 W mem o = (GetSize W mem o + 7) / 8 * 8 := by
      unfold GetObjectSize2
      simp only
      rw [if_pos h, PtrAlign_small W hW _ hlt]
    rw [he]
    refine ⟨rfl, by omega, by omega, ?_⟩
    rcases hW with rfl | rfl
    · rw [show MIN_OBJECT_SIZE 4 = 12 from rfl] at h ⊢
      omega
    · rw [show MIN_OBJECT_SIZE 8 = 24 from rfl] at h ⊢
      omega

/-- Witness for C10: a 64-bit object of computed size 12. -/
theorem GetObjectSize2_policy_witness :
    (8 = 4 ∨ 8 = 8) ∧
    ((MIN_OBJECT_SIZE 8 ≤ GetSize 8 smallHeap 8192 →
        GetObjectSize2 8 smallHeap 8192 = GetSize 8 smallHeap 8192) ∧
      (GetSize 8 smallHeap 8192 < MIN_OBJECT_SIZE 8 →
        GetObjectSize2 8 smallHeap 8192 = (GetSize 8 smallHeap 8192 + 7) / 8 * 8 ∧
        GetSize 8 smallHeap 8192 ≤ GetObjectSize2 8 smallHeap 8192 ∧
        GetObjectSize2 8 smallHeap 8192 < GetSize 8 smallHeap 8192 + 8 ∧
        (GetObjectSize2 8 smallHeap 8192 = MIN_OBJECT_SIZE 8 ↔ 8 = 8 ∧ 16 < GetSize 8 smallHeap 8192))) :=
  ⟨Or.inr rfl, GetObjectSize2_policy 8 (Or.inr rfl) smallHeap 8192⟩

theorem padd_sub (W : Nat) (hW : W = 4 ∨ W = 8) (s : Nat) (h1 : 2 * W ≤ s) (h2 : s < wordMod W) :
    padd W s (-((W : Int) + W)) = s - 2 * W := by
  unfold padd
  rcases hW with rfl | rfl
  · rw [wordMod_four] at h2 ⊢
    omega
  · rw [wordMod_eight] at h2 ⊢
    omega

theorem PADDING_lt (W : Nat) (hW : W = 4 ∨ W = 8) (n : Nat) : PADDING W n W < W := by
  rw [PADDING_eq W hW]
  rcases hW with rfl | rfl <;> omega

theorem writtenLen_eq (W : Nat) (hW : W = 4 ∨ W = 8) (mem : Mem) (x : Nat)
    (h1 : 2 * W ≤ GetObjectSize2 W mem x) (h2 : GetObjectSize2 W mem x - 2 * W < 4294967296) :
    writtenLen W mem x = GetObjectSize2 W mem x + PADDING W (GetObjectSize2 W mem x) W := by
  have hp := PADDING_lt W hW (GetObjectSize2 W mem x)
  have hs := GetObjectSize2_lt W hW mem x
  unfold writtenLen
  rw [padd_sub W hW _ h1 hs]
  rcases hW with rfl | rfl <;> omega

theorem EachObjectReference_reserve (W : Nat) (mem : Mem) (curr reference : Nat)
    (ctx : WalkObjectContext)
    (h : ctx.SerializedObjectMap.lookup (readLE mem reference W) = none) :
    (EachObjectReference W mem curr reference ctx).LastReservedObjectEnd =
      (ctx.LastReservedObjectEnd + (GetObjectSize2 W mem (readLE mem reference W)
        + PADDING W (GetObjectSize2 W mem (readLE mem reference W)) W)) % wordMod W := by
  unfold EachObjectReference
  dsimp only
  rw [h]
  dsimp only
  rw [Nat.add_mod_mod]

/-- C9 fails by a defect of the code: line 212 writes `static_cast<DWORD>(objectSize)` bytes of
contents, whereas the reservation path (lines 97-99 and 156-158) advances by the full `size_t`.
For an array of computed size `2 ^ 32 + 24` the length of the contents is truncated to 8, so
the record written is 24 bytes long while `s + PADDING(s, 8)`, the extent reserved for the
object, is `2 ^ 32 + 24`. -/
theorem record_length_truncated :
    GetObjectSize2 8 hugeHeap 8192 = 4294967320 ∧
      PADDING 8 (GetObjectSize2 8 hugeHeap 8192) 8 = 0 ∧
      (initState 8 hugeHeap 8192).lastReservedObjectEnd = 4294967320 ∧
      (SerializeObject 8 hugeHeap 8192 0 5 5).map
        (fun r => r.records.map (fun rec => (rec.objectId, rec.filePos, rec.fileEnd))) =
        some [(8192, 0, 24)] := by
  decide

/-- Length of the records when the contents length is not truncated. For every record written for an object whose computed size `s` satisfies
`2 * W ≤ s` and `s - 2 * W < 2 ^ 32`, the record is `s + PADDING(s, W)` bytes long, where
`PADDING(s, W) ≤ W - 1` and `s + PADDING(s, W)` is the least multiple of `W` that is at least
`s`; this is the amount by which `EachObjectReference` advances the reservation cursor when the
object is first referenced, and, for the root, the initial value of that cursor. -/
theorem record_length_padded (W : Nat) (hW : W = 4 ∨ W = 8) (mem : Mem) (root fp F : Nat)
    (objs : List Nat) (hc : Closed W mem F root objs) :
    ∃ r, (∀ fuel, objs.length + 2 ≤ fuel → SerializeObject W mem root fp F fuel = some r) ∧
      (initState W mem root).lastReservedObjectEnd =
        (GetObjectSize2 W mem root + PADDING W (GetObjectSize2 W mem root) W) % wordMod W ∧
      ∀ rec ∈ r.records, 2 * W ≤ GetObjectSize2 W mem rec.objectId →
        GetObjectSize2 W mem rec.objectId - 2 * W < 4294967296 →
        rec.fileEnd - rec.filePos =
          GetObjectSize2 W mem rec.objectId + PADDING W (GetObjectSize2 W mem rec.objectId) W ∧
        PADDING W (GetObjectSize2 W mem rec.objectId) W ≤ W - 1 ∧
        (∀ m, m % W = 0 → GetObjectSize2 W mem rec.objectId ≤ m →
          GetObjectSize2 W mem rec.objectId + PADDING W (GetObjectSize2 W mem rec.objectId) W ≤ m) ∧
        (rec.fileEnd - rec.filePos) % W = 0 ∧
        ∀ curr reference ctx, readLE mem reference W = rec.objectId →
          ctx.SerializedObjectMap.lookup rec.objectId = none →
          (EachObjectReference W mem curr reference ctx).LastReservedObjectEnd =
            (ctx.LastReservedObjectEnd + (rec.fileEnd - rec.filePos)) % wordMod W := by
  obtain ⟨r, hr⟩ := SerializeObject_total W mem root fp F objs hc
  have hrun := hr (objs.length + 2) (le_refl _)
  obtain ⟨hI, _⟩ := SerializeObject_inv W mem root fp F _ r hrun
  refine ⟨r, hr, rfl, ?_⟩
  intro rec hrec h1 h2
  obtain ⟨_, _, _, h4, _⟩ := Inv_rec_mem W mem root r hI rec hrec
  have hlen := writtenLen_eq W hW mem rec.objectId h1 h2
  have hpad := PADDING_eq W hW (GetObjectSize2 W mem rec.objectId)
  have hd : rec.fileEnd - rec.filePos =
      GetObjectSize2 W mem rec.objectId + PADDING W (GetObjectSize2 W mem rec.objectId) W := by
    rw [h4, hlen]; omega
  refine ⟨hd, ?_, ?_, ?_, ?_⟩
  · rw [hpad]
    rcases hW with rfl | rfl <;> omega
  · intro m hm hle
    rw [hpad]
    rcases hW with rfl | rfl <;> omega
  · rw [hd, hpad]
    rcases hW with rfl | rfl <;> omega
  · intro curr reference ctx href hlk
    rw [← href] at hlk
    rw [EachObjectReference_reserve W mem curr reference ctx hlk, hd, href]

set_option maxRecDepth 100000 in
/-- Instance of `record_length_padded`: a node referencing an object without references. -/
theorem record_length_padded_witness :
    (8 = 4 ∨ 8 = 8) ∧ Closed 8 twoHeap 5 8192 [8192, 8300] ∧
    ∃ r, (∀ fuel, 4 ≤ fuel → SerializeObject 8 twoHeap 8192 0 5 fuel = some r) ∧
      (initState 8 twoHeap 8192).lastReservedObjectEnd =
        (GetObjectSize2 8 twoHeap 8192 + PADDING 8 (GetObjectSize2 8 twoHeap 8192) 8) % wordMod 8 ∧
      ∀ rec ∈ r.records, 2 * 8 ≤ GetObjectSize2 8 twoHeap rec.objectId →
        GetObjectSize2 8 twoHeap rec.objectId - 2 * 8 < 4294967296 →
        rec.fileEnd - rec.filePos =
          GetObjectSize2 8 twoHeap rec.objectId + PADDING 8 (GetObjectSize2 8 twoHeap rec.objectId) 8 ∧
        PADDING 8 (GetObjectSize2 8 twoHeap rec.objectId) 8 ≤ 8 - 1 ∧
        (∀ m, m % 8 = 0 → GetObjectSize2 8 twoHeap rec.objectId ≤ m →
          GetObjectSize2 8 twoHeap rec.objectId + PADDING 8 (GetObjectSize2 8 twoHeap rec.objectId) 8 ≤ m) ∧
        (rec.fileEnd - rec.filePos) % 8 = 0 ∧
        ∀ curr reference ctx, readLE twoHeap reference 8 = rec.objectId →
          ctx.SerializedObjectMap.lookup rec.objectId = none →
          (EachObjectReference 8 twoHeap curr reference ctx).LastReservedObjectEnd =
            (ctx.LastReservedObjectEnd + (rec.fileEnd - rec.filePos)) % wordMod 8 :=
  ⟨Or.inr rfl, by decide,
    record_length_padded 8 (Or.inr rfl) twoHeap 8192 0 5 [8192, 8300] (by decide)⟩

/-! ## Contents of the file -/

theorem walkSlots_nonnull (W : Nat) (mem : Mem) (F x : Nat) (sl : List Nat)
    (h : walkSlots W mem F x = some sl) : ∀ p ∈ sl, readLE mem p W ≠ 0 := by
  have hs := EnumerateObjectReferences_sim W mem (fun _ ptr (acc : List Nat) => acc ++ [ptr])
    (fun _ ptr (acc : List Nat) => acc ++ [ptr])
    (fun c _ => ∀ p ∈ c, readLE mem p W ≠ 0) x
    (by
      intro p c t hne hc q hq
      rcases List.mem_append.mp hq with hq | hq
      · exact hc q hq
      · simp only [List.mem_singleton] at hq
        subst hq
        exact hne) F [] [] (by simp)
  unfold walkSlots at h
  rw [h] at hs
  cases hs with
  | some hs => exact hs

theorem wfObject_spec (W : Nat) (mem : Mem) (F x : Nat) (h : wfObject W mem F x = true) :
    2 * W ≤ GetObjectSize2 W mem x ∧ GetObjectSize2 W mem x - 2 * W < 4294967296 ∧
      ∃ sl, walkSlots W mem F x = some sl ∧
        ∀ p ∈ sl, x + W ≤ p ∧ p + 2 * W ≤ x + GetObjectSize2 W mem x ∧ (p - x) % W = 0 := by
  unfold wfObject at h
  cases hw : walkSlots W mem F x with
  | none => rw [hw] at h; simp at h
  | some sl =>
    rw [hw] at h
    simp only [Bool.and_eq_true, decide_eq_true_eq, List.all_eq_true] at h
    exact ⟨h.1.1, h.1.2, sl, rfl, fun p hp => ⟨(h.2 p hp).1.1, (h.2 p hp).1.2, (h.2 p hp).2⟩⟩

/-- Bytes of the file after the four writes of a record for an object of well-formed size. -/
theorem writeRecord_byteAt (W : Nat) (hW : W = 4 ∨ W = 8) (mem : Mem) (st : SerState) (x tok : Nat)
    (h1 : 2 * W ≤ GetObjectSize2 W mem x) (h2 : GetObjectSize2 W mem x - 2 * W < 4294967296)
    (q : Nat) :
    (writeRecord W mem st x tok).1.byteAt q =
      if q < st.file.pos then st.file.byteAt q
      else if q < st.file.pos + W then 0
      else if q < st.file.pos + 2 * W then leByte tok (q - st.file.pos - W)
      else if q < st.file.pos + GetObjectSize2 W mem x then
        mem (x + W + (q - st.file.pos - 2 * W)) % 256
      else if q < st.file.pos + GetObjectSize2 W mem x + PADDING W (GetObjectSize2 W mem x) W then 0
      else st.file.byteAt q := by
  have hp := PADDING_lt W hW (GetObjectSize2 W mem x)
  have hs := GetObjectSize2_lt W hW mem x
  have hWm : W % 4294967296 = W := by rcases hW with rfl | rfl <;> rfl
  have hpm : PADDING W (GetObjectSize2 W mem x) W % 4294967296 =
      PADDING W (GetObjectSize2 W mem x) W := by
    apply Nat.mod_eq_of_lt
    rcases hW with rfl | rfl <;> omega
  have hn : padd W (GetObjectSize2 W mem x) (-((W : Int) + W)) % 4294967296 =
      GetObjectSize2 W mem x - 2 * W := by
    rw [padd_sub W hW _ h1 hs, Nat.mod_eq_of_lt h2]
  simp only [writeRecord, WriteFileAndMoveCurrentFilePointer, OFile.byteAt_write, OFile.pos_write,
    hWm, hpm, hn]
  split_ifs <;> first | rfl | omega | (congr 2; omega) | (congr 1; omega)

theorem padd_slot (W os p x : Nat) (h1 : x ≤ p) (h2 : os + (p - x) < wordMod W) :
    padd W (os + p) (-(x : Int)) = os + (p - x) := by
  unfold padd
  have e : ((os + p : Nat) : Int) + -(x : Int) = ((os + (p - x) : Nat) : Int) := by omega
  rw [e, Int.emod_eq_of_lt (by omega) (by exact_mod_cast h2)]
  omega

/-- Effect of one call of `EachObjectReference`: the map keeps its entries and holds one for
the referent, whose offset is written over the `W` bytes at the slot's file position. -/
theorem EachObjectReference_file (W : Nat) (mem : Mem) (x p : Nat) (ctx : WalkObjectContext) :
    ∃ off, (EachObjectReference W mem x p ctx).SerializedObjectMap.lookup (readLE mem p W) = some off ∧
      (∀ k v, ctx.SerializedObjectMap.lookup k = some v →
        (EachObjectReference W mem x p ctx).SerializedObjectMap.lookup k = some v) ∧
      (EachObjectReference W mem x p ctx).ObjectStart = ctx.ObjectStart ∧
      ∀ q, (EachObjectReference W mem x p ctx).File.byteAt q =
        if padd W (ctx.ObjectStart + p) (-(x : Int)) ≤ q ∧
            q < padd W (ctx.ObjectStart + p) (-(x : Int)) + W then
          leByte off (q - padd W (ctx.ObjectStart + p) (-(x : Int)))
        else ctx.File.byteAt q := by
  unfold EachObjectReference
  dsimp only
  cases hlk : ctx.SerializedObjectMap.lookup (readLE mem p W) with
  | none =>
    refine ⟨(ctx.LastReservedObjectEnd + W) % wordMod W, ?_, ?_, rfl, ?_⟩
    · dsimp only
      rw [List.lookup_append, hlk]
      simp
    · intro k v hk
      dsimp only
      rw [List.lookup_append, hk]
      rfl
    · intro q
      simp only [WriteFileAtPosition, OFile.byteAt_write, OFile.seekp]
      rfl
  | some off =>
    refine ⟨off, hlk, fun k v hk => hk, rfl, ?_⟩
    intro q
    simp only [WriteFileAtPosition, OFile.byteAt_write, OFile.seekp]
    rfl

theorem slots_disjoint (W : Nat) (hW : W = 4 ∨ W = 8) (x p r : Nat) (hp : x ≤ p) (hr : x ≤ r)
    (ap : (p - x) % W = 0) (ar : (r - x) % W = 0) (hne : p ≠ r) :
    p - x + W ≤ r - x ∨ r - x + W ≤ p - x := by
  rcases hW with rfl | rfl <;> omega

/-- Effect of the patches of one iteration on the map and the file. -/
theorem patchAll_content (W : Nat) (hW : W = 4 ∨ W = 8) (mem : Mem) (x os : Nat) (sl : List Nat)
    (hwf : ∀ p ∈ sl, x ≤ p ∧ (p - x) % W = 0 ∧ os + (p - x) + W ≤ wordMod W) :
    ∀ ctx : WalkObjectContext, ctx.ObjectStart = os →
      (∀ k v, ctx.SerializedObjectMap.lookup k = some v →
        (patchAll W mem x sl ctx).SerializedObjectMap.lookup k = some v) ∧
      (∀ q, (∀ p ∈ sl, q < os + (p - x) ∨ os + (p - x) + W ≤ q) →
        (patchAll W mem x sl ctx).File.byteAt q = ctx.File.byteAt q) ∧
      (∀ p ∈ sl, ∃ off,
        (patchAll W mem x sl ctx).SerializedObjectMap.lookup (readLE mem p W) = some off ∧
        ∀ i, i < W → (patchAll W mem x sl ctx).File.byteAt (os + (p - x) + i) = leByte off i) := by
  have hWpos : 0 < W := by rcases hW with rfl | rfl <;> omega
  induction sl with
  | nil =>
    intro ctx _
    exact ⟨fun k v h => h, fun q _ => rfl, fun p hp => by simp at hp⟩
  | cons p rest ih =>
    intro ctx hos
    obtain ⟨hpx, hpa, hpb⟩ := hwf p (List.mem_cons_self _ _)
    obtain ⟨off, e1, e2, e3, e4⟩ := EachObjectReference_file W mem x p ctx
    rw [hos, padd_slot W os p x hpx (by omega)] at e4
    obtain ⟨i1, i2, i3⟩ := ih (fun r hr => hwf r (List.mem_cons_of_mem _ hr))
      (EachObjectReference W mem x p ctx) (e3.trans hos)
    rw [patchAll_cons]
    refine ⟨fun k v h => i1 k v (e2 k v h), ?_, ?_⟩
    · intro q hq
      rw [i2 q (fun r hr => hq r (List.mem_cons_of_mem _ hr)), e4 q]
      have := hq p (List.mem_cons_self _ _)
      rw [if_neg (by omega)]
    · intro p1 hp1
      by_cases hin : p1 ∈ rest
      · exact i3 p1 hin
      · have hp1e : p1 = p := by
          rcases List.mem_cons.mp hp1 with h | h
          · exact h
          · exact absurd h hin
        subst hp1e
        refine ⟨off, i1 _ _ e1, ?_⟩
        intro i hi
        rw [i2 (os + (p1 - x) + i) ?_, e4]
        · rw [if_pos (by omega)]
          congr 1
          omega
        · intro r hr
          obtain ⟨hrx, hra, _⟩ := hwf r (List.mem_cons_of_mem _ hr)
          have hne : p1 ≠ r := by
            rintro rfl
            exact hin hr
          have := slots_disjoint W hW x p1 r hpx hrx hpa hra hne
          omega

/-- The contents of a record only depend on the bytes before its end and on the map entries
present. -/
theorem RecordContent_frame (W : Nat) (hW : W = 4 ∨ W = 8) (mem : Mem) (F : Nat)
    (m m1 : List (Nat × Nat)) (f g : OFile) (rec : RecordInfo)
    (hwf : wfObject W mem F rec.objectId = true)
    (hend : rec.fileEnd = rec.filePos + writtenLen W mem rec.objectId)
    (hm : ∀ k v, m.lookup k = some v → m1.lookup k = some v)
    (hfg : ∀ q, q < rec.fileEnd → g.byteAt q = f.byteAt q)
    (h : RecordContent W mem F m f rec) : RecordContent W mem F m1 g rec := by
  obtain ⟨w1, w2, sl0, w3, w4⟩ := wfObject_spec W mem F rec.objectId hwf
  have hlen := writtenLen_eq W hW mem rec.objectId w1 w2
  rw [hlen] at hend
  have hWpos : 0 < W := by rcases hW with rfl | rfl <;> omega
  refine ⟨?_, ?_, ?_, ?_, ?_⟩
  · intro i hi
    rw [hfg _ (by omega)]
    exact h.header i hi
  · intro i hi
    rw [hfg _ (by omega)]
    exact h.token i hi
  · intro sl hsl p hp
    obtain ⟨off, h1, h2⟩ := h.slots sl hsl p hp
    refine ⟨off, hm _ _ h1, ?_⟩
    intro i hi
    rw [w3] at hsl
    simp only [Option.some.injEq] at hsl
    subst hsl
    obtain ⟨b1, b2, _⟩ := w4 p hp
    rw [hfg _ (by omega)]
    exact h2 i hi
  · intro sl hsl j hj hout
    rw [hfg _ (by omega)]
    exact h.payload sl hsl j hj hout
  · intro k hk
    rw [hfg _ (by omega)]
    exact h.padding k hk

/-- Contents of the record an iteration has just written and patched. -/
theorem RecordContent_new (W : Nat) (hW : W = 4 ∨ W = 8) (mem : Mem) (F : Nat) (st : SerState)
    (x tok : Nat) (sl : List Nat) (rec : RecordInfo) (ctx : WalkObjectContext)
    (hwf : wfObject W mem F x = true) (hsl : walkSlots W mem F x = some sl)
    (hobj : rec.objectId = x) (hpos : rec.filePos = st.file.pos) (htok : rec.mtToken = tok)
    (hfile : ctx.File = (writeRecord W mem st x tok).1)
    (hos : ctx.ObjectStart = st.file.pos + W)
    (hfit : st.file.pos + GetObjectSize2 W mem x < wordMod W) :
    RecordContent W mem F (patchAll W mem x sl ctx).SerializedObjectMap
      (patchAll W mem x sl ctx).File rec := by
  obtain ⟨w1, w2, sl0, w3, w4⟩ := wfObject_spec W mem F x hwf
  rw [hsl] at w3
  simp only [Option.some.injEq] at w3
  subst w3
  have hWpos : 0 < W := by rcases hW with rfl | rfl <;> omega
  obtain ⟨_, c2, c3⟩ := patchAll_content W hW mem x (st.file.pos + W) sl
    (by
      intro p hp
      obtain ⟨b1, b2, b3⟩ := w4 p hp
      exact ⟨by omega, b3, by omega⟩) ctx hos
  have hb := writeRecord_byteAt W hW mem st x tok w1 w2
  rw [← hfile] at hb
  refine ⟨?_, ?_, ?_, ?_, ?_⟩
  · intro i hi
    rw [hpos, c2 _ (by
      intro p hp
      obtain ⟨b1, b2, _⟩ := w4 p hp
      omega), hb]
    rw [if_neg (by omega), if_pos (by omega)]
  · intro i hi
    rw [hpos, htok, c2 _ (by
      intro p hp
      obtain ⟨b1, b2, _⟩ := w4 p hp
      omega), hb]
    rw [if_neg (by omega), if_neg (by omega), if_pos (by omega)]
    congr 1
    omega
  · intro sl1 hsl1 p hp
    rw [hobj, hsl] at hsl1
    simp only [Option.some.injEq] at hsl1
    subst hsl1
    obtain ⟨off, h1, h2⟩ := c3 p hp
    refine ⟨off, h1, ?_⟩
    intro i hi
    rw [hpos, hobj]
    exact h2 i hi
  · intro sl1 hsl1 j hj hout
    rw [hobj] at hsl1 hj hout ⊢
    rw [hsl] at hsl1
    simp only [Option.some.injEq] at hsl1
    subst hsl1
    rw [hpos, c2 _ (by
      intro p hp
      obtain ⟨b1, b2, _⟩ := w4 p hp
      have := hout p hp
      omega), hb]
    rw [if_neg (by omega), if_neg (by omega), if_neg (by omega), if_pos (by omega)]
    congr 2
    omega
  · intro k hk
    rw [hobj] at hk ⊢
    rw [hpos, c2 _ (by
      intro p hp
      obtain ⟨b1, b2, _⟩ := w4 p hp
      omega), hb]
    rw [if_neg (by omega), if_neg (by omega), if_neg (by omega), if_neg (by omega),
      if_pos (by omega)]

theorem RecordContent_seekp (W : Nat) (mem : Mem) (F : Nat) (m : List (Nat × Nat)) (f : OFile)
    (rec : RecordInfo) (p : Nat) (h : RecordContent W mem F m f rec) :
    RecordContent W mem F m (f.seekp p) rec :=
  ⟨h.header, h.token, h.slots, h.payload, h.padding⟩

theorem Inv3_init (W : Nat) (mem : Mem) (F root : Nat) (objs : List Nat) (hroot : root ∈ objs) :
    Inv3 W mem F objs (initState W mem root) where
  pushed_in := by
    intro x hx
    simp only [initState, List.mem_singleton] at hx
    subst hx
    exact hroot
  content := by
    intro _ rec h
    simp [initState] at h

theorem Inv3_step (W : Nat) (hW : W = 4 ∨ W = 8) (mem : Mem) (fp F root x : Nat) (q objs : List Nat)
    (hc : Closed W mem F root objs) (hwf : ∀ y ∈ objs, wfObject W mem F y = true)
    (st st1 : SerState) (hI : Inv W mem root st) (hI3 : Inv3 W mem F objs st)
    (hq : st.objectQueue = x :: q) (hs : serializeStep W mem fp F x st = some st1) :
    Inv3 W mem F objs st1 := by
  obtain ⟨sl, news, hw, h1, _, h3, h4, _⟩ := serializeStep_spec W mem fp F root x q st st1 hI hq hs
  have hx : x ∈ objs := by
    apply hI3.pushed_in
    rw [hI.pushed_eq, hq]
    simp
  obtain ⟨sl0, hw0, hsl⟩ := closedAt_spec W mem F objs x (hc.2 x hx)
  rw [hw] at hw0
  simp only [Option.some.injEq] at hw0
  subst hw0
  refine ⟨?_, ?_⟩
  · intro y hy
    rw [h3] at hy
    rcases List.mem_append.mp hy with hy | hy
    · exact hI3.pushed_in y hy
    · obtain ⟨p, hp, rfl⟩ := h4 y hy
      exact hsl p hp
  · intro hfit1
    have hWpos : 0 < W := by rcases hW with rfl | rfl <;> omega
    have hWm : W % 4294967296 = W := by rcases hW with rfl | rfl <;> rfl
    obtain ⟨w1, w2, sl1, w3, w4⟩ := wfObject_spec W mem F x (hwf x hx)
    rw [hw] at w3
    simp only [Option.some.injEq] at w3
    subst w3
    have hlenx := writtenLen_eq W hW mem x w1 w2
    have hfile1 : st1.file.bytes.length =
        (patchAll W mem x sl (stepContext W mem x st)).File.bytes.length := by
      rw [h1]; rfl
    have hl1 := patchAll_length W mem x sl (stepContext W mem x st)
    have hl2 := writeRecord_length W mem st x (assignToken st (GetMTFromObject W mem x)).1
    have hl3 := writeRecord_pos W mem st x (assignToken st (GetMTFromObject W mem x)).1
    have hctxf : (stepContext W mem x st).File =
        (writeRecord W mem st x (assignToken st (GetMTFromObject W mem x)).1).1 := rfl
    rw [hctxf] at hl1
    have hfit0 : st.file.bytes.length < wordMod W := by omega
    have hpos1 : st1.file.pos = st.file.pos + writtenLen W mem x := by
      have e : st1.file.pos = cfpAfter W mem st.currentFilePointer x := by rw [h1]; rfl
      rw [e, cfpAfter_eq_of_lt W mem _ _ (by rw [← hI.pos_eq]; omega), hI.pos_eq]
    have hos : (stepContext W mem x st).ObjectStart = st.file.pos + W := by
      show objectStartOf W st = _
      simp only [objectStartOf, WriteFileAndMoveCurrentFilePointer, hWm]
      rw [Nat.mod_eq_of_lt (by rw [← hI.pos_eq]; omega), hI.pos_eq]
    obtain ⟨c1, c2, _⟩ := patchAll_content W hW mem x (st.file.pos + W) sl
      (by
        intro p hp
        obtain ⟨b1, b2, b3⟩ := w4 p hp
        exact ⟨by omega, b3, by omega⟩) (stepContext W mem x st) hos
    have hmap1 : st1.serializedObjectMap =
        (patchAll W mem x sl (stepContext W mem x st)).SerializedObjectMap := by rw [h1]; rfl
    have hbyte1 : ∀ i, st1.file.byteAt i =
        (patchAll W mem x sl (stepContext W mem x st)).File.byteAt i := by
      intro i; rw [h1]; rfl
    have hrec1 : st1.records = st.records ++
        [{ objectId := x, recordStart := st.currentFilePointer, filePos := st.file.pos,
           fileEnd := (writeRecord W mem st x (assignToken st (GetMTFromObject W mem x)).1).1.pos,
           mt := GetMTFromObject W mem x, mtToken := (assignToken st (GetMTFromObject W mem x)).1,
           objectStart := objectStartOf W st,
           recordEnd := (writeRecord W mem st x (assignToken st (GetMTFromObject W mem x)).1).2 }] := by
      rw [h1]; rfl
    intro rec hrec
    rw [hrec1] at hrec
    rcases List.mem_append.mp hrec with hrec | hrec
    · obtain ⟨g1, g2⟩ := hI3.content hfit0 rec hrec
      refine ⟨by omega, ?_⟩
      have hin : rec.objectId ∈ objs := by
        apply hI3.pushed_in
        rw [hI.pushed_eq]
        exact List.mem_append_left _ (List.mem_map_of_mem _ hrec)
      rw [hmap1]
      refine RecordContent_frame W hW mem F st.serializedObjectMap _ st.file _ rec (hwf _ hin)
        (Inv_rec_mem W mem root st hI rec hrec).2.2.2.1 c1 ?_ g2
      intro i hi
      rw [hbyte1, c2 i (by
        intro p hp
        obtain ⟨b1, b2, _⟩ := w4 p hp
        omega), hctxf,
        writeRecord_byteAt W hW mem st x _ w1 w2, if_pos (by omega)]
    · simp only [List.mem_singleton] at hrec
      subst hrec
      refine ⟨by dsimp only; omega, ?_⟩
      rw [hmap1]
      have := RecordContent_new W hW mem F st x (assignToken st (GetMTFromObject W mem x)).1 sl
        { objectId := x, recordStart := st.currentFilePointer, filePos := st.file.pos,
           fileEnd := (writeRecord W mem st x (assignToken st (GetMTFromObject W mem x)).1).1.pos,
           mt := GetMTFromObject W mem x, mtToken := (assignToken st (GetMTFromObject W mem x)).1,
           objectStart := objectStartOf W st,
           recordEnd := (writeRecord W mem st x (assignToken st (GetMTFromObject W mem x)).1).2 }
        (stepContext W mem x st) (hwf x hx) hw rfl rfl rfl hctxf hos (by omega)
      have hf1 : st1.file = (patchAll W mem x sl (stepContext W mem x st)).File.seekp
          (writeRecord W mem st x (assignToken st (GetMTFromObject W mem x)).1).2 := by
        rw [h1]; rfl
      rw [hf1]
      exact RecordContent_seekp W mem F _ _ _ _ this

theorem SerializeObject_inv3 (W : Nat) (hW : W = 4 ∨ W = 8) (mem : Mem) (root fp F fuel : Nat)
    (objs : List Nat) (hc : Closed W mem F root objs) (hwf : ∀ y ∈ objs, wfObject W mem F y = true)
    (r : SerState) (h : SerializeObject W mem root fp F fuel = some r) :
    Inv3 W mem F objs r :=
  (serializeLoop_inv W mem fp F (fun st => Inv W mem root st ∧ Inv3 W mem F objs st)
    (fun st x q st1 hP hq hs =>
      ⟨Inv_step W mem fp F root x q st st1 hP.1 hq hs,
        Inv3_step W hW mem fp F root x q objs hc hwf st st1 hP.1 hP.2 hq hs⟩)
    fuel (initState W mem root) r ⟨Inv_init W mem root, Inv3_init W mem F root objs hc.1⟩ h).1.2

theorem cfpAfter_mod (W : Nat) (mem : Mem) (c x : Nat) :
    cfpAfter W mem c x = (c + writtenLen W mem x) % wordMod W := by
  unfold cfpAfter writtenLen
  simp only [Nat.mod_add_mod]
  congr 1
  omega

theorem cfpAfter_eq_resv (W : Nat) (hW : W = 4 ∨ W = 8) (mem : Mem) (F c x : Nat)
    (hwf : wfObject W mem F x = true) :
    cfpAfter W mem c x = (c + reservedLen W mem x) % wordMod W := by
  obtain ⟨w1, w2, _⟩ := wfObject_spec W mem F x hwf
  rw [cfpAfter_mod, writtenLen_eq W hW mem x w1 w2, reservedLen, Nat.add_mod_mod]

theorem cfpEnd_eq_resvEnd (W : Nat) (hW : W = 4 ∨ W = 8) (mem : Mem) (F : Nat) (l : List Nat)
    (hwf : ∀ x ∈ l, wfObject W mem F x = true) : cfpEnd W mem l = resvEnd W mem l := by
  induction l using List.reverseRecOn with
  | nil => rfl
  | append_singleton l x ih =>
    rw [cfpEnd_append, resvEnd_append, ih (fun y hy => hwf y (List.mem_append_left _ hy)),
      cfpAfter_eq_resv W hW mem F _ x (hwf x (by simp))]

/-- In the final state every map entry is the `objectStart` of a record of its object. -/
theorem map_offset_is_record (W : Nat) (hW : W = 4 ∨ W = 8) (mem : Mem) (F root : Nat)
    (objs : List Nat) (hwf : ∀ y ∈ objs, wfObject W mem F y = true) (r : SerState)
    (hI : Inv W mem root r) (hI3 : Inv3 W mem F objs r) (hq : r.objectQueue = [])
    (k off : Nat) (h : (k, off) ∈ r.serializedObjectMap) :
    ∃ tgt ∈ r.records, tgt.objectId = k ∧ off = tgt.objectStart := by
  rw [hI.map_eq] at h
  obtain ⟨a, b, hab, hoff⟩ := resvMap_mem W mem _ _ _ _ h
  obtain ⟨rest, hrest⟩ := hI.pushed_root
  have hp := hI.pushed_eq
  rw [hq, List.append_nil] at hp
  rw [hrest, List.tail_cons] at hab
  have hsplit : r.records.map (fun rec => rec.objectId) = (root :: a) ++ k :: b := by
    rw [← hp, hrest, hab]; rfl
  obtain ⟨l1, l2, e1, e2, e3⟩ := List.map_eq_append_iff.mp hsplit
  obtain ⟨tgt, l3, e4, e5, _⟩ := List.map_eq_cons_iff.mp e3
  subst e4
  have hloc := hI.recs l1 tgt l3 e1
  have hWm : W % 4294967296 = W := by rcases hW with rfl | rfl <;> rfl
  refine ⟨tgt, by rw [e1]; simp, e5, ?_⟩
  rw [hloc.objectStart_eq, hloc.start_eq, e2, hWm, hoff]
  rw [cfpEnd_eq_resvEnd W hW mem F (root :: a) (by
    intro y hy
    apply hwf
    apply hI3.pushed_in
    rw [hrest, hab]
    rcases List.mem_cons.mp hy with rfl | hy
    · simp
    · simp [hy])]
  rfl

theorem leByte_succ (v i : Nat) : leByte v (i + 1) = leByte (v / 256) i := by
  unfold leByte
  rw [pow_succ', Nat.div_div_eq_div_mul]

theorem OFile.readLE_of_bytes (f : OFile) (n : Nat) :
    ∀ (p v : Nat), (∀ i, i < n → f.byteAt (p + i) = leByte v i) →
      f.readLE p n = v % 256 ^ n := by
  induction n with
  | zero => intro p v _; simp [OFile.readLE, Nat.mod_one]
  | succ n ih =>
    intro p v h
    have h0 := h 0 (Nat.succ_pos _)
    have ht := ih (p + 1) (v / 256) (by
      intro i hi
      rw [show p + 1 + i = p + (i + 1) by omega, h (i + 1) (by omega), leByte_succ])
    simp only [OFile.readLE, ht]
    rw [show p = p + 0 from rfl, h0, pow_succ', Nat.mod_mul]
    simp [leByte]

theorem Reached_inv (W : Nat) (mem : Mem) (root fp F : Nat) (st : SerState)
    (h : Reached W mem root fp F st) : Inv W mem root st ∧ Inv2 fp st := by
  induction h with
  | init => exact ⟨Inv_init W mem root, Inv2_init W mem root fp⟩
  | step _ hq hs ih =>
    exact ⟨Inv_step W mem fp F root _ _ _ _ ih.1 hq hs, Inv2_step W mem fp F _ _ _ ih.2 hs⟩

theorem Reached_inv3 (W : Nat) (hW : W = 4 ∨ W = 8) (mem : Mem) (root fp F : Nat) (objs : List Nat)
    (hc : Closed W mem F root objs) (hwf : ∀ y ∈ objs, wfObject W mem F y = true) (st : SerState)
    (h : Reached W mem root fp F st) : Inv3 W mem F objs st := by
  induction h with
  | init => exact Inv3_init W mem F root objs hc.1
  | step hr hq hs ih =>
    exact Inv3_step W hW mem fp F root _ _ objs hc hwf _ _ (Reached_inv W mem root fp F _ hr).1 ih hq hs

theorem SerializeObject_reached (W : Nat) (mem : Mem) (root fp F fuel : Nat) (r : SerState)
    (h : SerializeObject W mem root fp F fuel = some r) : Reached W mem root fp F r :=
  (serializeLoop_inv W mem fp F (Reached W mem root fp F)
    (fun _ _ _ _ hP hq hs => Reached.step hP hq hs) fuel (initState W mem root) r Reached.init h).1

/-- An iteration leaves every byte before its record unchanged. -/
theorem serializeStep_frame (W : Nat) (hW : W = 4 ∨ W = 8) (mem : Mem) (fp F root x : Nat)
    (q objs : List Nat) (hwf : ∀ y ∈ objs, wfObject W mem F y = true)
    (st st1 : SerState) (hI : Inv W mem root st) (hI3 : Inv3 W mem F objs st)
    (hq : st.objectQueue = x :: q) (hs : serializeStep W mem fp F x st = some st1)
    (hfit1 : st1.file.bytes.length < wordMod W) (i : Nat) (hi : i < st.file.pos) :
    st1.file.byteAt i = st.file.byteAt i := by
  obtain ⟨sl, news, hw, h1, _, _, _, _⟩ := serializeStep_spec W mem fp F root x q st st1 hI hq hs
  have hx : x ∈ objs := by
    apply hI3.pushed_in
    rw [hI.pushed_eq, hq]
    simp
  have hWpos : 0 < W := by rcases hW with rfl | rfl <;> omega
  have hWm : W % 4294967296 = W := by rcases hW with rfl | rfl <;> rfl
  obtain ⟨w1, w2, sl1, w3, w4⟩ := wfObject_spec W mem F x (hwf x hx)
  rw [hw] at w3
  simp only [Option.some.injEq] at w3
  subst w3
  have hlenx := writtenLen_eq W hW mem x w1 w2
  have hfile1 : st1.file.bytes.length =
      (patchAll W mem x sl (stepContext W mem x st)).File.bytes.length := by
    rw [h1]; rfl
  have hl1 := patchAll_length W mem x sl (stepContext W mem x st)
  have hl2 := writeRecord_length W mem st x (assignToken st (GetMTFromObject W mem x)).1
  have hl3 := writeRecord_pos W mem st x (assignToken st (GetMTFromObject W mem x)).1
  have hctxf : (stepContext W mem x st).File =
      (writeRecord W mem st x (assignToken st (GetMTFromObject W mem x)).1).1 := rfl
  rw [hctxf] at hl1
  have hos : (stepContext W mem x st).ObjectStart = st.file.pos + W := by
    show objectStartOf W st = _
    simp only [objectStartOf, WriteFileAndMoveCurrentFilePointer, hWm]
    rw [Nat.mod_eq_of_lt (by rw [← hI.pos_eq]; omega), hI.pos_eq]
  obtain ⟨_, c2, _⟩ := patchAll_content W hW mem x (st.file.pos + W) sl
    (by
      intro p hp
      obtain ⟨b1, b2, b3⟩ := w4 p hp
      exact ⟨by omega, b3, by omega⟩) (stepContext W mem x st) hos
  have hbyte1 : st1.file.byteAt i =
      (patchAll W mem x sl (stepContext W mem x st)).File.byteAt i := by
    rw [h1]; rfl
  rw [hbyte1, c2 i (by
    intro p hp
    obtain ⟨b1, b2, _⟩ := w4 p hp
    omega), hctxf, writeRecord_byteAt W hW mem st x _ w1 w2, if_pos hi]

theorem serializeStep_length (W : Nat) (mem : Mem) (fp F x : Nat) (st st1 : SerState)
    (hs : serializeStep W mem fp F x st = some st1) :
    st.file.bytes.length ≤ st1.file.bytes.length := by
  rw [serializeStep_eq] at hs
  cases hw : walkSlots W mem F x with
  | none => rw [hw] at hs; simp at hs
  | some sl =>
    rw [hw] at hs
    simp only [Option.map_some', Option.some.injEq] at hs
    subst hs
    have hl1 := patchAll_length W mem x sl (stepContext W mem x st)
    have hl2 := writeRecord_length W mem st x (assignToken st (GetMTFromObject W mem x)).1
    have hctxf : (stepContext W mem x st).File =
        (writeRecord W mem st x (assignToken st (GetMTFromObject W mem x)).1).1 := rfl
    rw [hctxf] at hl1
    show st.file.bytes.length ≤ (patchAll W mem x sl (stepContext W mem x st)).File.bytes.length
    omega

theorem firstSeen_subset (l : List Nat) : ∀ m ∈ firstSeen l, m ∈ l := by
  induction l using List.reverseRecOn with
  | nil => intro m hm; simp [firstSeen] at hm
  | append_singleton l x ih =>
    intro m hm
    rw [firstSeen_append] at hm
    split at hm
    · exact List.mem_append_left _ (ih m hm)
    · rcases List.mem_append.mp hm with h | h
      · exact List.mem_append_left _ (ih m h)
      · exact List.mem_append_right _ h

theorem token_lt (W : Nat) (mem : Mem) (root fp : Nat) (st : SerState) (hI : Inv W mem root st)
    (hI2 : Inv2 fp st) (rec : RecordInfo) (hrec : rec ∈ st.records) :
    rec.mtToken < wordMod W := by
  have hsub : st.mtTokenMap.map Prod.fst ⊆ List.range (wordMod W) := by
    intro m hm
    rw [hI2.tokens_fst] at hm
    have := firstSeen_subset _ m hm
    obtain ⟨rec1, hr1, rfl⟩ := List.mem_map.mp this
    rw [List.mem_range, (Inv_rec_mem W mem root st hI rec1 hr1).2.2.2.2]
    exact readLE_word_lt W mem _
  have hle := (List.subperm_of_subset hI2.tokens_nodup hsub).length_le
  simp only [List.length_map, List.length_range] at hle
  have hget := lookup_getElem_of_range _ _ _ hI2.tokens_snd (hI2.rec_token rec hrec)
  have hlt : rec.mtToken < st.mtTokenMap.length := by
    by_contra hcon
    rw [List.getElem?_eq_none (by omega)] at hget
    simp at hget
  omega

/-! ## Claims C1 and C4 -/

/-- C1 fails by a defect of the code: line 212 writes `static_cast<DWORD>(objectSize)` bytes of
contents, whereas the reservation path (lines 97-99 and 156-158) advances by the full `size_t`.
A pair references an array of computed size `2 ^ 32 + 24` and a plain object. The extent
reserved for the array is `2 ^ 32 + 24` bytes but its record is 24 bytes long, so the slot of
the pair that references the plain object holds `2 ^ 32 + 64` while the record of the plain
object starts at 56 and its token is written at offset 64. -/
theorem patched_reference_dangles :
    walkSlots 8 hugeRefHeap 5 8192 = some [8200, 8208] ∧ readLE hugeRefHeap 8208 8 = 8300 ∧
      (SerializeObject 8 hugeRefHeap 8192 0 5 5).map
        (fun r => (r.records.map (fun rec => (rec.objectId, rec.filePos)),
          r.file.readLE (0 + 8 + (8208 - 8192)) 8, r.serializedObjectMap)) =
        some ([(8192, 0), (9000, 32), (8300, 56)], 4294967360, [(9000, 40), (8300, 4294967360)]) := by
  decide

/-- Reference patches resolve when no contents length is truncated. Let `objs` hold the root and be closed under reported references, each member
being well formed (`wfObject`: computed size `s` with `2 * W ≤ s` and `s - 2 * W < 2 ^ 32`, the
walker halts, reported slots `W`-aligned inside the contents). Then the run returns and, the file
being shorter than `2 ^ (8 * W)` bytes: every map entry is `recordStart + W` of a record written
for its object, and in every record each reported slot (its stored word is non-null) holds, in
the final file, `recordStart + W` of a record written for the object the slot references. -/
theorem patched_references_resolve (W : Nat) (hW : W = 4 ∨ W = 8) (mem : Mem) (root fp F : Nat)
    (objs : List Nat) (hc : Closed W mem F root objs)
    (hwf : ∀ y ∈ objs, wfObject W mem F y = true) :
    ∃ r, (∀ fuel, objs.length + 2 ≤ fuel → SerializeObject W mem root fp F fuel = some r) ∧
      (r.file.bytes.length < wordMod W →
        (∀ k off, (k, off) ∈ r.serializedObjectMap →
          ∃ tgt ∈ r.records, tgt.objectId = k ∧ off = tgt.filePos + W) ∧
        ∀ rec ∈ r.records, ∀ sl, walkSlots W mem F rec.objectId = some sl → ∀ p ∈ sl,
          readLE mem p W ≠ 0 ∧
          ∃ tgt ∈ r.records, tgt.objectId = readLE mem p W ∧
            r.file.readLE (rec.filePos + W + (p - rec.objectId)) W = tgt.filePos + W) := by
  obtain ⟨r, hr⟩ := SerializeObject_total W mem root fp F objs hc
  have hrun := hr (objs.length + 2) (le_refl _)
  obtain ⟨hI, hq⟩ := SerializeObject_inv W mem root fp F _ r hrun
  have hI2 := SerializeObject_inv2 W mem root fp F _ r hrun
  have hI3 := SerializeObject_inv3 W hW mem root fp F _ objs hc hwf r hrun
  refine ⟨r, hr, ?_⟩
  intro hfit
  have hmap : ∀ k off, (k, off) ∈ r.serializedObjectMap →
      ∃ tgt ∈ r.records, tgt.objectId = k ∧ off = tgt.filePos + W := by
    intro k off hk
    obtain ⟨tgt, ht, e1, e2⟩ := map_offset_is_record W hW mem F root objs hwf r hI hI3 hq k off hk
    exact ⟨tgt, ht, e1, by rw [e2, (Inv_nowrap W hW mem root fp r hI hI2 hfit tgt ht).2.1]⟩
  refine ⟨hmap, ?_⟩
  intro rec hrec sl hsl p hp
  refine ⟨walkSlots_nonnull W mem F _ sl hsl p hp, ?_⟩
  obtain ⟨off, h1, h2⟩ := ((hI3.content hfit rec hrec).2).slots sl hsl p hp
  have hmem : (readLE mem p W, off) ∈ r.serializedObjectMap := by
    obtain ⟨l1, l2, e, _⟩ := List.lookup_eq_some_iff.mp h1
    rw [e]
    simp
  obtain ⟨tgt, ht, e1, e2⟩ := hmap _ _ hmem
  refine ⟨tgt, ht, e1, ?_⟩
  have hlt := (Inv_nowrap W hW mem root fp r hI hI2 hfit tgt ht).2.2
  rw [OFile.readLE_of_bytes r.file W _ off h2, ← wordMod_eq_pow, Nat.mod_eq_of_lt (by omega), e2]

set_option maxRecDepth 100000 in
/-- Instance of `patched_references_resolve`: a node referencing an object without
references. -/
theorem patched_references_resolve_witness :
    (8 = 4 ∨ 8 = 8) ∧ Closed 8 twoHeap 5 8192 [8192, 8300] ∧
    (∀ y ∈ [8192, 8300], wfObject 8 twoHeap 5 y = true) ∧
    (SerializeObject 8 twoHeap 8192 0 5 4).map (fun r => r.file.bytes.length) = some 48 ∧
    ∃ r, (∀ fuel, 4 ≤ fuel → SerializeObject 8 twoHeap 8192 0 5 fuel = some r) ∧
      (r.file.bytes.length < wordMod 8 →
        (∀ k off, (k, off) ∈ r.serializedObjectMap →
          ∃ tgt ∈ r.records, tgt.objectId = k ∧ off = tgt.filePos + 8) ∧
        ∀ rec ∈ r.records, ∀ sl, walkSlots 8 twoHeap 5 rec.objectId = some sl → ∀ p ∈ sl,
          readLE twoHeap p 8 ≠ 0 ∧
          ∃ tgt ∈ r.records, tgt.objectId = readLE twoHeap p 8 ∧
            r.file.readLE (rec.filePos + 8 + (p - rec.objectId)) 8 = tgt.filePos + 8) :=
  ⟨Or.inr rfl, by decide, by decide, by decide,
    patched_references_resolve 8 (Or.inr rfl) twoHeap 8192 0 5 [8192, 8300] (by decide) (by decide)⟩

/-- C4 fails by a defect of the code: line 212 writes `static_cast<DWORD>(objectSize)` bytes of
contents, whereas the reservation path (lines 97-99 and 156-158) advances by the full `size_t`.
For an array of computed size `s = 2 ^ 32 + 24` the length of the contents is truncated to 8;
the file ends after 24 bytes, so the byte that should hold the source byte at `a + W + 100`
(which is 7) is absent. -/
theorem record_payload_truncated :
    GetObjectSize2 8 hugeHeap 8192 = 4294967320 ∧ hugeHeap (8192 + 8 + 100) % 256 = 7 ∧
      walkSlots 8 hugeHeap 5 8192 = some [] ∧
      (SerializeObject 8 hugeHeap 8192 0 5 5).map
        (fun r => (r.records.map (fun rec => (rec.objectId, rec.filePos)), r.file.bytes.length,
          r.file.byteAt (0 + 2 * 8 + 100))) = some ([(8192, 0)], 24, 0) := by
  decide

/-- Layout of the records when no contents length is truncated. Let `objs` hold the root and be closed under reported references, each member
being well formed (`wfObject`: computed size `s` with `2 * W ≤ s` and `s - 2 * W < 2 ^ 32`, the
walker halts, reported slots `W`-aligned inside the contents). Then the run returns and, the file
being shorter than `2 ^ (8 * W)` bytes, the final file holds at the start of every record of an
object `a`: `W` zero bytes; the token, little-endian on `W` bytes; `s - 2 * W` bytes equal to the
source bytes from `a + W` on, except that each reported slot holds the offset mapped to the
object it references; `PADDING(s, W)` zero bytes. Moreover no iteration alters a byte of a
record written by an earlier iteration. -/
theorem record_layout (W : Nat) (hW : W = 4 ∨ W = 8) (mem : Mem) (root fp F : Nat)
    (objs : List Nat) (hc : Closed W mem F root objs)
    (hwf : ∀ y ∈ objs, wfObject W mem F y = true) :
    ∃ r, (∀ fuel, objs.length + 2 ≤ fuel → SerializeObject W mem root fp F fuel = some r) ∧
      (r.file.bytes.length < wordMod W → ∀ rec ∈ r.records,
        rec.fileEnd = rec.filePos + GetObjectSize2 W mem rec.objectId
          + PADDING W (GetObjectSize2 W mem rec.objectId) W ∧
        (∀ i, i < W → r.file.byteAt (rec.filePos + i) = 0) ∧
        (∀ i, i < W → r.file.byteAt (rec.filePos + W + i) = leByte rec.mtToken i) ∧
        r.file.readLE (rec.filePos + W) W = rec.mtToken ∧
        (∀ sl, walkSlots W mem F rec.objectId = some sl →
          (∀ p ∈ sl, ∃ off, r.serializedObjectMap.lookup (readLE mem p W) = some off ∧
            r.file.readLE (rec.filePos + W + (p - rec.objectId)) W = off) ∧
          ∀ j, j < GetObjectSize2 W mem rec.objectId - 2 * W →
            (∀ p ∈ sl, rec.objectId + W + j < p ∨ p + W ≤ rec.objectId + W + j) →
            r.file.byteAt (rec.filePos + 2 * W + j) = mem (rec.objectId + W + j) % 256) ∧
        (∀ k, k < PADDING W (GetObjectSize2 W mem rec.objectId) W →
          r.file.byteAt (rec.filePos + GetObjectSize2 W mem rec.objectId + k) = 0)) ∧
      (∀ st st1 x q, Reached W mem root fp F st → st.objectQueue = x :: q →
        serializeStep W mem fp F x st = some st1 → st1.file.bytes.length < wordMod W →
        ∀ rec ∈ st.records, ∀ i, i < rec.fileEnd → st1.file.byteAt i = st.file.byteAt i) := by
  obtain ⟨r, hr⟩ := SerializeObject_total W mem root fp F objs hc
  have hrun := hr (objs.length + 2) (le_refl _)
  obtain ⟨hI, hq⟩ := SerializeObject_inv W mem root fp F _ r hrun
  have hI2 := SerializeObject_inv2 W mem root fp F _ r hrun
  have hI3 := SerializeObject_inv3 W hW mem root fp F _ objs hc hwf r hrun
  refine ⟨r, hr, ?_, ?_⟩
  · intro hfit rec hrec
    obtain ⟨_, hcont⟩ := hI3.content hfit rec hrec
    have hin : rec.objectId ∈ objs := by
      apply hI3.pushed_in
      rw [hI.pushed_eq]
      exact List.mem_append_left _ (List.mem_map_of_mem _ hrec)
    obtain ⟨w1, w2, _⟩ := wfObject_spec W mem F _ (hwf _ hin)
    have hend := (Inv_rec_mem W mem root r hI rec hrec).2.2.2.1
    rw [writtenLen_eq W hW mem _ w1 w2] at hend
    refine ⟨by omega, hcont.header, hcont.token, ?_, ?_, hcont.padding⟩
    · rw [OFile.readLE_of_bytes r.file W _ rec.mtToken hcont.token, ← wordMod_eq_pow,
        Nat.mod_eq_of_lt (token_lt W mem root fp r hI hI2 rec hrec)]
    · intro sl hsl
      refine ⟨?_, hcont.payload sl hsl⟩
      intro p hp
      obtain ⟨off, h1, h2⟩ := hcont.slots sl hsl p hp
      refine ⟨off, h1, ?_⟩
      have hmem : (readLE mem p W, off) ∈ r.serializedObjectMap := by
        obtain ⟨l1, l2, e, _⟩ := List.lookup_eq_some_iff.mp h1
        rw [e]
        simp
      obtain ⟨tgt, ht, _, e2⟩ :=
        map_offset_is_record W hW mem F root objs hwf r hI hI3 hq _ off hmem
      have hnw := Inv_nowrap W hW mem root fp r hI hI2 hfit tgt ht
      rw [OFile.readLE_of_bytes r.file W _ off h2, ← wordMod_eq_pow,
        Nat.mod_eq_of_lt (by rw [e2, hnw.2.1]; omega)]
  · intro st st1 x q hreach hq1 hs hfit1 rec hrec i hi
    have hIs := (Reached_inv W mem root fp F st hreach).1
    have hI3s := Reached_inv3 W hW mem root fp F objs hc hwf st hreach
    have hlen := serializeStep_length W mem fp F x st st1 hs
    have hle := (hI3s.content (by omega) rec hrec).1
    exact serializeStep_frame W hW mem fp F root x q objs hwf st st1 hIs hI3s hq1 hs hfit1 i
      (by omega)

set_option maxRecDepth 100000 in
/-- Instance of `record_layout`: a node referencing an object without references. -/
theorem record_layout_witness :
    (8 = 4 ∨ 8 = 8) ∧ Closed 8 twoHeap 5 8192 [8192, 8300] ∧
    (∀ y ∈ [8192, 8300], wfObject 8 twoHeap 5 y = true) ∧
    (SerializeObject 8 twoHeap 8192 0 5 4).map (fun r => r.file.bytes.length) = some 48 ∧
    ∃ r, (∀ fuel, 4 ≤ fuel → SerializeObject 8 twoHeap 8192 0 5 fuel = some r) ∧
      (r.file.bytes.length < wordMod 8 → ∀ rec ∈ r.records,
        rec.fileEnd = rec.filePos + GetObjectSize2 8 twoHeap rec.objectId
          + PADDING 8 (GetObjectSize2 8 twoHeap rec.objectId) 8 ∧
        (∀ i, i < 8 → r.file.byteAt (rec.filePos + i) = 0) ∧
        (∀ i, i < 8 → r.file.byteAt (rec.filePos + 8 + i) = leByte rec.mtToken i) ∧
        r.file.readLE (rec.filePos + 8) 8 = rec.mtToken ∧
        (∀ sl, walkSlots 8 twoHeap 5 rec.objectId = some sl →
          (∀ p ∈ sl, ∃ off, r.serializedObjectMap.lookup (readLE twoHeap p 8) = some off ∧
            r.file.readLE (rec.filePos + 8 + (p - rec.objectId)) 8 = off) ∧
          ∀ j, j < GetObjectSize2 8 twoHeap rec.objectId - 2 * 8 →
            (∀ p ∈ sl, rec.objectId + 8 + j < p ∨ p + 8 ≤ rec.objectId + 8 + j) →
            r.file.byteAt (rec.filePos + 2 * 8 + j) = twoHeap (rec.objectId + 8 + j) % 256) ∧
        (∀ k, k < PADDING 8 (GetObjectSize2 8 twoHeap rec.objectId) 8 →
          r.file.byteAt (rec.filePos + GetObjectSize2 8 twoHeap rec.objectId + k) = 0)) ∧
      (∀ st st1 x q, Reached 8 twoHeap 8192 0 5 st → st.objectQueue = x :: q →
        serializeStep 8 twoHeap 0 5 x st = some st1 → st1.file.bytes.length < wordMod 8 →
        ∀ rec ∈ st.records, ∀ i, i < rec.fileEnd → st1.file.byteAt i = st.file.byteAt i) :=
  ⟨Or.inr rfl, by decide, by decide, by decide,
    record_layout 8 (Or.inr rfl) twoHeap 8192 0 5 [8192, 8300] (by decide) (by decide)⟩

/-! ## Claims C2 and C3: the root is queued without a map entry -/

set_option maxRecDepth 100000 in
/-- C2 at a two-object cycle (the node at 8192 references the node at 8300, which references
the node at 8192): the run returns with three records, the root being pushed and written
twice, because the root is queued without a map entry and is reserved anew when the second
node references it. -/
theorem cycle_writes_root_twice :
    walkSlots 8 cycleHeap 5 8192 = some [8200] ∧ readLE cycleHeap 8200 8 = 8300 ∧
      walkSlots 8 cycleHeap 5 8300 = some [8308] ∧ readLE cycleHeap 8308 8 = 8192 ∧
      (SerializeObject 8 cycleHeap 8192 0 5 5).map
        (fun r => (r.pushed, r.records.map (fun rec => (rec.objectId, rec.filePos)),
          r.serializedObjectMap)) =
        some ([8192, 8300, 8192], [(8192, 0), (8300, 24), (8192, 48)], [(8300, 32), (8192, 56)]) := by
  decide

set_option maxRecDepth 100000 in
/-- C3 at a root whose only reference field points to the root itself: the run returns with two
records for the root, at offsets 0 and 24, and the patched field of the first record (file
offset 16) holds 32, the token offset of the second record, not 8, its own. -/
theorem self_reference_writes_root_twice :
    walkSlots 8 selfHeap 5 8192 = some [8200] ∧ readLE selfHeap 8200 8 = 8192 ∧
      (SerializeObject 8 selfHeap 8192 0 5 5).map
        (fun r => (r.records.map (fun rec => (rec.objectId, rec.filePos)),
          r.file.readLE (0 + 8 + (8200 - 8192)) 8, r.file.readLE (24 + 8 + (8200 - 8192)) 8,
          r.file.bytes.length)) =
        some ([(8192, 0), (8192, 24)], 32, 32, 48) := by
  decide

/-! ## Claim C14 -/

theorem readLE_two_of_four (mem : Mem) (a : Nat) : readLE mem a 2 = readLE mem a 4 % 65536 := by
  simp only [readLE]
  omega

/-- C14. `Object::GetSize` returns the base size of the type when the flag
`enum_flag_HasComponentSize` (`0x80000000`) is clear in `m_dwFlags`, and the base size plus
`numComponents * componentSize` (on `size_t`) when it is set, where the type descriptor is the
pointer stored at the object's address, `numComponents` is the 32-bit word stored right after
that pointer and `componentSize` is the low 16 bits of `m_dwFlags`; for `W = 8` the sum does not
wrap. -/
theorem GetSize_spec (W : Nat) (mem : Mem) (o : Nat) :
    RawGetMethodTable W mem o = readLE mem o W ∧
      HasComponentSize mem (RawGetMethodTable W mem o) =
        (m_dwFlags mem (RawGetMethodTable W mem o) &&& 0x80000000 != 0) ∧
      GetNumComponents W mem o = readLE mem (o + W) 4 ∧
      GetNumComponents W mem o < 2 ^ 32 ∧
      RawGetComponentSize mem (RawGetMethodTable W mem o) =
        m_dwFlags mem (RawGetMethodTable W mem o) % 2 ^ 16 ∧
      GetSize W mem o =
        (if HasComponentSize mem (RawGetMethodTable W mem o) then
          (GetBaseSize mem (RawGetMethodTable W mem o) +
            GetNumComponents W mem o * RawGetComponentSize mem (RawGetMethodTable W mem o))
            % wordMod W
        else GetBaseSize mem (RawGetMethodTable W mem o)) ∧
      GetSize 8 mem o =
        (if HasComponentSize mem (RawGetMethodTable 8 mem o) then
          GetBaseSize mem (RawGetMethodTable 8 mem o) +
            GetNumComponents 8 mem o * RawGetComponentSize mem (RawGetMethodTable 8 mem o)
        else GetBaseSize mem (RawGetMethodTable 8 mem o)) := by
  refine ⟨rfl, rfl, rfl, ?_, ?_, ?_, ?_⟩
  · exact readLE_lt mem 4 _
  · exact readLE_two_of_four mem _
  · unfold GetSize
    dsimp only
    split
    · rw [Nat.add_mod_mod]
    · rfl
  · have h1 : GetNumComponents 8 mem o < 2 ^ 32 := readLE_lt mem 4 _
    have h2 : RawGetComponentSize mem (RawGetMethodTable 8 mem o) < 2 ^ 16 := by
      have := readLE_lt mem 2 (RawGetMethodTable 8 mem o)
      unfold RawGetComponentSize
      omega
    have h3 : GetBaseSize mem (RawGetMethodTable 8 mem o) < 2 ^ 32 := readLE_lt mem 4 _
    have h4 : GetNumComponents 8 mem o * RawGetComponentSize mem (RawGetMethodTable 8 mem o)
        < 2 ^ 48 := by
      calc _ < 2 ^ 32 * 2 ^ 16 := Nat.mul_lt_mul'' h1 h2
        _ = 2 ^ 48 := by norm_num
    unfold GetSize
    dsimp only
    split
    · rw [wordMod_eight, Nat.mod_eq_of_lt (a := _ * _) (by omega), Nat.mod_eq_of_lt (by omega)]
    · rfl

/-! ## Claims C15 and C16 -/

theorem writtenLen_contents (W : Nat) (mem : Mem) (x : Nat) :
    writtenLen W mem x = W % 4294967296 + W % 4294967296 + contentsLen W mem x
      + PADDING W (GetObjectSize2 W mem x) W % 4294967296 := rfl

theorem walkSlots_of_no_pointers (W : Nat) (mem : Mem) (F x : Nat)
    (h : ContainsPointersOrCollectible mem (RawGetMethodTable W mem x) = false) :
    walkSlots W mem F x = some [] := by
  unfold walkSlots EnumerateObjectReferences
  simp [h]

set_option maxRecDepth 100000 in
/-- C15, as stated, fails: a type without references and without component size whose base size
is 20, below `MIN_OBJECT_SIZE = 24`. The record is 24 bytes long with no padding, so 8 bytes of
contents are written, not `20 - 2 * 8 = 4`. -/
theorem undersized_payload_not_base_size :
    ContainsPointersOrCollectible shortHeap (RawGetMethodTable 8 shortHeap 8192) = false ∧
      HasComponentSize shortHeap (RawGetMethodTable 8 shortHeap 8192) = false ∧
      GetBaseSize shortHeap (RawGetMethodTable 8 shortHeap 8192) = 20 ∧
      contentsLen 8 shortHeap 8192 = 8 ∧
      PADDING 8 (GetObjectSize2 8 shortHeap 8192) 8 = 0 ∧
      (SerializeObject 8 shortHeap 8192 0 5 5).map
        (fun r => (r.records.map (fun rec => (rec.objectId, rec.filePos, rec.fileEnd)),
          r.file.bytes.length)) = some ([(8192, 0, 24)], 24) := by
  decide

/-- C15, amended. For every object whose type is flagged neither as containing references nor
as collectible and has no component size: the computed size is the base size, and when the base
size is at least `MIN_OBJECT_SIZE` the iteration that visits the object writes exactly
`base size - 2 * W` bytes of contents; in every case the walker reports no slot (the callback is
never invoked), the iteration returns, and it only pops the object: nothing is pushed, the map,
the reservation cursor and the bytes written by the four writes of the record are unchanged by
the visit (no patch). -/
theorem no_reference_object_visit (W : Nat) (hW : W = 4 ∨ W = 8) (mem : Mem) (fp F x : Nat)
    (q : List Nat) (st : SerState)
    (hflags : ContainsPointersOrCollectible mem (RawGetMethodTable W mem x) = false)
    (hcs : HasComponentSize mem (RawGetMethodTable W mem x) = false)
    (hq : st.objectQueue = x :: q) :
    GetSize W mem x = GetBaseSize mem (RawGetMethodTable W mem x) ∧
      (MIN_OBJECT_SIZE W ≤ GetBaseSize mem (RawGetMethodTable W mem x) →
        contentsLen W mem x = GetBaseSize mem (RawGetMethodTable W mem x) - 2 * W) ∧
      walkSlots W mem F x = some [] ∧
      ∃ st1, serializeStep W mem fp F x st = some st1 ∧
        st1.objectQueue = q ∧ st1.pushed = st.pushed ∧
        st1.serializedObjectMap = st.serializedObjectMap ∧
        st1.lastReservedObjectEnd = st.lastReservedObjectEnd ∧
        st1.file.bytes =
          (writeRecord W mem st x (assignToken st (GetMTFromObject W mem x)).1).1.bytes ∧
        ∃ rec, st1.records = st.records ++ [rec] ∧ rec.objectId = x ∧
          rec.fileEnd = rec.filePos + writtenLen W mem x := by
  have hsize : GetSize W mem x = GetBaseSize mem (RawGetMethodTable W mem x) := by
    unfold GetSize
    simp [hcs]
  have hw := walkSlots_of_no_pointers W mem F x hflags
  refine ⟨hsize, ?_, hw, ?_⟩
  · intro hmin
    have hb : GetBaseSize mem (RawGetMethodTable W mem x) < 4294967296 := readLE_lt mem 4 _
    have h2 : GetObjectSize2 W mem x = GetBaseSize mem (RawGetMethodTable W mem x) := by
      unfold GetObjectSize2
      dsimp only
      rw [hsize, if_neg (by omega)]
    have hm : 2 * W ≤ MIN_OBJECT_SIZE W := by
      rcases hW with rfl | rfl <;> decide
    unfold contentsLen
    rw [h2, padd_sub W hW _ (by omega) (by have := wordMod_ge W hW; omega),
      Nat.mod_eq_of_lt (by omega)]
  · refine ⟨stepState W mem fp x st (patchAll W mem x [] (stepContext W mem x st)), ?_, ?_, ?_,
      rfl, rfl, rfl, _, rfl, rfl, ?_⟩
    · rw [serializeStep_eq, hw]
      rfl
    · simp [stepState, patchAll_nil, stepContext, hq]
    · simp [stepState, patchAll_nil, stepContext]
    · exact writeRecord_pos W mem st x _

set_option maxRecDepth 100000 in
/-- Witness for C15: the plain object of `twoHeap` at the front of the queue. -/
theorem no_reference_object_visit_witness :
    (8 = 4 ∨ 8 = 8) ∧
    ContainsPointersOrCollectible twoHeap (RawGetMethodTable 8 twoHeap 8300) = false ∧
    HasComponentSize twoHeap (RawGetMethodTable 8 twoHeap 8300) = false ∧
    (initState 8 twoHeap 8300).objectQueue = 8300 :: [] ∧
    MIN_OBJECT_SIZE 8 ≤ GetBaseSize twoHeap (RawGetMethodTable 8 twoHeap 8300) ∧
    (GetSize 8 twoHeap 8300 = GetBaseSize twoHeap (RawGetMethodTable 8 twoHeap 8300) ∧
      (MIN_OBJECT_SIZE 8 ≤ GetBaseSize twoHeap (RawGetMethodTable 8 twoHeap 8300) →
        contentsLen 8 twoHeap 8300 = GetBaseSize twoHeap (RawGetMethodTable 8 twoHeap 8300) - 2 * 8) ∧
      walkSlots 8 twoHeap 5 8300 = some [] ∧
      ∃ st1, serializeStep 8 twoHeap 0 5 8300 (initState 8 twoHeap 8300) = some st1 ∧
        st1.objectQueue = [] ∧ st1.pushed = (initState 8 twoHeap 8300).pushed ∧
        st1.serializedObjectMap = (initState 8 twoHeap 8300).serializedObjectMap ∧
        st1.lastReservedObjectEnd = (initState 8 twoHeap 8300).lastReservedObjectEnd ∧
        st1.file.bytes =
          (writeRecord 8 twoHeap (initState 8 twoHeap 8300) 8300
            (assignToken (initState 8 twoHeap 8300) (GetMTFromObject 8 twoHeap 8300)).1).1.bytes ∧
        ∃ rec, st1.records = (initState 8 twoHeap 8300).records ++ [rec] ∧ rec.objectId = 8300 ∧
          rec.fileEnd = rec.filePos + writtenLen 8 twoHeap 8300) :=
  ⟨Or.inr rfl, by decide, by decide, rfl, by decide,
    no_reference_object_visit 8 (Or.inr rfl) twoHeap 0 5 8300 [] (initState 8 twoHeap 8300)
      (by decide) (by decide) rfl⟩

set_option maxRecDepth 100000 in
/-- C16 fails at the root: for every heap the root is queued with an empty map, so it has no
map entry while it is on the queue; in the run on `twoHeap` the final map holds an entry for the
referenced object only and none for the root. -/
theorem root_has_no_map_entry (W : Nat) (mem : Mem) (root : Nat) :
    (initState W mem root).objectQueue = [root] ∧ (initState W mem root).pushed = [root] ∧
      (initState W mem root).serializedObjectMap.lookup root = none ∧
      (SerializeObject 8 twoHeap 8192 0 5 5).map
        (fun r => (r.pushed, r.serializedObjectMap, r.serializedObjectMap.lookup 8192)) =
        some ([8192, 8300], [(8300, 32)], none) :=
  ⟨rfl, rfl, rfl, by decide⟩

/-! ## Claim C18 -/

theorem patchAll_keys (W : Nat) (mem : Mem) (x : Nat) (sl : List Nat) :
    ∀ ctx : WalkObjectContext,
      (∀ k v, ctx.SerializedObjectMap.lookup k = some v →
        (patchAll W mem x sl ctx).SerializedObjectMap.lookup k = some v) ∧
      ∀ p ∈ sl, ∃ off,
        (patchAll W mem x sl ctx).SerializedObjectMap.lookup (readLE mem p W) = some off := by
  induction sl with
  | nil => intro ctx; exact ⟨fun k v h => h, fun p hp => by simp at hp⟩
  | cons p rest ih =>
    intro ctx
    obtain ⟨off, e1, e2, _, _⟩ := EachObjectReference_file W mem x p ctx
    obtain ⟨i1, i2⟩ := ih (EachObjectReference W mem x p ctx)
    rw [patchAll_cons]
    refine ⟨fun k v h => i1 k v (e2 k v h), ?_⟩
    intro p1 hp1
    rcases List.mem_cons.mp hp1 with rfl | h
    · exact ⟨off, i1 _ _ e1⟩
    · exact i2 p1 h

theorem lookup_some_mem_keys (l : List (Nat × Nat)) (k v : Nat) (h : l.lookup k = some v) :
    k ∈ l.map Prod.fst := by
  obtain ⟨l1, l2, e, _⟩ := List.lookup_eq_some_iff.mp h
  rw [e]
  simp

theorem Inv4_init (W : Nat) (mem : Mem) (F root : Nat) : Inv4 W mem F (initState W mem root) where
  visited_slots := by intro rec h; simp [initState] at h
  pushed_from := by intro y h; simp [initState] at h

theorem Inv4_step (W : Nat) (mem : Mem) (fp F root x : Nat) (q : List Nat)
    (st st1 : SerState) (hI : Inv W mem root st) (hI4 : Inv4 W mem F st)
    (hq : st.objectQueue = x :: q) (hs : serializeStep W mem fp F x st = some st1) :
    Inv4 W mem F st1 := by
  obtain ⟨sl, news, hw, h1, _, h3, h4, h5, _, _⟩ :=
    serializeStep_spec W mem fp F root x q st st1 hI hq hs
  obtain ⟨rest, hrest⟩ := hI.pushed_root
  have htail : st1.pushed.tail = st.pushed.tail ++ news := by
    rw [h3, hrest]; rfl
  have hrec : ∃ rec, st1.records = st.records ++ [rec] ∧ rec.objectId = x := by
    rw [h1]; exact ⟨_, rfl, rfl⟩
  obtain ⟨recx, hrecs, hrx⟩ := hrec
  have hkeys : ∀ p ∈ sl, readLE mem p W ∈ st1.pushed.tail := by
    intro p hp
    obtain ⟨off, hoff⟩ := (patchAll_keys W mem x sl (stepContext W mem x st)).2 p hp
    have hm : st1.serializedObjectMap =
        (patchAll W mem x sl (stepContext W mem x st)).SerializedObjectMap := by rw [h1]; rfl
    rw [← hm, h5] at hoff
    have := lookup_some_mem_keys _ _ _ hoff
    rw [resvMap_keys] at this
    rw [htail]
    exact this
  refine ⟨?_, ?_⟩
  · intro rec hrec
    rw [hrecs] at hrec
    rcases List.mem_append.mp hrec with hrec | hrec
    · obtain ⟨sl0, g1, g2⟩ := hI4.visited_slots rec hrec
      refine ⟨sl0, g1, fun p hp => ?_⟩
      rw [htail]
      exact List.mem_append_left _ (g2 p hp)
    · simp only [List.mem_singleton] at hrec
      subst hrec
      rw [hrx]
      exact ⟨sl, hw, hkeys⟩
  · intro y hy
    rw [htail] at hy
    rcases List.mem_append.mp hy with hy | hy
    · obtain ⟨rec, g1, g2⟩ := hI4.pushed_from y hy
      exact ⟨rec, by rw [hrecs]; exact List.mem_append_left _ g1, g2⟩
    · obtain ⟨p, hp, hpe⟩ := h4 y hy
      exact ⟨recx, by rw [hrecs]; simp, sl, by rw [hrx]; exact hw, p, hp, hpe⟩

theorem SerializeObject_inv4 (W : Nat) (mem : Mem) (root fp F fuel : Nat) (r : SerState)
    (h : SerializeObject W mem root fp F fuel = some r) : Inv4 W mem F r :=
  (serializeLoop_inv W mem fp F (fun st => Inv W mem root st ∧ Inv4 W mem F st)
    (fun st x q st1 hP hq hs =>
      ⟨Inv_step W mem fp F root x q st st1 hP.1 hq hs,
        Inv4_step W mem fp F root x q st st1 hP.1 hP.2 hq hs⟩)
    fuel (initState W mem root) r ⟨Inv_init W mem root, Inv4_init W mem F root⟩ h).1.2

theorem pushed_subset_closed (W : Nat) (mem : Mem) (root fp F fuel : Nat) (objs : List Nat)
    (hc : Closed W mem F root objs) (r : SerState)
    (h : SerializeObject W mem root fp F fuel = some r) : ∀ y ∈ r.pushed, y ∈ objs := by
  refine (serializeLoop_inv W mem fp F
    (fun st => Inv W mem root st ∧ ∀ y ∈ st.pushed, y ∈ objs) ?_
    fuel (initState W mem root) r ⟨Inv_init W mem root, ?_⟩ h).1.2
  · intro st x q st1 hP hq hs
    refine ⟨Inv_step W mem fp F root x q st st1 hP.1 hq hs, ?_⟩
    obtain ⟨sl, news, hw, _, _, h3, h4, _⟩ := serializeStep_spec W mem fp F root x q st st1 hP.1 hq hs
    have hx : x ∈ objs := by
      apply hP.2
      rw [hP.1.pushed_eq, hq]
      simp
    obtain ⟨sl0, hw0, hsl⟩ := closedAt_spec W mem F objs x (hc.2 x hx)
    rw [hw] at hw0
    simp only [Option.some.injEq] at hw0
    subst hw0
    intro y hy
    rw [h3] at hy
    rcases List.mem_append.mp hy with hy | hy
    · exact hP.2 y hy
    · obtain ⟨p, hp, rfl⟩ := h4 y hy
      exact hsl p hp
  · intro y hy
    simp only [initState, List.mem_singleton] at hy
    subst hy
    exact hc.1

/-- C18. Exact record count. The run returns and the identities of the records written are the
root followed by `rest`, where `rest` is duplicate-free and holds exactly the objects referenced
from a reported slot of an object visited; the root together with `rest` is closed and is
contained in every closed list, that is, it is the set of objects reachable from the root. Hence
every reachable object other than the root has exactly one record; the root has its record at
offset 0 and one further record exactly when it is a member of `rest`, that is, when a reachable
object holds a reported reference to it; and the number of records, one per iteration, is at most
the number of reachable objects plus one. -/
theorem exact_record_count (W : Nat) (mem : Mem) (root fp F : Nat) (objs : List Nat)
    (hc : Closed W mem F root objs) :
    ∃ r rest, (∀ fuel, objs.length + 2 ≤ fuel → SerializeObject W mem root fp F fuel = some r) ∧
      r.records.map (fun rec => rec.objectId) = root :: rest ∧ rest.Nodup ∧
      (∀ y, y ∈ rest ↔ ∃ x ∈ root :: rest, ∃ sl, walkSlots W mem F x = some sl ∧
        ∃ p ∈ sl, readLE mem p W ≠ 0 ∧ readLE mem p W = y) ∧
      Closed W mem F root (root :: rest) ∧
      (∀ objs1, Closed W mem F root objs1 → ∀ y ∈ root :: rest, y ∈ objs1) ∧
      (∀ y ∈ rest, y ≠ root → (r.records.map (fun rec => rec.objectId)).count y = 1) ∧
      (r.records.map (fun rec => rec.objectId)).count root = 1 + (if root ∈ rest then 1 else 0) ∧
      (∃ rec tl, r.records = rec :: tl ∧ rec.objectId = root ∧ rec.filePos = 0) ∧
      r.records.length = rest.length + 1 ∧
      r.records.length ≤ (root :: rest).dedup.length + 1 := by
  obtain ⟨r, hr⟩ := SerializeObject_total W mem root fp F objs hc
  have hrun := hr (objs.length + 2) (le_refl _)
  obtain ⟨hI, hq⟩ := SerializeObject_inv W mem root fp F _ r hrun
  have hI4 := SerializeObject_inv4 W mem root fp F _ r hrun
  obtain ⟨rest, hrest⟩ := hI.pushed_root
  have hpush : r.records.map (fun rec => rec.objectId) = root :: rest := by
    rw [← hrest, hI.pushed_eq, hq, List.append_nil]
  have hnd : rest.Nodup := by
    have := hI.nodup
    rwa [hrest] at this
  have htl : r.pushed.tail = rest := by rw [hrest]; rfl
  have hchar : ∀ y, y ∈ rest ↔ ∃ x ∈ root :: rest, ∃ sl, walkSlots W mem F x = some sl ∧
      ∃ p ∈ sl, readLE mem p W ≠ 0 ∧ readLE mem p W = y := by
    intro y
    constructor
    · intro hy
      rw [← htl] at hy
      obtain ⟨rec, g1, sl, g2, p, g3, g4⟩ := hI4.pushed_from y hy
      refine ⟨rec.objectId, ?_, sl, g2, p, g3, walkSlots_nonnull W mem F _ sl g2 p g3, g4⟩
      rw [← hpush]
      exact List.mem_map_of_mem _ g1
    · rintro ⟨x, hx, sl, hsl, p, hp, _, rfl⟩
      rw [← hpush] at hx
      obtain ⟨rec, g1, rfl⟩ := List.mem_map.mp hx
      obtain ⟨sl0, g2, g3⟩ := hI4.visited_slots rec g1
      rw [hsl] at g2
      simp only [Option.some.injEq] at g2
      subst g2
      rw [← htl]
      exact g3 p hp
  have hclosed : Closed W mem F root (root :: rest) := by
    refine ⟨List.mem_cons_self _ _, ?_⟩
    intro x hx
    rw [← hpush] at hx
    obtain ⟨rec, g1, rfl⟩ := List.mem_map.mp hx
    obtain ⟨sl0, g2, g3⟩ := hI4.visited_slots rec g1
    unfold closedAt
    rw [g2]
    simp only [List.all_eq_true, decide_eq_true_eq]
    intro p hp
    exact List.mem_cons_of_mem _ (by rw [← htl]; exact g3 p hp)
  have hfirst : ∃ rec tl, r.records = rec :: tl ∧ rec.objectId = root ∧ rec.filePos = 0 := by
    cases hrec : r.records with
    | nil => rw [hrec] at hpush; simp at hpush
    | cons rec tl =>
      rw [hrec] at hpush
      simp only [List.map_cons, List.cons.injEq] at hpush
      have hl := hI.recs [] rec tl (by simp [hrec])
      exact ⟨rec, tl, rfl, hpush.1, by rw [hl.filePos_eq, hl.start_eq]; rfl⟩
  have hlen : r.records.length = rest.length + 1 := by
    have := congrArg List.length hpush
    simpa using this
  refine ⟨r, rest, hr, hpush, hnd, hchar, hclosed, ?_, ?_, ?_, hfirst, hlen, ?_⟩
  · intro objs1 hc1 y hy
    rw [← hrest] at hy
    exact pushed_subset_closed W mem root fp F _ objs1 hc1 r hrun y hy
  · intro y hy hne
    rw [hpush, List.count_cons, if_neg (by simpa using Ne.symm hne)]
    simpa using List.count_eq_one_of_mem hnd hy
  · rw [hpush, List.count_cons_self]
    by_cases hin : root ∈ rest
    · rw [if_pos hin, List.count_eq_one_of_mem hnd hin]
    · rw [if_neg hin, List.count_eq_zero_of_not_mem hin]
  · rw [hlen]
    have hsub : rest ⊆ (root :: rest).dedup := by
      intro a ha
      exact List.mem_dedup.mpr (List.mem_cons_of_mem _ ha)
    have := (List.subperm_of_subset hnd hsub).length_le
    omega

set_option maxRecDepth 100000 in
/-- Witness for C18: two nodes referencing each other. -/
theorem exact_record_count_witness :
    Closed 8 cycleHeap 5 8192 [8192, 8300] ∧
    ∃ r rest, (∀ fuel, 4 ≤ fuel → SerializeObject 8 cycleHeap 8192 0 5 fuel = some r) ∧
      r.records.map (fun rec => rec.objectId) = 8192 :: rest ∧ rest.Nodup ∧
      (∀ y, y ∈ rest ↔ ∃ x ∈ 8192 :: rest, ∃ sl, walkSlots 8 cycleHeap 5 x = some sl ∧
        ∃ p ∈ sl, readLE cycleHeap p 8 ≠ 0 ∧ readLE cycleHeap p 8 = y) ∧
      Closed 8 cycleHeap 5 8192 (8192 :: rest) ∧
      (∀ objs1, Closed 8 cycleHeap 5 8192 objs1 → ∀ y ∈ 8192 :: rest, y ∈ objs1) ∧
      (∀ y ∈ rest, y ≠ 8192 → (r.records.map (fun rec => rec.objectId)).count y = 1) ∧
      (r.records.map (fun rec => rec.objectId)).count 8192 = 1 + (if 8192 ∈ rest then 1 else 0) ∧
      (∃ rec tl, r.records = rec :: tl ∧ rec.objectId = 8192 ∧ rec.filePos = 0) ∧
      r.records.length = rest.length + 1 ∧
      r.records.length ≤ (8192 :: rest).dedup.length + 1 :=
  ⟨by decide, exact_record_count 8 cycleHeap 8192 0 5 [8192, 8300] (by decide)⟩

/-! ## Claim C17 -/

theorem EachObjectReference_length_eq (W : Nat) (mem : Mem) (x p : Nat) (ctx : WalkObjectContext) :
    (EachObjectReference W mem x p ctx).File.bytes.length =
      max ctx.File.bytes.length (padd W (ctx.ObjectStart + p) (-(x : Int)) + W) := by
  unfold EachObjectReference
  dsimp only
  split <;> simp only [WriteFileAtPosition, OFile.length_write, OFile.seekp]

theorem patchAll_length_eq (W : Nat) (mem : Mem) (x os : Nat) (sl : List Nat)
    (ctx : WalkObjectContext) (hos : ctx.ObjectStart = os)
    (hin : ∀ p ∈ sl, x ≤ p ∧ os + (p - x) + W ≤ ctx.File.bytes.length ∧
      os + (p - x) < wordMod W) :
    (patchAll W mem x sl ctx).File.bytes.length = ctx.File.bytes.length := by
  have := patchAll_inv W mem x
    (fun c => c.File.bytes.length = ctx.File.bytes.length ∧ c.ObjectStart = os) sl
    (by
      intro c p hp hc
      obtain ⟨b1, b2, b3⟩ := hin p hp
      obtain ⟨_, _, _, e3, _⟩ := EachObjectReference_file W mem x p c
      refine ⟨?_, e3.trans hc.2⟩
      rw [EachObjectReference_length_eq, hc.2, padd_slot W os p x b1 b3, hc.1]
      omega) ctx ⟨rfl, hos⟩
  exact this.1

theorem writeRecord_length_eq (W : Nat) (mem : Mem) (st : SerState) (x tok : Nat)
    (h : st.file.bytes.length = st.file.pos) :
    (writeRecord W mem st x tok).1.bytes.length = (writeRecord W mem st x tok).1.pos := by
  simp only [writeRecord, WriteFileAndMoveCurrentFilePointer, OFile.length_write, OFile.pos_write]
  omega

theorem Inv5_init (W : Nat) (mem : Mem) (root : Nat) : Inv5 W (initState W mem root) where
  len_eq := fun _ => rfl
  cfp_sum := fun _ => rfl

theorem Inv5_step (W : Nat) (hW : W = 4 ∨ W = 8) (mem : Mem) (fp F root x : Nat)
    (q objs : List Nat) (hwf : ∀ y ∈ objs, wfObject W mem F y = true)
    (st st1 : SerState) (hI : Inv W mem root st) (hI3 : Inv3 W mem F objs st) (hI5 : Inv5 W st)
    (hq : st.objectQueue = x :: q) (hs : serializeStep W mem fp F x st = some st1) :
    Inv5 W st1 := by
  have hmono := serializeStep_length W mem fp F x st st1 hs
  obtain ⟨sl, news, hw, h1, _, _, _, _⟩ := serializeStep_spec W mem fp F root x q st st1 hI hq hs
  have hx : x ∈ objs := by
    apply hI3.pushed_in
    rw [hI.pushed_eq, hq]
    simp
  obtain ⟨w1, w2, sl1, w3, w4⟩ := wfObject_spec W mem F x (hwf x hx)
  rw [hw] at w3
  simp only [Option.some.injEq] at w3
  subst w3
  have hWm : W % 4294967296 = W := by rcases hW with rfl | rfl <;> rfl
  have hWpos : 0 < W := by rcases hW with rfl | rfl <;> omega
  have hlenx := writtenLen_eq W hW mem x w1 w2
  have hfile1 : st1.file.bytes.length =
      (patchAll W mem x sl (stepContext W mem x st)).File.bytes.length := by
    rw [h1]; rfl
  have hl1 := patchAll_length W mem x sl (stepContext W mem x st)
  have hl2 := writeRecord_length W mem st x (assignToken st (GetMTFromObject W mem x)).1
  have hl3 := writeRecord_pos W mem st x (assignToken st (GetMTFromObject W mem x)).1
  have hctxf : (stepContext W mem x st).File =
      (writeRecord W mem st x (assignToken st (GetMTFromObject W mem x)).1).1 := rfl
  have hpos1e : st1.file.pos = cfpAfter W mem st.currentFilePointer x := by rw [h1]; rfl
  have hcfp1e : st1.currentFilePointer = cfpAfter W mem st.currentFilePointer x := by rw [h1]; rfl
  have hrec1 : ∃ rec, st1.records = st.records ++ [rec] ∧
      rec.fileEnd = (writeRecord W mem st x (assignToken st (GetMTFromObject W mem x)).1).1.pos ∧
      rec.filePos = st.file.pos := by
    rw [h1]; exact ⟨_, rfl, rfl, rfl⟩
  have key : st1.file.bytes.length < wordMod W →
      st1.file.bytes.length = st.file.pos + writtenLen W mem x ∧
      st.file.bytes.length < wordMod W := by
    intro hfit1
    have hfit0 : st.file.bytes.length < wordMod W := by omega
    have hlen0 := hI5.len_eq hfit0
    have hl4 := writeRecord_length_eq W mem st x (assignToken st (GetMTFromObject W mem x)).1 hlen0
    rw [hctxf] at hl1
    have hos : (stepContext W mem x st).ObjectStart = st.file.pos + W := by
      show objectStartOf W st = _
      simp only [objectStartOf, WriteFileAndMoveCurrentFilePointer, hWm]
      rw [Nat.mod_eq_of_lt (by rw [← hI.pos_eq]; omega), hI.pos_eq]
    have hp := patchAll_length_eq W mem x (st.file.pos + W) sl (stepContext W mem x st) hos
      (by
        intro p hp
        obtain ⟨b1, b2, _⟩ := w4 p hp
        rw [hctxf]
        exact ⟨by omega, by omega, by omega⟩)
    rw [hctxf] at hp
    exact ⟨by omega, hfit0⟩
  refine ⟨?_, ?_⟩
  · intro hfit1
    obtain ⟨k1, _⟩ := key hfit1
    rw [hpos1e, cfpAfter_eq_of_lt W mem _ _ (by rw [← hI.pos_eq]; omega), ← hI.pos_eq, k1]
  · intro hfit1
    obtain ⟨k1, k2⟩ := key hfit1
    obtain ⟨rec, e1, e2, e3⟩ := hrec1
    rw [hcfp1e, cfpAfter_eq_of_lt W mem _ _ (by rw [← hI.pos_eq]; omega), e1, List.map_append,
      List.sum_append, ← hI5.cfp_sum k2]
    simp only [List.map_cons, List.map_nil, List.sum_cons, List.sum_nil]
    rw [e2, e3, hl3]
    omega

theorem Reached_inv5 (W : Nat) (hW : W = 4 ∨ W = 8) (mem : Mem) (root fp F : Nat) (objs : List Nat)
    (hc : Closed W mem F root objs) (hwf : ∀ y ∈ objs, wfObject W mem F y = true) (st : SerState)
    (h : Reached W mem root fp F st) : Inv5 W st := by
  induction h with
  | init => exact Inv5_init W mem root
  | step hr hq hs ih =>
    exact Inv5_step W hW mem fp F root _ _ objs hwf _ _ (Reached_inv W mem root fp F _ hr).1
      (Reached_inv3 W hW mem root fp F objs hc hwf _ hr) ih hq hs

set_option maxRecDepth 100000 in
/-- C17 fails by a defect of the code: line 212 writes `static_cast<DWORD>(objectSize)` bytes of
contents, whereas the reservation path (lines 97-99 and 156-158) advances by the full `size_t`.
An array of references of computed size `2 ^ 32 + 24` has a first component (the slot at 8208,
inside the contents of the object) that references an object. The length of the contents is
truncated to 8, so the record written is 24 bytes long; the patch of the slot at file offset
24 lies past the record and grows the file to 32 bytes, and at the start of the next iteration
the put position and `currentFilePointer` are 24 while the file length is 32. -/
theorem patch_grows_file_after_truncation :
    GetObjectSize2 8 hugeRefArrayHeap 8192 = 4294967320 ∧
      walkSlots 8 hugeRefArrayHeap 5 8192 = some [8208] ∧
      (serializeStep 8 hugeRefArrayHeap 0 5 8192 (initState 8 hugeRefArrayHeap 8192)).map
        (fun s => (s.file.pos, s.currentFilePointer, s.file.bytes.length, s.objectQueue)) =
        some (24, 24, 32, [8300]) ∧
      (serializeStep 8 hugeRefArrayHeap 0 5 8192 (initState 8 hugeRefArrayHeap 8192)).map
        (fun s => s.records.map (fun rec => [rec.filePos, rec.fileEnd])) =
        some [[0, 24]] := by
  refine ⟨by decide, by decide, by decide, by decide⟩

/-- File cursor and patches when no contents length is truncated. Let `objs` hold the root and be closed under reported references, each member
being well formed (`wfObject`: computed size `s` with `2 * W ≤ s` and `s - 2 * W < 2 ^ 32`, the
walker halts, reported slots `W`-aligned inside the contents `[a + W, a + s - W)`). Then the run
returns, and at the start of every iteration and at the end of the loop, the file being shorter
than `2 ^ (8 * W)` bytes, the put position equals `currentFilePointer`, which equals the file
length and the summed length of the records written. Every call of `EachObjectReference`
overwrites exactly the `W` bytes at `ObjectStart + reference - curr` with the offset mapped to
the referent and leaves every other byte unchanged, the file growing only if these bytes end past
its end; for a slot reported in the object just written they lie inside the contents of its
record, so that the file length is unchanged. -/
theorem file_cursor_and_patches (W : Nat) (hW : W = 4 ∨ W = 8) (mem : Mem) (root fp F : Nat)
    (objs : List Nat) (hc : Closed W mem F root objs)
    (hwf : ∀ y ∈ objs, wfObject W mem F y = true) :
    (∃ r, (∀ fuel, objs.length + 2 ≤ fuel → SerializeObject W mem root fp F fuel = some r) ∧
      Reached W mem root fp F r ∧ r.objectQueue = []) ∧
    (∀ st, Reached W mem root fp F st → st.file.bytes.length < wordMod W →
      st.file.pos = st.currentFilePointer ∧ st.currentFilePointer = st.file.bytes.length ∧
      st.currentFilePointer = (st.records.map (fun rec => rec.fileEnd - rec.filePos)).sum) ∧
    (∀ (ctx : WalkObjectContext) (curr reference : Nat), ∃ off,
      (EachObjectReference W mem curr reference ctx).SerializedObjectMap.lookup
        (readLE mem reference W) = some off ∧
      (∀ i, i < W → (EachObjectReference W mem curr reference ctx).File.byteAt
        (padd W (ctx.ObjectStart + reference) (-(curr : Int)) + i) = leByte off i) ∧
      (∀ j, (j < padd W (ctx.ObjectStart + reference) (-(curr : Int)) ∨
          padd W (ctx.ObjectStart + reference) (-(curr : Int)) + W ≤ j) →
        (EachObjectReference W mem curr reference ctx).File.byteAt j = ctx.File.byteAt j) ∧
      (EachObjectReference W mem curr reference ctx).File.bytes.length =
        max ctx.File.bytes.length (padd W (ctx.ObjectStart + reference) (-(curr : Int)) + W)) ∧
    (∀ st x q sl p, Reached W mem root fp F st → st.objectQueue = x :: q →
      walkSlots W mem F x = some sl → p ∈ sl →
      (stepContext W mem x st).File.bytes.length < wordMod W →
      (stepContext W mem x st).File.bytes.length =
        st.file.pos + GetObjectSize2 W mem x + PADDING W (GetObjectSize2 W mem x) W ∧
      st.file.pos + 2 * W ≤ padd W ((stepContext W mem x st).ObjectStart + p) (-(x : Int)) ∧
      padd W ((stepContext W mem x st).ObjectStart + p) (-(x : Int)) + W ≤
        st.file.pos + GetObjectSize2 W mem x) := by
  refine ⟨?_, ?_, ?_, ?_⟩
  · obtain ⟨r, hr⟩ := SerializeObject_total W mem root fp F objs hc
    have hrun := hr (objs.length + 2) (le_refl _)
    exact ⟨r, hr, SerializeObject_reached W mem root fp F _ r hrun,
      (SerializeObject_inv W mem root fp F _ r hrun).2⟩
  · intro st hreach hfit
    have hI := (Reached_inv W mem root fp F st hreach).1
    have hI5 := Reached_inv5 W hW mem root fp F objs hc hwf st hreach
    exact ⟨hI.pos_eq, by rw [← hI.pos_eq, hI5.len_eq hfit], hI5.cfp_sum hfit⟩
  · intro ctx curr reference
    obtain ⟨off, e1, _, _, e4⟩ := EachObjectReference_file W mem curr reference ctx
    have hWpos : 0 < W := by rcases hW with rfl | rfl <;> omega
    refine ⟨off, e1, ?_, ?_, EachObjectReference_length_eq W mem curr reference ctx⟩
    · intro i hi
      rw [e4, if_pos (by omega)]
      congr 1
      omega
    · intro j hj
      rw [e4, if_neg (by omega)]
  · intro st x q sl p hreach hq hsl hp hfit
    have hI := (Reached_inv W mem root fp F st hreach).1
    have hI3 := Reached_inv3 W hW mem root fp F objs hc hwf st hreach
    have hI5 := Reached_inv5 W hW mem root fp F objs hc hwf st hreach
    have hx : x ∈ objs := by
      apply hI3.pushed_in
      rw [hI.pushed_eq, hq]
      simp
    obtain ⟨w1, w2, sl1, w3, w4⟩ := wfObject_spec W mem F x (hwf x hx)
    rw [hsl] at w3
    simp only [Option.some.injEq] at w3
    subst w3
    obtain ⟨b1, b2, _⟩ := w4 p hp
    have hWm : W % 4294967296 = W := by rcases hW with rfl | rfl <;> rfl
    have hlenx := writtenLen_eq W hW mem x w1 w2
    have hctxf : (stepContext W mem x st).File =
        (writeRecord W mem st x (assignToken st (GetMTFromObject W mem x)).1).1 := rfl
    rw [hctxf] at hfit ⊢
    have hl2 := writeRecord_length W mem st x (assignToken st (GetMTFromObject W mem x)).1
    have hl3 := writeRecord_pos W mem st x (assignToken st (GetMTFromObject W mem x)).1
    have hl4 := writeRecord_length_eq W mem st x (assignToken st (GetMTFromObject W mem x)).1
      (hI5.len_eq (by omega))
    have hos : (stepContext W mem x st).ObjectStart = st.file.pos + W := by
      show objectStartOf W st = _
      simp only [objectStartOf, WriteFileAndMoveCurrentFilePointer, hWm]
      rw [Nat.mod_eq_of_lt (by rw [← hI.pos_eq]; omega), hI.pos_eq]
    rw [hos, padd_slot W (st.file.pos + W) p x (by omega) (by omega)]
    exact ⟨by omega, by omega, by omega⟩

set_option maxRecDepth 100000 in
/-- Instance of `file_cursor_and_patches`: a node referencing an object without
references. -/
theorem file_cursor_and_patches_witness :
    (8 = 4 ∨ 8 = 8) ∧ Closed 8 twoHeap 5 8192 [8192, 8300] ∧
    (∀ y ∈ [8192, 8300], wfObject 8 twoHeap 5 y = true) ∧
    (SerializeObject 8 twoHeap 8192 0 5 4).map
      (fun r => (r.file.pos, r.currentFilePointer, r.file.bytes.length)) = some (48, 48, 48) ∧
    ((∃ r, (∀ fuel, 4 ≤ fuel → SerializeObject 8 twoHeap 8192 0 5 fuel = some r) ∧
      Reached 8 twoHeap 8192 0 5 r ∧ r.objectQueue = []) ∧
    (∀ st, Reached 8 twoHeap 8192 0 5 st → st.file.bytes.length < wordMod 8 →
      st.file.pos = st.currentFilePointer ∧ st.currentFilePointer = st.file.bytes.length ∧
      st.currentFilePointer = (st.records.map (fun rec => rec.fileEnd - rec.filePos)).sum) ∧
    (∀ (ctx : WalkObjectContext) (curr reference : Nat), ∃ off,
      (EachObjectReference 8 twoHeap curr reference ctx).SerializedObjectMap.lookup
        (readLE twoHeap reference 8) = some off ∧
      (∀ i, i < 8 → (EachObjectReference 8 twoHeap curr reference ctx).File.byteAt
        (padd 8 (ctx.ObjectStart + reference) (-(curr : Int)) + i) = leByte off i) ∧
      (∀ j, (j < padd 8 (ctx.ObjectStart + reference) (-(curr : Int)) ∨
          padd 8 (ctx.ObjectStart + reference) (-(curr : Int)) + 8 ≤ j) →
        (EachObjectReference 8 twoHeap curr reference ctx).File.byteAt j = ctx.File.byteAt j) ∧
      (EachObjectReference 8 twoHeap curr reference ctx).File.bytes.length =
        max ctx.File.bytes.length (padd 8 (ctx.ObjectStart + reference) (-(curr : Int)) + 8)) ∧
    (∀ st x q sl p, Reached 8 twoHeap 8192 0 5 st → st.objectQueue = x :: q →
      walkSlots 8 twoHeap 5 x = some sl → p ∈ sl →
      (stepContext 8 twoHeap x st).File.bytes.length < wordMod 8 →
      (stepContext 8 twoHeap x st).File.bytes.length =
        st.file.pos + GetObjectSize2 8 twoHeap x + PADDING 8 (GetObjectSize2 8 twoHeap x) 8 ∧
      st.file.pos + 2 * 8 ≤ padd 8 ((stepContext 8 twoHeap x st).ObjectStart + p) (-(x : Int)) ∧
      padd 8 ((stepContext 8 twoHeap x st).ObjectStart + p) (-(x : Int)) + 8 ≤
        st.file.pos + GetObjectSize2 8 twoHeap x)) :=
  ⟨Or.inr rfl, by decide, by decide, by decide,
    file_cursor_and_patches 8 (Or.inr rfl) twoHeap 8192 0 5 [8192, 8300] (by decide) (by decide)⟩

/-! ## The walker as a fold over slots -/

theorem toInt32_of_range (x : Int) (h1 : -2147483648 ≤ x) (h2 : x < 2147483648) :
    toInt32 x = x := by
  unfold toInt32
  split <;> omega

theorem toInt32_ge (x : Int) : -2147483648 ≤ toInt32 x := by
  unfold toInt32
  split <;> omega

theorem toInt32_lt (x : Int) : toInt32 x < 2147483648 := by
  unfold toInt32
  split <;> omega

theorem padd_nat (W p k : Nat) (h : p + k < wordMod W) : padd W p (k : Int) = p + k := by
  unfold padd
  rw [Int.emod_eq_of_lt (by omega) (by omega)]
  omega

theorem scanWhile_eq {σ : Type} (W : Nat) (hW : W = 4 ∨ W = 8) (mem : Mem)
    (cb : Nat → Nat → σ → σ) (addr s : Nat) :
    ∀ (n fuel b : Nat) (ctx : σ), slotCount W b s = n → n < fuel →
      (b < s → s + W ≤ wordMod W) →
      scanWhile W mem cb addr s fuel b ctx =
        some ((slotRun W mem b s).foldl (fun c p => cb addr p c) ctx) := by
  intro n
  induction n with
  | zero =>
    intro fuel b ctx hn hf _
    obtain ⟨f, rfl⟩ : ∃ f, fuel = f + 1 := ⟨fuel - 1, by omega⟩
    have hb : ¬ b < s := by
      unfold slotCount at hn
      rcases hW with rfl | rfl <;> omega
    simp [scanWhile, hb, slotRun, hn, slotsFrom]
  | succ n ih =>
    intro fuel b ctx hn hf hw
    obtain ⟨f, rfl⟩ : ∃ f, fuel = f + 1 := ⟨fuel - 1, by omega⟩
    have hb : b < s ∧ slotCount W (b + W) s = n := by
      unfold slotCount at hn ⊢
      rcases hW with rfl | rfl <;> omega
    have hp : padd W b (W : Int) = b + W := padd_nat W b W (by have := hw hb.1; omega)
    have hrun : slotRun W mem b s =
        (if readLE mem b W ≠ 0 then [b] else []) ++ slotRun W mem (b + W) s := by
      simp only [slotRun, hn, hb.2, slotsFrom, List.filter_cons]
      split <;> simp_all
    rw [scanWhile, if_pos hb.1, hp, ih f (b + W) _ hb.2 (by omega) (fun _ => hw hb.1), hrun,
      List.foldl_append]
    unfold reportSlot
    split <;> simp

theorem foldlM_runs {σ α β : Type} (step : σ → α → Option σ) (run : α → List β)
    (g : σ → β → σ) :
    ∀ (l : List α) (ctx : σ), (∀ x ∈ l, ∀ c, step c x = some ((run x).foldl g c)) →
      l.foldlM step ctx = some ((l.flatMap run).foldl g ctx) := by
  intro l
  induction l with
  | nil => intro ctx _; rfl
  | cons x xs ih =>
    intro ctx h
    rw [List.foldlM_cons, h x (List.mem_cons_self _ _)]
    simp only [Option.bind_eq_bind, Option.some_bind, List.flatMap_cons, List.foldl_append]
    exact ih _ (fun y hy c => h y (List.mem_cons_of_mem _ hy) c)

theorem seriesLoop_eq {σ : Type} (W : Nat) (hW : W = 4 ∨ W = 8) (mem : Mem)
    (cb : Nat → Nat → σ → σ) (d : GCDesc) (addr size : Nat) (lowest : Int) (F : Nat)
    (hl : -2147483648 ≤ lowest - 2 * W) :
    ∀ (n fuel : Nat) (curr : Int) (ctx : σ), n < fuel → curr = lowest + 2 * W * n →
      curr < 2147483648 →
      seriesLoop W mem cb d addr size lowest F fuel curr ctx =
        (seriesOffsetsFrom W curr (n + 1)).foldlM
          (fun c cu => scanWhile W mem cb addr (seriesStop W mem d addr size cu) F
            (seriesBegin W mem d addr cu) c) ctx := by
  intro n
  induction n with
  | zero =>
    intro fuel curr ctx hf hc hlt
    obtain ⟨f, rfl⟩ : ∃ f, fuel = f + 1 := ⟨fuel - 1, by omega⟩
    have h1 : toInt32 (curr - W * 2) = curr - W * 2 := by
      apply toInt32_of_range <;> rcases hW with rfl | rfl <;> omega
    have h2 : ¬ (curr - W * 2 ≥ lowest) := by rcases hW with rfl | rfl <;> omega
    simp only [seriesLoop, seriesOffsetsFrom, List.foldlM_cons, List.foldlM_nil, h1, if_neg h2,
      seriesStop, seriesBegin]
    cases scanWhile W mem cb addr _ F _ ctx <;> rfl
  | succ n ih =>
    intro fuel curr ctx hf hc hlt
    obtain ⟨f, rfl⟩ : ∃ f, fuel = f + 1 := ⟨fuel - 1, by omega⟩
    have h1 : toInt32 (curr - W * 2) = curr - 2 * W := by
      rw [toInt32_of_range] <;> rcases hW with rfl | rfl <;> push_cast at hc ⊢ <;> omega
    have h2 : curr - 2 * W ≥ lowest := by
      rcases hW with rfl | rfl <;> push_cast at hc ⊢ <;> omega
    have h3 : curr - 2 * W = lowest + 2 * W * n := by
      rcases hW with rfl | rfl <;> push_cast at hc ⊢ <;> omega
    rw [seriesLoop, seriesOffsetsFrom, List.foldlM_cons]
    simp only [h1, if_pos h2, seriesStop, seriesBegin]
    cases hs : scanWhile W mem cb addr _ F _ ctx with
    | none => rfl
    | some c1 =>
      simp only [Option.bind_eq_bind, Option.some_bind]
      rw [ih f (curr - 2 * W) c1 (by omega) h3 (by rcases hW with rfl | rfl <;> omega)]
      simp only [seriesStop, seriesBegin]


theorem fixed_series_bounds (W : Nat) (hW : W = 4 ∨ W = 8) (mem : Mem) (d : GCDesc)
    (hN : 0 < GetNumSeries W mem d) (hsize : d.size < 2147483648)
    (hser : (2 * GetNumSeries W mem d + 3) * W ≤ 2147483648) :
    GetHighestSeries W d = (d.size : Int) - 3 * W ∧
      GetLowestSeries W mem d = (d.size : Int) - W - GetNumSeries W mem d * (2 * W) ∧
      GetHighestSeries W d =
        GetLowestSeries W mem d + 2 * W * ((GetNumSeries W mem d).toNat - 1 : Nat) := by
  have h1 : GetHighestSeries W d = (d.size : Int) - 3 * W := by
    unfold GetHighestSeries
    rw [toInt32_of_range] <;> rcases hW with rfl | rfl <;> push_cast <;> omega
  have h2 : GetLowestSeries W mem d = (d.size : Int) - W - GetNumSeries W mem d * (2 * W) := by
    unfold GetLowestSeries ComputeSize
    generalize GetNumSeries W mem d = N at hN hser ⊢
    rw [toInt32_of_range ((W : Int) + N * W * 2), toInt32_of_range] <;>
      rcases hW with rfl | rfl <;> push_cast at hser ⊢ <;> omega
  refine ⟨h1, h2, ?_⟩
  rw [h1, h2]
  generalize GetNumSeries W mem d = N at hN hser ⊢
  obtain ⟨n, rfl⟩ : ∃ n : Nat, N = n := ⟨N.toNat, by omega⟩
  rcases hW with rfl | rfl <;> push_cast at hser ⊢ <;> simp only [Int.toNat_ofNat] <;> omega

theorem WalkObject_fixed_foldlM {σ : Type} (W : Nat) (hW : W = 4 ∨ W = 8) (mem : Mem)
    (d : GCDesc) (F addr size : Nat) (ctx : σ) (cb : Nat → Nat → σ → σ)
    (hN : 0 < GetNumSeries W mem d) (hsize : d.size < 2147483648)
    (hser : (2 * GetNumSeries W mem d + 3) * W ≤ 2147483648)
    (hF : (GetNumSeries W mem d).toNat ≤ F) :
    WalkObject W mem d F addr size ctx cb =
      (seriesOffsets W d.size (GetNumSeries W mem d).toNat).foldlM
        (fun c cu => scanWhile W mem cb addr (seriesStop W mem d addr size cu) F
          (seriesBegin W mem d addr cu) c) ctx := by
  obtain ⟨h1, h2, h3⟩ := fixed_series_bounds W hW mem d hN hsize hser
  have hl : -2147483648 ≤ GetLowestSeries W mem d - 2 * W := by
    rw [h2]
    generalize GetNumSeries W mem d = N at hN hser ⊢
    rcases hW with rfl | rfl <;> push_cast at hser ⊢ <;> omega
  have hlt : GetHighestSeries W d < 2147483648 := toInt32_lt _
  have hn : (GetNumSeries W mem d).toNat - 1 + 1 = (GetNumSeries W mem d).toNat := by omega
  have := seriesLoop_eq W hW mem cb d addr size (GetLowestSeries W mem d) F hl
    ((GetNumSeries W mem d).toNat - 1) F (GetHighestSeries W d) ctx (by omega) h3 hlt
  rw [hn, h1] at this
  unfold WalkObject
  simp only [if_pos hN]
  rw [h1]
  exact this

theorem WalkObject_fixed_eq {σ : Type} (W : Nat) (hW : W = 4 ∨ W = 8) (mem : Mem)
    (d : GCDesc) (F addr size : Nat) (ctx : σ) (cb : Nat → Nat → σ → σ)
    (hN : 0 < GetNumSeries W mem d) (hsize : d.size < 2147483648)
    (hser : (2 * GetNumSeries W mem d + 3) * W ≤ 2147483648)
    (hwrap : ∀ curr ∈ seriesOffsets W d.size (GetNumSeries W mem d).toNat,
      seriesBegin W mem d addr curr < seriesStop W mem d addr size curr →
      seriesStop W mem d addr size curr + W ≤ wordMod W)
    (hF : (GetNumSeries W mem d).toNat ≤ F ∧
      ∀ curr ∈ seriesOffsets W d.size (GetNumSeries W mem d).toNat,
        slotCount W (seriesBegin W mem d addr curr) (seriesStop W mem d addr size curr) < F) :
    WalkObject W mem d F addr size ctx cb =
      some ((fixedSlots W mem d addr size).foldl (fun c p => cb addr p c) ctx) := by
  rw [WalkObject_fixed_foldlM W hW mem d F addr size ctx cb hN hsize hser hF.1]
  unfold fixedSlots
  apply foldlM_runs
  intro cu hcu c
  exact scanWhile_eq W hW mem cb addr _ _ F _ c rfl (hF.2 cu hcu) (hwrap cu hcu)

theorem mem_slotsFrom (W : Nat) : ∀ (n b p : Nat), p ∈ slotsFrom W b n ↔ ∃ k, k < n ∧ p = b + k * W := by
  intro n
  induction n with
  | zero => intro b p; simp [slotsFrom]
  | succ n ih =>
    intro b p
    simp only [slotsFrom, List.mem_cons, ih]
    constructor
    · rintro (rfl | ⟨k, hk, rfl⟩)
      · exact ⟨0, by omega, by simp⟩
      · exact ⟨k + 1, by omega, by ring⟩
    · rintro ⟨k, hk, rfl⟩
      rcases k with _ | k
      · left; simp
      · right; exact ⟨k, by omega, by ring⟩

theorem slotsFrom_pairwise (W : Nat) (hW : 0 < W) :
    ∀ (n b : Nat), (slotsFrom W b n).Pairwise (fun p q => p < q) := by
  intro n
  induction n with
  | zero => intro b; simp [slotsFrom]
  | succ n ih =>
    intro b
    simp only [slotsFrom, List.pairwise_cons]
    refine ⟨?_, ih _⟩
    intro q hq
    obtain ⟨k, _, rfl⟩ := (mem_slotsFrom W n (b + W) q).1 hq
    have : 0 ≤ k * W := Nat.zero_le _
    omega

theorem mem_slotRun (W : Nat) (hW : W = 4 ∨ W = 8) (mem : Mem) (b s p : Nat) :
    p ∈ slotRun W mem b s ↔ (∃ k, p = b + k * W) ∧ p < s ∧ readLE mem p W ≠ 0 := by
  unfold slotRun
  simp only [List.mem_filter, mem_slotsFrom, decide_eq_true_eq, slotCount]
  constructor
  · rintro ⟨⟨k, hk, rfl⟩, hz⟩
    refine ⟨⟨k, rfl⟩, ?_, hz⟩
    rcases hW with rfl | rfl <;> omega
  · rintro ⟨⟨k, rfl⟩, hlt, hz⟩
    refine ⟨⟨k, ?_, rfl⟩, hz⟩
    rcases hW with rfl | rfl <;> omega

theorem slotRun_pairwise (W : Nat) (hW : 0 < W) (mem : Mem) (b s : Nat) :
    (slotRun W mem b s).Pairwise (fun p q => p < q) :=
  (slotsFrom_pairwise W hW _ _).sublist (List.filter_sublist _)

theorem seriesOffsetsFrom_length (W : Nat) : ∀ (n : Nat) (c : Int),
    (seriesOffsetsFrom W c n).length = n := by
  intro n
  induction n with
  | zero => intro c; rfl
  | succ n ih => intro c; simp [seriesOffsetsFrom, ih]

theorem seriesOffsetsFrom_getElem (W : Nat) : ∀ (n : Nat) (c : Int) (k : Nat), k < n →
    (seriesOffsetsFrom W c n)[k]? = some (c - 2 * W * k) := by
  intro n
  induction n with
  | zero => intro c k hk; omega
  | succ n ih =>
    intro c k hk
    rcases k with _ | k
    · simp [seriesOffsetsFrom]
    · simp only [seriesOffsetsFrom, List.getElem?_cons_succ]
      rw [ih _ k (by omega)]
      congr 1
      push_cast
      ring


theorem groupDo_eq {σ : Type} (W : Nat) (hW : W = 4 ∨ W = 8) (mem : Mem)
    (cb : Nat → Nat → σ → σ) (addr stop : Nat) :
    ∀ (m fuel ptr : Nat) (ctx : σ), m < fuel → ptr + (m + 1) * W < wordMod W →
      stop ≤ ptr + (m + 1) * W → (m ≠ 0 → ptr + m * W < stop) →
      groupDo W mem cb addr stop fuel ptr ctx =
        some (ptr + (m + 1) * W,
          ((slotsFrom W ptr (m + 1)).filter (fun p => decide (readLE mem p W ≠ 0))).foldl
            (fun c p => cb addr p c) ctx) := by
  intro m
  induction m with
  | zero =>
    intro fuel ptr ctx hf hw hs _
    obtain ⟨f, rfl⟩ : ∃ f, fuel = f + 1 := ⟨fuel - 1, by omega⟩
    have hp : padd W ptr (W : Int) = ptr + W := padd_nat W ptr W (by omega)
    have h2 : ¬ (ptr + W < stop) := by omega
    simp only [groupDo, hp, if_neg h2, slotsFrom, List.filter_cons, List.filter_nil, reportSlot,
      zero_add, one_mul]
    split <;> simp_all
  | succ m ih =>
    intro fuel ptr ctx hf hw hs hm
    obtain ⟨f, rfl⟩ : ∃ f, fuel = f + 1 := ⟨fuel - 1, by omega⟩
    have e1 : (m + 1 + 1) * W = (m + 1) * W + W := by ring
    have e2 : (m + 1) * W = m * W + W := by ring
    have hWpos : 0 < W := by rcases hW with rfl | rfl <;> omega
    have hp : padd W ptr (W : Int) = ptr + W := padd_nat W ptr W (by omega)
    have h2 : ptr + W < stop := by
      have := hm (by omega)
      have : 0 ≤ m * W := Nat.zero_le _
      omega
    rw [groupDo]
    simp only [hp, if_pos h2]
    rw [ih f (ptr + W) _ (by omega) (by omega) (by omega) (fun _ => by have := hm (by omega); omega)]
    have hsl : slotsFrom W ptr (m + 1 + 1) = ptr :: slotsFrom W (ptr + W) (m + 1) := rfl
    rw [hsl, List.filter_cons]
    simp only [reportSlot]
    congr 1
    rw [Prod.mk.injEq]
    refine ⟨by omega, ?_⟩
    split <;> simp_all

theorem halfword_mul_lt (W : Nat) (hW : W = 4 ∨ W = 8) (mem : Mem) (a : Nat) :
    readLE mem a (W / 2) * W < wordMod W := by
  rcases hW with rfl | rfl
  · have := readLE_lt mem 2 a
    rw [wordMod_four, show (4 / 2 : Nat) = 2 from rfl]
    norm_num at this
    omega
  · have := readLE_lt mem 4 a
    rw [wordMod_eight, show (8 / 2 : Nat) = 4 from rfl]
    norm_num at this
    omega

theorem passSlots_snd (W : Nat) : ∀ (gs : List (Nat × Nat)) (ptr : Nat),
    (passSlots W gs ptr).2 = ptr + passStride W gs := by
  intro gs
  induction gs with
  | nil => intro ptr; simp [passSlots, passStride]
  | cons g gs ih =>
    intro ptr
    simp only [passSlots, ih, passStride, List.map_cons, List.sum_cons]
    omega

theorem groupFor_eq {σ : Type} (W : Nat) (hW : W = 4 ∨ W = 8) (mem : Mem)
    (cb : Nat → Nat → σ → σ) (d : GCDesc) (addr : Nat) (series curr : Int) (F : Nat)
    (hs : -2147483648 ≤ series) :
    ∀ (n fuel : Nat) (i : Int) (ptr : Nat) (ctx : σ), n < fuel → i = series + n → i ≤ 0 →
      ptr + passStride W (groupsFrom W mem d curr i n) < wordMod W →
      (∀ g ∈ groupsFrom W mem d curr i n, max 1 g.1 ≤ F) →
      groupFor W mem cb d addr series curr F fuel i ptr ctx =
        some ((passSlots W (groupsFrom W mem d curr i n) ptr).2,
          ((passSlots W (groupsFrom W mem d curr i n) ptr).1.filter
            (fun p => decide (readLE mem p W ≠ 0))).foldl (fun c p => cb addr p c) ctx) := by
  intro n
  induction n with
  | zero =>
    intro fuel i ptr ctx hf hi _ _ _
    obtain ⟨f, rfl⟩ : ∃ f, fuel = f + 1 := ⟨fuel - 1, by omega⟩
    have h1 : ¬ (i > series) := by omega
    simp [groupFor, h1, groupsFrom, passSlots]
  | succ n ih =>
    intro fuel i ptr ctx hf hi hi0 hw hF
    obtain ⟨f, rfl⟩ : ∃ f, fuel = f + 1 := ⟨fuel - 1, by omega⟩
    have h1 : i > series := by omega
    have hg : groupsFrom W mem d curr i (n + 1) =
        (GetPointers W mem d curr i, GetSkip W mem d curr i) ::
          groupsFrom W mem d curr (i - 1) n := rfl
    rw [hg] at hw hF ⊢
    generalize hnp : GetPointers W mem d curr i = nptrs at hw hF ⊢
    generalize hsk : GetSkip W mem d curr i = skip at hw hF ⊢
    have hlt : nptrs * W < wordMod W := by
      rw [← hnp]
      exact halfword_mul_lt W hW mem _
    have hstr : passStride W ((nptrs, skip) :: groupsFrom W mem d curr (i - 1) n) =
        max 1 nptrs * W + skip + passStride W (groupsFrom W mem d curr (i - 1) n) := by
      simp [passStride, List.map_cons, List.sum_cons]
    rw [hstr] at hw
    obtain ⟨m, hm⟩ : ∃ m, max 1 nptrs = m + 1 := ⟨max 1 nptrs - 1, by omega⟩
    have hle : nptrs * W ≤ max 1 nptrs * W := Nat.mul_le_mul_right _ (by omega)
    have hstop : padd W ptr ((nptrs * W % wordMod W : Nat) : Int) = ptr + nptrs * W := by
      rw [Nat.mod_eq_of_lt hlt]
      exact padd_nat W ptr _ (by omega)
    have hmF : m < F := by
      have := hF (nptrs, skip) (List.mem_cons_self _ _)
      simp only at this
      omega
    have hdo := groupDo_eq W hW mem cb addr (ptr + nptrs * W) m F ptr ctx hmF
      (by rw [← hm]; omega) (by rw [← hm]; omega)
      (by
        intro hm0
        have : nptrs = m + 1 := by omega
        subst this
        have : (m + 1) * W = m * W + W := by ring
        have hWpos : 0 < W := by rcases hW with rfl | rfl <;> omega
        omega)
    rw [groupFor, if_pos h1]
    simp only [hnp, hsk, hstop, hdo]
    have hti : toInt32 (i - 1) = i - 1 := toInt32_of_range _ (by omega) (by omega)
    have hpa : padd W (ptr + (m + 1) * W) (skip : Int) = ptr + (m + 1) * W + skip :=
      padd_nat W _ _ (by rw [← hm]; omega)
    rw [hti, hpa, ih f (i - 1) _ _ (by omega) (by omega) (by omega) (by rw [← hm]; omega)
      (fun g hgm => hF g (List.mem_cons_of_mem _ hgm))]
    simp only [passSlots, hm, List.filter_append, List.foldl_append]

theorem patternSlotsUpTo_stable (W : Nat) (gs : List (Nat × Nat)) (stop : Nat)
    (hs : 0 < passStride W gs) :
    ∀ (n ptr : Nat), stop - ptr ≤ n →
      patternSlotsUpTo W gs stop n ptr = patternSlots W gs stop ptr := by
  intro n
  induction n using Nat.strong_induction_on with
  | _ n ih =>
    intro ptr hn
    unfold patternSlots
    rcases n with _ | n
    · have : stop - ptr = 0 := by omega
      rw [this]
    · by_cases hlt : ptr < stop
      · obtain ⟨k, hk⟩ : ∃ k, stop - ptr = k + 1 := ⟨stop - ptr - 1, by omega⟩
        rw [hk]
        simp only [patternSlotsUpTo, if_pos hlt]
        have h2 := passSlots_snd W gs ptr
        rw [ih n (by omega) _ (by omega)]
        by_cases hk0 : k < n + 1
        · rw [ih k hk0 _ (by omega)]
        · have : k = n := by omega
          subst this
          rw [ih k (by omega) _ (by omega)]
      · have : stop - ptr = 0 := by omega
        rw [this]
        simp [patternSlotsUpTo, hlt]

theorem elementWhile_eq {σ : Type} (W : Nat) (hW : W = 4 ∨ W = 8) (mem : Mem)
    (cb : Nat → Nat → σ → σ) (d : GCDesc) (addr size : Nat) (F : Nat)
    (hN : GetNumSeries W mem d < 0)
    (hwrap : patternStop W addr size + passStride W (patternGroups W mem d) ≤ wordMod W)
    (hF : (patternGroups W mem d).length < F ∧ ∀ g ∈ patternGroups W mem d, g.1 ≤ F) :
    ∀ (fuel ptr : Nat) (ctx : σ), patternStop W addr size - ptr ≤ fuel →
      elementWhile W mem cb d addr size (GetNumSeries W mem d) (GetHighestSeries W d) F
          (fuel + 1) ptr ctx =
        some (((patternSlotsUpTo W (patternGroups W mem d) (patternStop W addr size) fuel
          ptr).filter (fun p => decide (readLE mem p W ≠ 0))).foldl
            (fun c p => cb addr p c) ctx) := by
  have hlen : (patternGroups W mem d).length = (-(GetNumSeries W mem d)).toNat := by
    unfold patternGroups
    generalize (-(GetNumSeries W mem d)).toNat = n
    generalize (0 : Int) = i
    induction n generalizing i with
    | zero => rfl
    | succ n ih => simp [groupsFrom, ih]
  have hstr : 0 < passStride W (patternGroups W mem d) := by
    have hpos : 0 < (patternGroups W mem d).length := by omega
    rcases hg : patternGroups W mem d with _ | ⟨g, gs⟩
    · rw [hg] at hpos; simp at hpos
    · simp only [passStride, List.map_cons, List.sum_cons]
      have hWpos : 0 < W := by rcases hW with rfl | rfl <;> omega
      have : 0 < max 1 g.1 * W := Nat.mul_pos (by omega) hWpos
      omega
  have hfor : ∀ (ptr : Nat) (ctx : σ), ptr < patternStop W addr size →
      groupFor W mem cb d addr (GetNumSeries W mem d) (GetHighestSeries W d) F F 0 ptr ctx =
        some ((passSlots W (patternGroups W mem d) ptr).2,
          ((passSlots W (patternGroups W mem d) ptr).1.filter
            (fun p => decide (readLE mem p W ≠ 0))).foldl (fun c p => cb addr p c) ctx) := by
    intro ptr ctx hlt
    have := groupFor_eq W hW mem cb d addr (GetNumSeries W mem d) (GetHighestSeries W d) F
      (toInt32_ge _) (-(GetNumSeries W mem d)).toNat F 0 ptr ctx (by omega) (by omega)
      (le_refl _)
    unfold patternGroups at hwrap hF ⊢
    exact this (by omega) (fun g hg => by have := hF.2 g hg; omega)
  intro fuel
  induction fuel with
  | zero =>
    intro ptr ctx hle
    have h1 : ¬ (ptr < padd W addr ((size : Int) - W)) := by
      unfold patternStop at hle
      omega
    simp [elementWhile, h1, patternSlotsUpTo]
  | succ fuel ih =>
    intro ptr ctx hle
    by_cases hlt : ptr < patternStop W addr size
    · have hlt2 : ptr < padd W addr ((size : Int) - W) := hlt
      rw [elementWhile, if_pos hlt2, hfor ptr ctx hlt]
      simp only
      have h2 := passSlots_snd W (patternGroups W mem d) ptr
      rw [ih _ _ (by omega)]
      simp only [patternSlotsUpTo, if_pos hlt, List.filter_append, List.foldl_append]
    · have hlt2 : ¬ (ptr < padd W addr ((size : Int) - W)) := hlt
      rw [elementWhile, if_neg hlt2]
      simp [patternSlotsUpTo, hlt]

theorem WalkObject_pattern_eq {σ : Type} (W : Nat) (hW : W = 4 ∨ W = 8) (mem : Mem)
    (d : GCDesc) (F addr size : Nat) (ctx : σ) (cb : Nat → Nat → σ → σ)
    (hN : GetNumSeries W mem d < 0)
    (hwrap : patternStop W addr size + passStride W (patternGroups W mem d) ≤ wordMod W)
    (hF : (patternGroups W mem d).length < F ∧ (∀ g ∈ patternGroups W mem d, g.1 ≤ F) ∧
      patternStop W addr size - patternBegin W mem d addr < F) :
    WalkObject W mem d F addr size ctx cb =
      some ((patternReported W mem d addr size).foldl (fun c p => cb addr p c) ctx) := by
  obtain ⟨f, rfl⟩ : ∃ f, F = f + 1 := ⟨F - 1, by omega⟩
  have hn : ¬ (GetNumSeries W mem d > 0) := by omega
  have hstr : 0 < passStride W (patternGroups W mem d) := by
    have hlen : (patternGroups W mem d).length = (-(GetNumSeries W mem d)).toNat := by
      unfold patternGroups
      generalize (-(GetNumSeries W mem d)).toNat = n
      generalize (0 : Int) = i
      induction n generalizing i with
      | zero => rfl
      | succ n ih => simp [groupsFrom, ih]
    have hpos : 0 < (patternGroups W mem d).length := by omega
    rcases hg : patternGroups W mem d with _ | ⟨g, gs⟩
    · rw [hg] at hpos; simp at hpos
    · simp only [passStride, List.map_cons, List.sum_cons]
      have hWpos : 0 < W := by rcases hW with rfl | rfl <;> omega
      have : 0 < max 1 g.1 * W := Nat.mul_pos (by omega) hWpos
      omega
  unfold WalkObject
  simp only [if_neg hn]
  have := elementWhile_eq W hW mem cb d addr size (f + 1) hN hwrap ⟨hF.1, hF.2.1⟩ f
    (padd W addr (GetSeriesOffset W mem d (GetHighestSeries W d))) ctx
    (by have := hF.2.2; unfold patternBegin at this; omega)
  rw [this, patternSlotsUpTo_stable W _ _ hstr f _
    (by have := hF.2.2; unfold patternBegin at this; omega)]
  rfl

theorem groupsFrom_length (W : Nat) (mem : Mem) (d : GCDesc) (curr : Int) :
    ∀ (n : Nat) (i : Int), (groupsFrom W mem d curr i n).length = n := by
  intro n
  induction n with
  | zero => intro i; rfl
  | succ n ih => intro i; simp [groupsFrom, ih]

theorem groupsFrom_getElem (W : Nat) (mem : Mem) (d : GCDesc) (curr : Int) :
    ∀ (n : Nat) (i : Int) (k : Nat), k < n →
      (groupsFrom W mem d curr i n)[k]? =
        some (GetPointers W mem d curr (i - k), GetSkip W mem d curr (i - k)) := by
  intro n
  induction n with
  | zero => intro i k hk; omega
  | succ n ih =>
    intro i k hk
    rcases k with _ | k
    · simp [groupsFrom]
    · simp only [groupsFrom, List.getElem?_cons_succ]
      rw [ih _ k (by omega)]
      have : i - 1 - (k : Int) = i - ((k + 1 : Nat) : Int) := by push_cast; ring
      rw [this]

theorem patternSlots_unfold (W : Nat) (gs : List (Nat × Nat)) (stop ptr : Nat)
    (hs : 0 < passStride W gs) (hlt : ptr < stop) :
    patternSlots W gs stop ptr =
      (passSlots W gs ptr).1 ++ patternSlots W gs stop (ptr + passStride W gs) := by
  obtain ⟨k, hk⟩ : ∃ k, stop - ptr = k + 1 := ⟨stop - ptr - 1, by omega⟩
  have h1 : patternSlots W gs stop ptr = patternSlotsUpTo W gs stop (k + 1) ptr := by
    unfold patternSlots
    rw [hk]
  rw [h1]
  simp only [patternSlotsUpTo, if_pos hlt]
  rw [passSlots_snd, patternSlotsUpTo_stable W gs stop hs k _ (by omega)]

theorem patternSlots_done (W : Nat) (gs : List (Nat × Nat)) (stop ptr : Nat)
    (hge : ¬ ptr < stop) : patternSlots W gs stop ptr = [] := by
  unfold patternSlots
  have : stop - ptr = 0 := by omega
  rw [this]
  rfl

theorem elementWhile_zero {σ : Type} (W : Nat) (mem : Mem) (cb : Nat → Nat → σ → σ) (d : GCDesc)
    (addr size : Nat) (curr : Int) (F : Nat) (ptr : Nat) (ctx : σ) :
    ∀ (fuel : Nat), elementWhile W mem cb d addr size 0 curr F fuel ptr ctx =
      if ptr < patternStop W addr size then none else if fuel = 0 then none else some ctx := by
  intro fuel
  induction fuel with
  | zero => simp [elementWhile]
  | succ fuel ih =>
    rw [elementWhile]
    by_cases hlt : ptr < patternStop W addr size
    · have hlt2 : ptr < padd W addr ((size : Int) - W) := hlt
      rw [if_pos hlt2, if_pos hlt]
      rcases F with _ | F
      · simp [groupFor]
      · simp only [groupFor, gt_iff_lt, lt_self_iff_false, if_false]
        rw [ih, if_pos hlt]
    · have hlt2 : ¬ ptr < padd W addr ((size : Int) - W) := hlt
      rw [if_neg hlt2, if_neg hlt]
      simp

theorem WalkObject_zero {σ : Type} (W : Nat) (mem : Mem) (d : GCDesc) (F addr size : Nat)
    (ctx : σ) (cb : Nat → Nat → σ → σ) (hN : GetNumSeries W mem d = 0) :
    WalkObject W mem d F addr size ctx cb =
      if patternBegin W mem d addr < patternStop W addr size then none
      else if F = 0 then none else some ctx := by
  unfold WalkObject
  simp only [hN, gt_iff_lt, lt_self_iff_false, if_false]
  rw [elementWhile_zero]
  rfl

theorem seriesLoop_never {σ : Type} (W : Nat) (mem : Mem) (cb : Nat → Nat → σ → σ) (d : GCDesc)
    (addr size F : Nat) :
    ∀ (fuel : Nat) (curr : Int) (ctx : σ),
      seriesLoop W mem cb d addr size (-2147483648) F fuel curr ctx = none := by
  intro fuel
  induction fuel with
  | zero => intro curr ctx; rfl
  | succ fuel ih =>
    intro curr ctx
    rw [seriesLoop]
    simp only
    cases scanWhile W mem cb addr _ F _ ctx with
    | none => rfl
    | some c1 =>
      simp only
      rw [if_pos (toInt32_ge _)]
      exact ih _ _

theorem exists_strict_bound {α : Type} (f : α → Nat) :
    ∀ (l : List α), ∃ B, ∀ x ∈ l, f x < B := by
  intro l
  induction l with
  | nil => exact ⟨0, by simp⟩
  | cons a l ih =>
    obtain ⟨B, hB⟩ := ih
    refine ⟨max B (f a + 1), ?_⟩
    intro x hx
    rcases List.mem_cons.1 hx with rfl | hx
    · omega
    · have := hB x hx
      omega

theorem readLE_add (mem : Mem) : ∀ (m n a : Nat),
    readLE mem a (m + n) = readLE mem a m + 256 ^ m * readLE mem (a + m) n := by
  intro m
  induction m with
  | zero => intro n a; simp [readLE]
  | succ m ih =>
    intro n a
    have : m + 1 + n = (m + n) + 1 := by omega
    rw [this]
    simp only [readLE]
    rw [ih n (a + 1)]
    have : a + 1 + m = a + (m + 1) := by omega
    rw [this]
    ring

theorem toInt32_readLE_word (W : Nat) (hW : W = 4 ∨ W = 8) (mem : Mem) (a : Nat) :
    toInt32 (readLE mem a W) = toInt32 (readLE mem a 4) := by
  rcases hW with rfl | rfl
  · rfl
  · have := readLE_add mem 4 4 a
    norm_num at this
    rw [this]
    unfold toInt32
    push_cast
    split <;> split <;> omega

theorem padd_padd (W : Nat) (p : Nat) (a b : Int) :
    padd W (padd W p a) b = padd W p (a + b) := by
  unfold padd
  have hM : (0 : Int) < (wordMod W : Int) := by
    have : 0 < wordMod W := by unfold wordMod; positivity
    exact_mod_cast this
  rw [Int.toNat_of_nonneg (Int.emod_nonneg _ hM.ne'), Int.emod_add_emod, add_assoc]

theorem padd_zero_cast (W : Nat) (x : Int) : ((padd W 0 x : Nat) : Int) = x % (wordMod W : Int) := by
  unfold padd
  have hM : (0 : Int) < (wordMod W : Int) := by
    have : 0 < wordMod W := by unfold wordMod; positivity
    exact_mod_cast this
  rw [Int.toNat_of_nonneg (Int.emod_nonneg _ hM.ne')]
  simp

theorem padd_congr (W : Nat) (p : Nat) (a b : Int)
    (h : a % (wordMod W : Int) = b % (wordMod W : Int)) : padd W p a = padd W p b := by
  unfold padd
  rw [Int.add_emod, h, ← Int.add_emod]

theorem padd_blob_last (W : Nat) (mt : Nat) (s : Int) :
    padd W (padd W mt (-(s * W))) (((padd W 0 (s * W) : Nat) : Int) - W) =
      padd W mt (-(W : Int)) := by
  rw [padd_padd]
  apply padd_congr
  rw [padd_zero_cast]
  generalize s * (W : Int) = t
  have : (-t + (t % (wordMod W : Int) - W)) =
      -(W : Int) + (wordMod W : Int) * (-(t / (wordMod W : Int))) := by
    have := Int.emod_add_ediv t (wordMod W : Int)
    linarith
  rw [this, Int.add_mul_emod_self_left]

theorem gcdescOf_GetNumSeries (W : Nat) (hW : W = 4 ∨ W = 8) (mem : Mem) (mt : Nat) :
    GetNumSeries W mem (gcdescOf W mem mt) = toInt32 (readLE mem (padd W mt (-(W : Int))) 4) := by
  have h : ∀ s : Int, GetNumSeries W mem
      { data := padd W mt (-(s * W)), size := padd W 0 (s * W) } =
      toInt32 (readLE mem (padd W mt (-(W : Int))) 4) := by
    intro s
    unfold GetNumSeries
    rw [toInt32_readLE_word W hW, padd_blob_last]
  exact h _


theorem gcdescOf_size_def (W : Nat) (mem : Mem) (mt : Nat) :
    (gcdescOf W mem mt).size =
      padd W 0 (toInt32 (1 + (if toInt32 (readLE mem (padd W mt (-(W : Int))) 4) < 0 then
        toInt32 (-toInt32 (readLE mem (padd W mt (-(W : Int))) 4))
        else toInt32 (readLE mem (padd W mt (-(W : Int))) 4)) * 2) * W) := by
  unfold gcdescOf
  dsimp only

theorem gcdescOf_size (W : Nat) (hW : W = 4 ∨ W = 8) (mem : Mem) (mt : Nat)
    (hb : (1 + 2 * ((GetNumSeries W mem (gcdescOf W mem mt)).natAbs : Int)) * W < 2147483648) :
    (((gcdescOf W mem mt).size : Nat) : Int) =
      (1 + 2 * ((GetNumSeries W mem (gcdescOf W mem mt)).natAbs : Int)) * W := by
  rw [gcdescOf_GetNumSeries W hW] at hb ⊢
  have h : ∀ x : Int, (1 + 2 * (x.natAbs : Int)) * W < 2147483648 →
      ((padd W 0 (toInt32 (1 + (if x < 0 then toInt32 (-x) else x) * 2) * W) : Nat) : Int) =
        (1 + 2 * (x.natAbs : Int)) * W := by
    intro x hx
    rw [padd_zero_cast]
    have e1 : (if x < 0 then toInt32 (-x) else x) = (x.natAbs : Int) := by
      split
      · rw [toInt32_of_range] <;> rcases hW with rfl | rfl <;> omega
      · omega
    rw [e1, toInt32_of_range _ (by omega) (by rcases hW with rfl | rfl <;> omega)]
    have e2 : (1 + (x.natAbs : Int) * 2) * W = (1 + 2 * (x.natAbs : Int)) * W := by ring
    rw [e2]
    apply Int.emod_eq_of_lt
    · positivity
    · have := wordMod_ge W hW
      omega
  rw [gcdescOf_size_def]
  exact h (toInt32 (readLE mem (padd W mt (-(W : Int))) 4)) hb

theorem seriesCurrs_range (W : Nat) (hW : W = 4 ∨ W = 8) (hi : Int) (hhi : hi < 2147483648) :
    ∀ (fuel : Nat) (curr : Int), 0 ≤ curr → curr ≤ hi →
      ∀ c ∈ seriesCurrs W 0 fuel curr, 0 ≤ c ∧ c ≤ hi := by
  intro fuel
  induction fuel with
  | zero => intro curr _ _ c hc; simp [seriesCurrs] at hc
  | succ fuel ih =>
    intro curr h0 h1 c hc
    have e1 : toInt32 (curr - W * 2) = curr - W * 2 := by
      apply toInt32_of_range <;> rcases hW with rfl | rfl <;> omega
    simp only [seriesCurrs, e1, List.mem_cons] at hc
    rcases hc with rfl | hc
    · exact ⟨h0, h1⟩
    · split at hc
      · exact ih _ (by omega) (by rcases hW with rfl | rfl <;> omega) c hc
      · simp at hc

theorem groupIndices_range (series : Int) (hs : -2147483648 ≤ series) :
    ∀ (fuel : Nat) (i : Int), i ≤ 0 →
      ∀ j ∈ groupIndices series fuel i, series < j ∧ j ≤ 0 := by
  intro fuel
  induction fuel with
  | zero => intro i _ j hj; simp [groupIndices] at hj
  | succ fuel ih =>
    intro i hi j hj
    simp only [groupIndices] at hj
    split at hj
    · rcases List.mem_cons.1 hj with rfl | hj
      · exact ⟨by omega, hi⟩
      · rw [toInt32_of_range _ (by omega) (by omega)] at hj
        exact ih _ (by omega) j hj
    · simp at hj

theorem descriptorReads_inside (W : Nat) (hW : W = 4 ∨ W = 8) (mem : Mem) (d : GCDesc) (F : Nat)
    (hN : GetNumSeries W mem d ≠ 0)
    (hsz : ((d.size : Nat) : Int) = (1 + 2 * ((GetNumSeries W mem d).natAbs : Int)) * W)
    (hb : (1 + 2 * ((GetNumSeries W mem d).natAbs : Int)) * W < 2147483648) :
    ∀ r ∈ descriptorReads W mem d F, 0 ≤ r.1 ∧ r.1 + r.2 ≤ d.size := by
  have hh : GetHighestSeries W d = (d.size : Int) - 3 * W := by
    unfold GetHighestSeries
    rw [toInt32_of_range] <;> rcases hW with rfl | rfl <;> omega
  intro r hr
  unfold descriptorReads at hr
  simp only at hr
  split at hr
  · rename_i hpos
    have hl : GetLowestSeries W mem d = 0 := by
      unfold GetLowestSeries ComputeSize
      generalize GetNumSeries W mem d = N at hpos hsz hb hN ⊢
      rw [toInt32_of_range ((W : Int) + N * W * 2), toInt32_of_range] <;>
        rcases hW with rfl | rfl <;> omega
    rw [hl, hh] at hr
    rcases List.mem_cons.1 hr with rfl | hr
    · simp only
      rcases hW with rfl | rfl <;> omega
    · obtain ⟨c, hc, hrc⟩ := List.mem_flatMap.1 hr
      have hc2 := seriesCurrs_range W hW ((d.size : Int) - 3 * W)
        (by rcases hW with rfl | rfl <;> omega) F _
        (by rcases hW with rfl | rfl <;> omega) (le_refl _) c hc
      simp only [List.mem_cons, List.mem_singleton, List.not_mem_nil, or_false] at hrc
      rcases hrc with rfl | rfl <;> simp only <;> rcases hW with rfl | rfl <;> omega
  · rename_i hneg
    rw [hh] at hr
    rcases List.mem_cons.1 hr with rfl | hr
    · simp only
      rcases hW with rfl | rfl <;> omega
    rcases List.mem_cons.1 hr with rfl | hr
    · simp only
      rcases hW with rfl | rfl <;> omega
    · obtain ⟨i, hi, hri⟩ := List.mem_flatMap.1 hr
      have hi2 := groupIndices_range (GetNumSeries W mem d) (toInt32_ge _) F 0 (le_refl _) i hi
      generalize GetNumSeries W mem d = N at hsz hb hN hneg hi2
      have e1 : toInt32 (i * W) = i * W := by
        apply toInt32_of_range <;> rcases hW with rfl | rfl <;> omega
      have e2 : toInt32 (i * W + (W / 2 : Nat)) = i * W + (W / 2 : Nat) := by
        apply toInt32_of_range <;> rcases hW with rfl | rfl <;> omega
      rw [e1, e2] at hri
      simp only [List.mem_cons, List.mem_singleton, List.not_mem_nil, or_false] at hri
      rcases hri with rfl | rfl <;> simp only <;> rcases hW with rfl | rfl <;> omega

/-! ## Claim C11 -/

set_option maxRecDepth 100000 in
/-- C11, as stated, fails: a descriptor with series count 1 (blob of 24 bytes). The lowest series
offset computed by `GetLowestSeries` is 0, not `24 - 8 - 2 * 16 = -16`, and `WalkObject` decodes
one pair, not two: it reports the slot 8200 of the pair at blob offset 0 only, whereas decoding
the two pairs at blob offsets 0 and -16 would also report the slot 8208. -/
theorem one_series_decodes_one_pair :
    GetNumSeries 8 oneSeriesHeap (gcdescOf 8 oneSeriesHeap 4496) = 1 ∧
      gcdescOf 8 oneSeriesHeap 4496 = { data := 4472, size := 24 } ∧
      GetLowestSeries 8 oneSeriesHeap (gcdescOf 8 oneSeriesHeap 4496) = 0 ∧
      specLowestSeries 8 24 1 = -16 ∧
      walkSlots 8 oneSeriesHeap 5 8192 = some [8200] ∧
      specFixedSlots 8 oneSeriesHeap (gcdescOf 8 oneSeriesHeap 4496) 8192 32 = [8200, 8208] := by
  refine ⟨by decide, by decide, by decide, by decide, by decide, by decide⟩

/-- C11, amended. A descriptor is decoded as a fixed series list only when its series count `N`
is positive, and then as exactly `N` pairs: with the blob shorter than `2 ^ 31` bytes and
`(2 * N + 3) * W ≤ 2 ^ 31`, the highest series offset is `size - 3 * W`, the lowest is
`size - W - N * 2W`, and `WalkObject` scans the series at the `N` offsets
`size - 3 * W - 2 * W * k` (`k = 0, ..., N - 1`) in this order, the last one being the lowest
series. For `N = 0` no pair is decoded: the repeating-pattern branch is taken with no group, the
callback is never invoked, and the walk returns the context unchanged unless
`addr + startOffset < addr + size - W`, in which case it does not return. -/
theorem fixed_series_decoding {σ : Type} (W : Nat) (hW : W = 4 ∨ W = 8) (mem : Mem) (d : GCDesc)
    (F addr size : Nat) (ctx : σ) (cb : Nat → Nat → σ → σ) :
    (0 < GetNumSeries W mem d → d.size < 2147483648 →
      (2 * GetNumSeries W mem d + 3) * W ≤ 2147483648 → (GetNumSeries W mem d).toNat ≤ F →
      GetHighestSeries W d = (d.size : Int) - 3 * W ∧
      GetLowestSeries W mem d = (d.size : Int) - W - GetNumSeries W mem d * (2 * W) ∧
      (seriesOffsets W d.size (GetNumSeries W mem d).toNat).length =
        (GetNumSeries W mem d).toNat ∧
      (∀ k : Nat, k < (GetNumSeries W mem d).toNat →
        (seriesOffsets W d.size (GetNumSeries W mem d).toNat)[k]? =
          some ((d.size : Int) - 3 * W - 2 * W * k)) ∧
      (seriesOffsets W d.size (GetNumSeries W mem d).toNat)[(GetNumSeries W mem d).toNat - 1]? =
        some (GetLowestSeries W mem d) ∧
      WalkObject W mem d F addr size ctx cb =
        (seriesOffsets W d.size (GetNumSeries W mem d).toNat).foldlM
          (fun c curr => scanWhile W mem cb addr (seriesStop W mem d addr size curr) F
            (seriesBegin W mem d addr curr) c) ctx) ∧
    (GetNumSeries W mem d = 0 →
      patternGroups W mem d = [] ∧
      WalkObject W mem d F addr size ctx cb =
        if patternBegin W mem d addr < patternStop W addr size then none
        else if F = 0 then none else some ctx) := by
  constructor
  · intro hN hsize hser hF
    obtain ⟨h1, h2, h3⟩ := fixed_series_bounds W hW mem d hN hsize hser
    refine ⟨h1, h2, seriesOffsetsFrom_length W _ _,
      fun k hk => seriesOffsetsFrom_getElem W _ _ k hk, ?_,
      WalkObject_fixed_foldlM W hW mem d F addr size ctx cb hN hsize hser hF⟩
    have := seriesOffsetsFrom_getElem W (GetNumSeries W mem d).toNat ((d.size : Int) - 3 * W)
      ((GetNumSeries W mem d).toNat - 1) (by omega)
    unfold seriesOffsets
    rw [this, ← h1, h3, add_sub_cancel_right]
  · intro hN
    refine ⟨?_, WalkObject_zero W mem d F addr size ctx cb hN⟩
    unfold patternGroups
    rw [hN]
    rfl

set_option maxRecDepth 100000 in
/-- Witness for C11: a descriptor with one series, and a descriptor with series count 0 on which
the walk returns. -/
theorem fixed_series_decoding_witness :
    (0 < GetNumSeries 8 twoHeap (gcdescOf 8 twoHeap 4096) ∧
      (gcdescOf 8 twoHeap 4096).size < 2147483648 ∧
      (2 * GetNumSeries 8 twoHeap (gcdescOf 8 twoHeap 4096) + 3) * (8 : Nat) ≤ 2147483648 ∧
      (GetNumSeries 8 twoHeap (gcdescOf 8 twoHeap 4096)).toNat ≤ 5 ∧
      GetNumSeries 8 (zeroSeriesHeap 16) (gcdescOf 8 (zeroSeriesHeap 16) 4696) = 0) ∧
    (GetLowestSeries 8 twoHeap (gcdescOf 8 twoHeap 4096) =
        ((gcdescOf 8 twoHeap 4096).size : Int) - (8 : Nat) -
          GetNumSeries 8 twoHeap (gcdescOf 8 twoHeap 4096) * (2 * (8 : Nat))) ∧
    (WalkObject 8 (zeroSeriesHeap 16) (gcdescOf 8 (zeroSeriesHeap 16) 4696) 5 8192 24 []
        (fun _ p acc => acc ++ [p]) =
      if patternBegin 8 (zeroSeriesHeap 16) (gcdescOf 8 (zeroSeriesHeap 16) 4696) 8192 <
          patternStop 8 8192 24 then none
      else if 5 = 0 then none else some []) :=
  ⟨⟨by decide, by decide, by decide, by decide, by decide⟩,
    ((fixed_series_decoding 8 (Or.inr rfl) twoHeap (gcdescOf 8 twoHeap 4096) 5 8192 24
      ([] : List Nat) (fun _ p acc => acc ++ [p])).1 (by decide) (by decide) (by decide)
      (by decide)).2.1,
    ((fixed_series_decoding 8 (Or.inr rfl) (zeroSeriesHeap 16)
      (gcdescOf 8 (zeroSeriesHeap 16) 4696) 5 8192 24
      ([] : List Nat) (fun _ p acc => acc ++ [p])).2 (by decide)).2⟩

/-! ## Claim C12 -/

theorem seriesOffsetsFrom_succ (W : Nat) (c : Int) (n : Nat) :
    seriesOffsetsFrom W c (n + 1) = c :: seriesOffsetsFrom W (c - 2 * W) n := rfl

set_option maxRecDepth 100000 in
/-- C12, as stated, fails: a type whose series count is `2 ^ 28`, with the blob of
`2 ^ 32 + 8` bytes that `EnumerateObjectReferences` builds for it. The highest series of the
blob, at blob offset `2 ^ 32 - 16`, has the fields `(0, 0)`: its range is `[8192, 8224)` for
the object at 8192 of size 32, and the slots 8192 and 8208 in it hold non-zero words. But
`GetHighestSeries` truncates `2 ^ 32 - 16` to `-16`, so `WalkObject` scans the pair `(-24, 16)`
stored below the blob instead and stops: it reports the slot 8208 only, and the callback is
never invoked on the slot 8192 of the highest series. -/
theorem huge_series_count_skips_blob_series :
    0 < GetNumSeries 8 bigSeriesHeap (gcdescOf 8 bigSeriesHeap 8589934592) ∧
      gcdescOf 8 bigSeriesHeap 8589934592 = { data := 4294967288, size := 4294967304 } ∧
      GetHighestSeries 8 (gcdescOf 8 bigSeriesHeap 8589934592) = -16 ∧
      GetObjectSize2 8 bigSeriesHeap 8192 = 32 ∧
      walkObjectSlots 8 bigSeriesHeap (gcdescOf 8 bigSeriesHeap 8589934592) 5 8192 32 =
        some [8208] ∧
      (seriesBegin 8 bigSeriesHeap (gcdescOf 8 bigSeriesHeap 8589934592) 8192 4294967280 = 8192 ∧
        seriesStop 8 bigSeriesHeap (gcdescOf 8 bigSeriesHeap 8589934592) 8192 32 4294967280 =
          8224 ∧
        readLE bigSeriesHeap 8192 8 ≠ 0) ∧
      ∃ rest, fixedSlots 8 bigSeriesHeap (gcdescOf 8 bigSeriesHeap 8589934592) 8192 32 =
        8192 :: 8208 :: rest := by
  refine ⟨by decide, by decide, by decide, by decide, by decide,
    ⟨by decide, by decide, by decide⟩, ?_⟩
  have hN : (GetNumSeries 8 bigSeriesHeap (gcdescOf 8 bigSeriesHeap 8589934592)).toNat =
      268435455 + 1 := by decide
  have hsz : (gcdescOf 8 bigSeriesHeap 8589934592).size = 4294967304 := by decide
  have hrun : slotRun 8 bigSeriesHeap
      (seriesBegin 8 bigSeriesHeap (gcdescOf 8 bigSeriesHeap 8589934592) 8192
        (((4294967304 : Nat) : Int) - 3 * (8 : Nat)))
      (seriesStop 8 bigSeriesHeap (gcdescOf 8 bigSeriesHeap 8589934592) 8192 32
        (((4294967304 : Nat) : Int) - 3 * (8 : Nat))) = [8192, 8208] := by decide
  unfold fixedSlots seriesOffsets
  rw [hN, hsz, seriesOffsetsFrom_succ, List.flatMap_cons, hrun, List.cons_append,
    List.cons_append, List.nil_append]
  exact ⟨_, Eq.refl _⟩

/-- C12, amended. Fixed-series path. Let the series count `N` be positive, the blob shorter
than `2 ^ 31` bytes with `(2 * N + 3) * W ≤ 2 ^ 31`, no scanned range wrap around the address space
(`stop + W ≤ 2 ^ (8 * W)` for every non-empty range) and the fuel exceed `N` and the number of
slots of every range. Then `WalkObject` returns, having invoked the callback on exactly the
slots `fixedSlots`, in this order: the series at blob offsets `size - 3W - 2W * k` are taken for
`k = 0, ..., N - 1` (highest to lowest), and the series at offset `curr` contributes
`slotRun begin stop` with `begin = addr + GetSeriesOffset(curr)` and
`stop = begin + GetSeriesSize(curr) + size`, that is, ascending and each once, the slots
`begin + k * W` strictly below `stop` whose stored word is non-zero. -/
theorem fixed_series_slots {σ : Type} (W : Nat) (hW : W = 4 ∨ W = 8) (mem : Mem) (d : GCDesc)
    (F addr size : Nat) (ctx : σ) (cb : Nat → Nat → σ → σ)
    (hN : 0 < GetNumSeries W mem d) (hsize : d.size < 2147483648)
    (hser : (2 * GetNumSeries W mem d + 3) * W ≤ 2147483648)
    (hwrap : ∀ curr ∈ seriesOffsets W d.size (GetNumSeries W mem d).toNat,
      seriesBegin W mem d addr curr < seriesStop W mem d addr size curr →
      seriesStop W mem d addr size curr + W ≤ wordMod W)
    (hF : (GetNumSeries W mem d).toNat ≤ F ∧
      ∀ curr ∈ seriesOffsets W d.size (GetNumSeries W mem d).toNat,
        slotCount W (seriesBegin W mem d addr curr) (seriesStop W mem d addr size curr) < F) :
    WalkObject W mem d F addr size ctx cb =
      some ((fixedSlots W mem d addr size).foldl (fun c p => cb addr p c) ctx) ∧
    fixedSlots W mem d addr size =
      (seriesOffsets W d.size (GetNumSeries W mem d).toNat).flatMap
        (fun curr => slotRun W mem (padd W addr (GetSeriesOffset W mem d curr))
          (padd W (padd W addr (GetSeriesOffset W mem d curr))
            (GetSeriesSize W mem d curr + size))) ∧
    (seriesOffsets W d.size (GetNumSeries W mem d).toNat).length =
      (GetNumSeries W mem d).toNat ∧
    (∀ k : Nat, k < (GetNumSeries W mem d).toNat →
      (seriesOffsets W d.size (GetNumSeries W mem d).toNat)[k]? =
        some ((d.size : Int) - 3 * W - 2 * W * k)) ∧
    (∀ b s p, p ∈ slotRun W mem b s ↔
      (∃ k, p = b + k * W) ∧ p < s ∧ readLE mem p W ≠ 0) ∧
    (∀ b s, (slotRun W mem b s).Pairwise (fun p q => p < q)) := by
  refine ⟨WalkObject_fixed_eq W hW mem d F addr size ctx cb hN hsize hser hwrap hF, rfl,
    seriesOffsetsFrom_length W _ _, fun k hk => seriesOffsetsFrom_getElem W _ _ k hk,
    fun b s p => mem_slotRun W hW mem b s p,
    fun b s => slotRun_pairwise W (by rcases hW with rfl | rfl <;> omega) mem b s⟩

set_option maxRecDepth 100000 in
/-- Witness for C12: the object at 8192 of `hugeRefHeap`, whose type has one series covering two
reference fields. -/
theorem fixed_series_slots_witness :
    (0 < GetNumSeries 8 hugeRefHeap (gcdescOf 8 hugeRefHeap 4296) ∧
      fixedSlots 8 hugeRefHeap (gcdescOf 8 hugeRefHeap 4296) 8192 32 = [8200, 8208]) ∧
    WalkObject 8 hugeRefHeap (gcdescOf 8 hugeRefHeap 4296) 5 8192 32 ([] : List Nat)
        (fun _ p acc => acc ++ [p]) =
      some ((fixedSlots 8 hugeRefHeap (gcdescOf 8 hugeRefHeap 4296) 8192 32).foldl
        (fun c p => (fun _ p acc => acc ++ [p]) 8192 p c) []) :=
  ⟨⟨by decide, by decide⟩,
    (fixed_series_slots 8 (Or.inr rfl) hugeRefHeap (gcdescOf 8 hugeRefHeap 4296) 5 8192 32
      ([] : List Nat) (fun _ p acc => acc ++ [p]) (by decide) (by decide) (by decide)
      (by decide) (by decide)).1⟩

/-! ## Claim C13 -/

set_option maxRecDepth 100000 in
/-- C13, as stated, fails: an array of one component whose pattern has the single group
(pointer count 0, skip 8). Considering exactly `pointerCount = 0` slots per group would visit no
slot at all; the loop `do { ... } while (ptr < stop)` of `WalkObject` runs its body once, so the
slot 8208 is considered and, holding a non-zero word, reported. -/
theorem zero_pointer_count_reports_slot :
    GetNumSeries 8 zeroCountArrayHeap (gcdescOf 8 zeroCountArrayHeap 7400) = -1 ∧
      patternGroups 8 zeroCountArrayHeap (gcdescOf 8 zeroCountArrayHeap 7400) = [(0, 8)] ∧
      GetObjectSize2 8 zeroCountArrayHeap 8192 = 32 ∧
      patternBegin 8 zeroCountArrayHeap (gcdescOf 8 zeroCountArrayHeap 7400) 8192 = 8208 ∧
      patternStop 8 8192 32 = 8216 ∧
      specPatternSlotsUpTo 8 [(0, 8)] 8216 8 8208 = [] ∧
      walkSlots 8 zeroCountArrayHeap 5 8192 = some [8208] := by
  refine ⟨by decide, by decide, by decide, by decide, by decide, by decide, by decide⟩

/-- C13, amended. Repeating-pattern path. Let the series count `N` be negative, the cursor not
wrap around the address space (`addr + size - W` plus the bytes one pass advances is at most
`2 ^ (8 * W)`) and the fuel exceed `|N|`, every pointer count and the distance from the first
cursor position to `addr + size - W`. Then `WalkObject` returns, having invoked the callback on
exactly the non-zero slots among `patternSlots`, in this order: the cursor starts at
`addr + GetSeriesOffset(highest)`; while it is below `addr + size - W` a pass applies the `|N|`
groups `(GetPointers(highest, i), GetSkip(highest, i))`, `i = 0, -1, ..., N + 1`, in sequence;
a group considers `max 1 pointerCount` consecutive slots (one slot even when the pointer count
is 0) and then skips `skipBytes`. -/
theorem repeating_pattern_slots {σ : Type} (W : Nat) (hW : W = 4 ∨ W = 8) (mem : Mem)
    (d : GCDesc) (F addr size : Nat) (ctx : σ) (cb : Nat → Nat → σ → σ)
    (hN : GetNumSeries W mem d < 0)
    (hwrap : patternStop W addr size + passStride W (patternGroups W mem d) ≤ wordMod W)
    (hF : (patternGroups W mem d).length < F ∧ (∀ g ∈ patternGroups W mem d, g.1 ≤ F) ∧
      patternStop W addr size - patternBegin W mem d addr < F) :
    WalkObject W mem d F addr size ctx cb =
      some ((patternReported W mem d addr size).foldl (fun c p => cb addr p c) ctx) ∧
    patternReported W mem d addr size =
      (patternSlots W (patternGroups W mem d) (padd W addr ((size : Int) - W))
        (padd W addr (GetSeriesOffset W mem d (GetHighestSeries W d)))).filter
          (fun p => decide (readLE mem p W ≠ 0)) ∧
    (patternGroups W mem d).length = (-(GetNumSeries W mem d)).toNat ∧
    (∀ k : Nat, k < (-(GetNumSeries W mem d)).toNat →
      (patternGroups W mem d)[k]? =
        some (GetPointers W mem d (GetHighestSeries W d) (0 - (k : Int)),
          GetSkip W mem d (GetHighestSeries W d) (0 - (k : Int)))) ∧
    (∀ stop ptr, ptr < stop →
      patternSlots W (patternGroups W mem d) stop ptr =
        (passSlots W (patternGroups W mem d) ptr).1 ++
          patternSlots W (patternGroups W mem d) stop
            (ptr + passStride W (patternGroups W mem d))) ∧
    (∀ stop ptr, ¬ ptr < stop → patternSlots W (patternGroups W mem d) stop ptr = []) ∧
    (∀ g gs ptr, passSlots W (g :: gs) ptr =
      (slotsFrom W ptr (max 1 g.1) ++ (passSlots W gs (ptr + max 1 g.1 * W + g.2)).1,
        (passSlots W gs (ptr + max 1 g.1 * W + g.2)).2)) ∧
    (∀ ptr, passSlots W [] ptr = ([], ptr)) := by
  have hlen : (patternGroups W mem d).length = (-(GetNumSeries W mem d)).toNat :=
    groupsFrom_length W mem d _ _ _
  have hstr : 0 < passStride W (patternGroups W mem d) := by
    have hpos : 0 < (patternGroups W mem d).length := by omega
    rcases hg : patternGroups W mem d with _ | ⟨g, gs⟩
    · rw [hg] at hpos; simp at hpos
    · simp only [passStride, List.map_cons, List.sum_cons]
      have hWpos : 0 < W := by rcases hW with rfl | rfl <;> omega
      have : 0 < max 1 g.1 * W := Nat.mul_pos (by omega) hWpos
      omega
  refine ⟨WalkObject_pattern_eq W hW mem d F addr size ctx cb hN hwrap hF, rfl, hlen,
    fun k hk => groupsFrom_getElem W mem d _ _ _ k hk,
    fun stop ptr hlt => patternSlots_unfold W _ stop ptr hstr hlt,
    fun stop ptr hge => patternSlots_done W _ stop ptr hge, fun _ _ _ => rfl, fun _ => rfl⟩

set_option maxRecDepth 100000 in
/-- Witness for C13: an array of three references, the second of which is null. -/
theorem repeating_pattern_slots_witness :
    (GetNumSeries 8 refArrayHeap (gcdescOf 8 refArrayHeap 7600) < 0 ∧
      patternReported 8 refArrayHeap (gcdescOf 8 refArrayHeap 7600) 8192 48 = [8208, 8224]) ∧
    WalkObject 8 refArrayHeap (gcdescOf 8 refArrayHeap 7600) 30 8192 48 ([] : List Nat)
        (fun _ p acc => acc ++ [p]) =
      some ((patternReported 8 refArrayHeap (gcdescOf 8 refArrayHeap 7600) 8192 48).foldl
        (fun c p => (fun _ p acc => acc ++ [p]) 8192 p c) []) :=
  ⟨⟨by decide, by decide⟩,
    (repeating_pattern_slots 8 (Or.inr rfl) refArrayHeap (gcdescOf 8 refArrayHeap 7600) 30 8192 48
      ([] : List Nat) (fun _ p acc => acc ++ [p]) (by decide) (by decide) (by decide)).1⟩

/-! ## Claim C19 -/

theorem lookup_cellsLE_append (a : Nat) (rest : List (Nat × Nat)) :
    ∀ (n k v : Nat), k + n ≤ a → (cellsLE k v n ++ rest).lookup a = rest.lookup a := by
  intro n
  induction n with
  | zero => intro k v _; rfl
  | succ n ih =>
    intro k v h
    have hne : (a == k) = false := by
      rw [beq_eq_false_iff_ne]
      omega
    simp only [cellsLE, List.cons_append, List.lookup, hne]
    exact ih _ _ (by omega)

set_option maxRecDepth 100000 in
/-- C19, as stated, fails: a type whose series count is `2 ^ 28`. The blob built by
`EnumerateObjectReferences` has length `(1 + 2 * 2 ^ 28) * 8 = 2 ^ 32 + 8`, so
`GetHighestSeries` truncates `2 ^ 32 - 16` to `-16` and the first series is read at the blob
offsets `-16` and `-8`, below the blob. The walk depends on these two words: with `(-24, 16)`
there it reports the slot 8208, with zeros there it reports 8192 and 8208, the two memories
being equal on the blob and above. -/
theorem big_series_count_reads_below_blob :
    GetNumSeries 8 bigSeriesHeap (gcdescOf 8 bigSeriesHeap 8589934592) = 268435456 ∧
      gcdescOf 8 bigSeriesHeap 8589934592 = { data := 4294967288, size := 4294967304 } ∧
      GetHighestSeries 8 (gcdescOf 8 bigSeriesHeap 8589934592) = -16 ∧
      descriptorReads 8 bigSeriesHeap (gcdescOf 8 bigSeriesHeap 8589934592) 5 =
        [(4294967296, 8), (-8, 8), (-16, 8)] ∧
      walkSlots 8 bigSeriesHeap 5 8192 = some [8208] ∧
      walkSlots 8 bigSeriesBareHeap 5 8192 = some [8192, 8208] ∧
      (∀ a, 4294967288 ≤ a → bigSeriesHeap a = bigSeriesBareHeap a) := by
  refine ⟨by decide, by decide, by decide, by decide, by decide, by decide, ?_⟩
  intro a ha
  unfold bigSeriesHeap bigSeriesBareHeap memOf
  rw [List.append_assoc, lookup_cellsLE_append a _ 8 _ _ (by omega),
    lookup_cellsLE_append a _ 8 _ _ (by omega)]

/-- C19, amended. Let `N` be the series count of the blob that `EnumerateObjectReferences`
builds for the type at `mt` (the `DWORD` below the type, as a signed number), and let
`(1 + 2 * |N|) * W < 2 ^ 31`. Then the blob has length `(1 + 2 * |N|) * W`; if `N` is non-zero,
every read of the descriptor that `WalkObject` performs lies within `[0, length)`; if `N > 0`
the lowest series offset is 0; if `N = 0` the reads are the series count at offset 0 and the
start offset at offset `-W`, outside the blob. -/
theorem descriptor_reads_inside_blob (W : Nat) (hW : W = 4 ∨ W = 8) (mem : Mem) (mt F : Nat)
    (hb : (1 + 2 * ((GetNumSeries W mem (gcdescOf W mem mt)).natAbs : Int)) * W < 2147483648) :
    GetNumSeries W mem (gcdescOf W mem mt) = toInt32 (readLE mem (padd W mt (-(W : Int))) 4) ∧
    (((gcdescOf W mem mt).size : Nat) : Int) =
      (1 + 2 * ((GetNumSeries W mem (gcdescOf W mem mt)).natAbs : Int)) * W ∧
    (GetNumSeries W mem (gcdescOf W mem mt) ≠ 0 →
      ∀ r ∈ descriptorReads W mem (gcdescOf W mem mt) F,
        0 ≤ r.1 ∧ r.1 + r.2 ≤ (gcdescOf W mem mt).size) ∧
    (0 < GetNumSeries W mem (gcdescOf W mem mt) →
      GetLowestSeries W mem (gcdescOf W mem mt) = 0) ∧
    (GetNumSeries W mem (gcdescOf W mem mt) = 0 →
      descriptorReads W mem (gcdescOf W mem mt) F = [(0, W), (-(W : Int), W)]) := by
  have hsz := gcdescOf_size W hW mem mt hb
  refine ⟨gcdescOf_GetNumSeries W hW mem mt, hsz,
    fun hN => descriptorReads_inside W hW mem _ F hN hsz hb, ?_, ?_⟩
  · intro hpos
    unfold GetLowestSeries ComputeSize
    generalize GetNumSeries W mem (gcdescOf W mem mt) = N at hpos hsz hb ⊢
    rw [toInt32_of_range ((W : Int) + N * W * 2), toInt32_of_range] <;>
      rcases hW with rfl | rfl <;> omega
  · intro h0
    have hh : GetHighestSeries W (gcdescOf W mem mt) = -(2 * W : Int) := by
      unfold GetHighestSeries
      rw [h0] at hsz
      rw [toInt32_of_range] <;> rcases hW with rfl | rfl <;> simp at hsz <;> omega
    have hgi : groupIndices 0 F 0 = [] := by
      rcases F with _ | F <;> simp [groupIndices]
    unfold descriptorReads
    simp only [h0, lt_self_iff_false, gt_iff_lt, if_false, hh, hgi, List.flatMap_nil]
    rw [h0] at hsz
    have e1 : (((gcdescOf W mem mt).size : Nat) : Int) - W = 0 := by
      simp at hsz
      omega
    have e2 : -(2 * W : Int) + W = -(W : Int) := by ring
    rw [e1, e2]

set_option maxRecDepth 100000 in
/-- Witness for C19: the types of `twoHeap` (one series), `refArrayHeap` (repeating pattern with
one group) and `zeroSeriesHeap` (series count 0). -/
theorem descriptor_reads_inside_blob_witness :
    ((1 + 2 * ((GetNumSeries 8 twoHeap (gcdescOf 8 twoHeap 4096)).natAbs : Int)) * (8 : Nat) <
        2147483648 ∧
      GetNumSeries 8 twoHeap (gcdescOf 8 twoHeap 4096) ≠ 0 ∧
      descriptorReads 8 twoHeap (gcdescOf 8 twoHeap 4096) 5 = [(16, 8), (8, 8), (0, 8)]) ∧
    (∀ r ∈ descriptorReads 8 twoHeap (gcdescOf 8 twoHeap 4096) 5,
      0 ≤ r.1 ∧ r.1 + r.2 ≤ (gcdescOf 8 twoHeap 4096).size) ∧
    (∀ r ∈ descriptorReads 8 refArrayHeap (gcdescOf 8 refArrayHeap 7600) 5,
      0 ≤ r.1 ∧ r.1 + r.2 ≤ (gcdescOf 8 refArrayHeap 7600).size) ∧
    descriptorReads 8 (zeroSeriesHeap 8) (gcdescOf 8 (zeroSeriesHeap 8) 4696) 5 =
      [(0, 8), (-((8 : Nat) : Int), 8)] :=
  ⟨⟨by decide, by decide, by decide⟩,
    (descriptor_reads_inside_blob 8 (Or.inr rfl) twoHeap 4096 5 (by decide)).2.2.1 (by decide),
    (descriptor_reads_inside_blob 8 (Or.inr rfl) refArrayHeap 7600 5 (by decide)).2.2.1
      (by decide),
    (descriptor_reads_inside_blob 8 (Or.inr rfl) (zeroSeriesHeap 8) 4696 5
      (by decide)).2.2.2.2 (by decide)⟩

/-! ## Claim C20 -/

set_option maxRecDepth 100000 in
/-- C20, as stated, fails: a descriptor of 24 bytes whose series count is `2 ^ 27 + 1`.
`ComputeSize` truncates `8 + (2 ^ 27 + 1) * 16` to `-2 ^ 31 + 24`, so `GetLowestSeries` is
`-2 ^ 31`, the least `int32_t`: the test `curr >= lowest` of the series loop holds for every
`curr`, and `WalkObject` does not return for any object address and size, whatever the fuel. -/
theorem series_loop_never_exits :
    GetNumSeries 8 wrapHeap wrapDesc = 134217729 ∧
      GetLowestSeries 8 wrapHeap wrapDesc = -2147483648 ∧
      ∀ (F addr size : Nat), walkObjectSlots 8 wrapHeap wrapDesc F addr size = none := by
  have h1 : GetNumSeries 8 wrapHeap wrapDesc = 134217729 := by decide
  have h2 : GetLowestSeries 8 wrapHeap wrapDesc = -2147483648 := by decide
  refine ⟨h1, h2, ?_⟩
  intro F addr size
  have hpos : GetNumSeries 8 wrapHeap wrapDesc > 0 := by rw [h1]; decide
  unfold walkObjectSlots WalkObject
  simp only [if_pos hpos, h2]
  exact seriesLoop_never 8 wrapHeap _ wrapDesc addr size F F _ _

/-- C20, amended. `WalkObject` returns, after invoking the callback on the finitely many slots
of `fixedSlots` respectively `patternReported`, for every sufficiently large fuel, when
the series count `N` is positive, the blob is shorter than `2 ^ 31` bytes,
`(2 * N + 3) * W ≤ 2 ^ 31` and no scanned range wraps around the address space; and when `N` is
negative and the cursor does not wrap around the address space. For `N = 0` it returns (the
context unchanged) if `addr + startOffset ≥ addr + size - W`, and otherwise does not return,
whatever the fuel. -/
theorem WalkObject_terminates {σ : Type} (W : Nat) (hW : W = 4 ∨ W = 8) (mem : Mem) (d : GCDesc)
    (addr size : Nat) (ctx : σ) (cb : Nat → Nat → σ → σ) :
    (0 < GetNumSeries W mem d → d.size < 2147483648 →
      (2 * GetNumSeries W mem d + 3) * W ≤ 2147483648 →
      (∀ curr ∈ seriesOffsets W d.size (GetNumSeries W mem d).toNat,
        seriesBegin W mem d addr curr < seriesStop W mem d addr size curr →
        seriesStop W mem d addr size curr + W ≤ wordMod W) →
      ∃ B, ∀ F, B ≤ F → WalkObject W mem d F addr size ctx cb =
        some ((fixedSlots W mem d addr size).foldl (fun c p => cb addr p c) ctx)) ∧
    (GetNumSeries W mem d < 0 →
      patternStop W addr size + passStride W (patternGroups W mem d) ≤ wordMod W →
      ∃ B, ∀ F, B ≤ F → WalkObject W mem d F addr size ctx cb =
        some ((patternReported W mem d addr size).foldl (fun c p => cb addr p c) ctx)) ∧
    (GetNumSeries W mem d = 0 →
      (patternStop W addr size ≤ patternBegin W mem d addr →
        ∀ F, 1 ≤ F → WalkObject W mem d F addr size ctx cb = some ctx) ∧
      (patternBegin W mem d addr < patternStop W addr size →
        ∀ F, WalkObject W mem d F addr size ctx cb = none)) := by
  refine ⟨?_, ?_, ?_⟩
  · intro hN hsize hser hwrap
    obtain ⟨B, hB⟩ := exists_strict_bound
      (fun curr => slotCount W (seriesBegin W mem d addr curr) (seriesStop W mem d addr size curr))
      (seriesOffsets W d.size (GetNumSeries W mem d).toNat)
    refine ⟨B + (GetNumSeries W mem d).toNat, fun F hF => ?_⟩
    exact WalkObject_fixed_eq W hW mem d F addr size ctx cb hN hsize hser hwrap
      ⟨by omega, fun curr hc => by have := hB curr hc; simp only at this; omega⟩
  · intro hN hwrap
    obtain ⟨B, hB⟩ := exists_strict_bound (fun g : Nat × Nat => g.1) (patternGroups W mem d)
    refine ⟨B + (patternGroups W mem d).length +
      (patternStop W addr size - patternBegin W mem d addr) + 1, fun F hF => ?_⟩
    exact WalkObject_pattern_eq W hW mem d F addr size ctx cb hN hwrap
      ⟨by omega, fun g hg => by have := hB g hg; simp only at this; omega, by omega⟩
  · intro hN
    constructor
    · intro hge F hF
      rw [WalkObject_zero W mem d F addr size ctx cb hN, if_neg (by omega), if_neg (by omega)]
    · intro hlt F
      rw [WalkObject_zero W mem d F addr size ctx cb hN, if_pos hlt]

set_option maxRecDepth 100000 in
/-- Witness for C20: the types of `hugeRefHeap` (one series), `refArrayHeap` (repeating pattern)
and `zeroSeriesHeap` (series count 0, with a start offset of 16 and of 8). -/
theorem WalkObject_terminates_witness :
    (0 < GetNumSeries 8 hugeRefHeap (gcdescOf 8 hugeRefHeap 4296) ∧
      GetNumSeries 8 refArrayHeap (gcdescOf 8 refArrayHeap 7600) < 0 ∧
      GetNumSeries 8 (zeroSeriesHeap 16) (gcdescOf 8 (zeroSeriesHeap 16) 4696) = 0 ∧
      GetNumSeries 8 (zeroSeriesHeap 8) (gcdescOf 8 (zeroSeriesHeap 8) 4696) = 0) ∧
    (∃ B, ∀ F, B ≤ F →
      WalkObject 8 hugeRefHeap (gcdescOf 8 hugeRefHeap 4296) F 8192 32 ([] : List Nat)
          (fun _ p acc => acc ++ [p]) =
        some ((fixedSlots 8 hugeRefHeap (gcdescOf 8 hugeRefHeap 4296) 8192 32).foldl
          (fun c p => (fun _ p acc => acc ++ [p]) 8192 p c) [])) ∧
    (∃ B, ∀ F, B ≤ F →
      WalkObject 8 refArrayHeap (gcdescOf 8 refArrayHeap 7600) F 8192 48 ([] : List Nat)
          (fun _ p acc => acc ++ [p]) =
        some ((patternReported 8 refArrayHeap (gcdescOf 8 refArrayHeap 7600) 8192 48).foldl
          (fun c p => (fun _ p acc => acc ++ [p]) 8192 p c) [])) ∧
    (∀ F, 1 ≤ F →
      WalkObject 8 (zeroSeriesHeap 16) (gcdescOf 8 (zeroSeriesHeap 16) 4696) F 8192 24
        ([] : List Nat) (fun _ p acc => acc ++ [p]) = some []) ∧
    (∀ F, WalkObject 8 (zeroSeriesHeap 8) (gcdescOf 8 (zeroSeriesHeap 8) 4696) F 8192 24
        ([] : List Nat) (fun _ p acc => acc ++ [p]) = none) :=
  ⟨⟨by decide, by decide, by decide, by decide⟩,
    (WalkObject_terminates 8 (Or.inr rfl) hugeRefHeap (gcdescOf 8 hugeRefHeap 4296) 8192 32
      ([] : List Nat) (fun _ p acc => acc ++ [p])).1 (by decide) (by decide) (by decide)
      (by decide),
    (WalkObject_terminates 8 (Or.inr rfl) refArrayHeap (gcdescOf 8 refArrayHeap 7600) 8192 48
      ([] : List Nat) (fun _ p acc => acc ++ [p])).2.1 (by decide) (by decide),
    ((WalkObject_terminates 8 (Or.inr rfl) (zeroSeriesHeap 16)
      (gcdescOf 8 (zeroSeriesHeap 16) 4696) 8192 24
      ([] : List Nat) (fun _ p acc => acc ++ [p])).2.2 (by decide)).1 (by decide),
    ((WalkObject_terminates 8 (Or.inr rfl) (zeroSeriesHeap 8)
      (gcdescOf 8 (zeroSeriesHeap 8) 4696) 8192 24
      ([] : List Nat) (fun _ p acc => acc ++ [p])).2.2 (by decide)).2 (by decide)⟩

/-! ## Runs on relocated heaps -/

theorem lookup_rel (k1 k2 : Nat) :
    ∀ (l1 l2 : List (Nat × Nat)),
      List.Forall₂ (fun e1 e2 => (k1 = e1.1 ↔ k2 = e2.1) ∧ e1.2 = e2.2) l1 l2 →
      l1.lookup k1 = l2.lookup k2 := by
  intro l1 l2 h
  induction h with
  | nil => rfl
  | @cons e1 e2 t1 t2 he _ ih =>
    obtain ⟨a1, v1⟩ := e1
    obtain ⟨a2, v2⟩ := e2
    simp only at he
    by_cases h1 : k1 = a1
    · have h2 : k2 = a2 := he.1.1 h1
      subst h1 h2
      simp [List.lookup, he.2]
    · have h2 : ¬ k2 = a2 := fun h => h1 (he.1.2 h)
      have b1 : (k1 == a1) = false := by rw [beq_eq_false_iff_ne]; exact h1
      have b2 : (k2 == a2) = false := by rw [beq_eq_false_iff_ne]; exact h2
      simp only [List.lookup, b1, b2]
      exact ih

theorem lookup_reloc (pairs : List (Nat × Nat))
    (hbij : ∀ a ∈ pairs, ∀ b ∈ pairs, a.1 = b.1 ↔ a.2 = b.2) (k1 k2 : Nat)
    (hk : (k1, k2) ∈ pairs) (l1 l2 : List (Nat × Nat))
    (h : List.Forall₂ (fun e1 e2 => (e1.1, e2.1) ∈ pairs ∧ e1.2 = e2.2) l1 l2) :
    l1.lookup k1 = l2.lookup k2 := by
  apply lookup_rel
  refine h.imp ?_
  intro e1 e2 he
  exact ⟨hbij (k1, k2) hk (e1.1, e2.1) he.1, he.2⟩

theorem EachObjectReference_pos (W : Nat) (mem : Mem) (x p : Nat) (ctx : WalkObjectContext) :
    (EachObjectReference W mem x p ctx).File.pos =
      padd W (ctx.ObjectStart + p) (-(x : Int)) + W := by
  unfold EachObjectReference
  dsimp only
  split <;> rfl

theorem EachObjectReference_objectStart (W : Nat) (mem : Mem) (x p : Nat) (ctx : WalkObjectContext) :
    (EachObjectReference W mem x p ctx).ObjectStart = ctx.ObjectStart := by
  unfold EachObjectReference
  dsimp only
  split <;> rfl

theorem padd_reloc (W os p1 x1 p2 x2 : Nat) (h : (p1 : Int) - x1 = (p2 : Int) - x2) :
    padd W (os + p1) (-(x1 : Int)) = padd W (os + p2) (-(x2 : Int)) := by
  unfold padd
  have e : ((os + p1 : Nat) : Int) + -(x1 : Int) = ((os + p2 : Nat) : Int) + -(x2 : Int) := by
    push_cast
    omega
  rw [e]

theorem EachObjectReference_reloc (W : Nat) (mem1 mem2 : Mem) (pairs : List (Nat × Nat))
    (hbij : ∀ a ∈ pairs, ∀ b ∈ pairs, a.1 = b.1 ↔ a.2 = b.2)
    (hsize : ∀ a ∈ pairs, GetObjectSize2 W mem1 a.1 = GetObjectSize2 W mem2 a.2)
    (x1 x2 p1 p2 : Nat) (c1 c2 : WalkObjectContext) (hc : RelocCtx pairs c1 c2)
    (hoff : (p1 : Int) - x1 = (p2 : Int) - x2)
    (ht : (readLE mem1 p1 W, readLE mem2 p2 W) ∈ pairs) :
    RelocCtx pairs (EachObjectReference W mem1 x1 p1 c1) (EachObjectReference W mem2 x2 p2 c2) ∧
      ∀ qs, AgreeOutside W (padd W (c1.ObjectStart + p1) (-(x1 : Int)) :: qs) c1.File c2.File →
        AgreeOutside W qs (EachObjectReference W mem1 x1 p1 c1).File
          (EachObjectReference W mem2 x2 p2 c2).File := by
  have hq : padd W (c1.ObjectStart + p1) (-(x1 : Int)) =
      padd W (c2.ObjectStart + p2) (-(x2 : Int)) := by
    rw [hc.os]
    exact padd_reloc W _ _ _ _ _ hoff
  have hlk := lookup_reloc pairs hbij _ _ ht _ _ hc.omap
  have hmq : List.Forall₂ (fun e1 e2 => (e1.1, e2.1) ∈ pairs ∧ e1.2 = e2.2)
        (EachObjectReference W mem1 x1 p1 c1).SerializedObjectMap
        (EachObjectReference W mem2 x2 p2 c2).SerializedObjectMap ∧
      List.Forall₂ (fun a b => (a, b) ∈ pairs)
        (EachObjectReference W mem1 x1 p1 c1).ObjectQueue
        (EachObjectReference W mem2 x2 p2 c2).ObjectQueue ∧
      (EachObjectReference W mem1 x1 p1 c1).LastReservedObjectEnd =
        (EachObjectReference W mem2 x2 p2 c2).LastReservedObjectEnd := by
    unfold EachObjectReference
    dsimp only
    cases h1 : c1.SerializedObjectMap.lookup (readLE mem1 p1 W) with
    | none =>
      rw [h1] at hlk
      rw [← hlk]
      dsimp only
      refine ⟨?_, ?_, ?_⟩
      · exact List.rel_append hc.omap (List.Forall₂.cons ⟨ht, by rw [hc.lre]⟩ List.Forall₂.nil)
      · exact List.rel_append hc.queue (List.Forall₂.cons ht List.Forall₂.nil)
      · rw [hc.lre, hsize _ ht]
    | some off =>
      rw [h1] at hlk
      rw [← hlk]
      exact ⟨hc.omap, hc.queue, hc.lre⟩
  obtain ⟨off1, a1, _, _, a4⟩ := EachObjectReference_file W mem1 x1 p1 c1
  obtain ⟨off2, b1, _, _, b4⟩ := EachObjectReference_file W mem2 x2 p2 c2
  have hoffeq : off1 = off2 := by
    have := lookup_reloc pairs hbij _ _ ht _ _ hmq.1
    rw [a1, b1] at this
    exact Option.some.inj this
  refine ⟨⟨hmq.1, hmq.2.1, ?_, hmq.2.2, ?_, ?_⟩, ?_⟩
  · rw [EachObjectReference_objectStart, EachObjectReference_objectStart, hc.os]
  · rw [EachObjectReference_pos, EachObjectReference_pos, hq]
  · rw [EachObjectReference_length_eq, EachObjectReference_length_eq, hq, hc.len]
  · intro qs hag j hj
    rw [a4, b4, ← hq, hoffeq]
    split
    · rfl
    · rename_i hnc
      apply hag
      intro q hqm
      rcases List.mem_cons.1 hqm with rfl | hqm
      · exact hnc
      · exact hj q hqm

theorem patchAll_reloc (W : Nat) (mem1 mem2 : Mem) (pairs : List (Nat × Nat))
    (hbij : ∀ a ∈ pairs, ∀ b ∈ pairs, a.1 = b.1 ↔ a.2 = b.2)
    (hsize : ∀ a ∈ pairs, GetObjectSize2 W mem1 a.1 = GetObjectSize2 W mem2 a.2)
    (x1 x2 : Nat) :
    ∀ (sl1 sl2 : List Nat) (c1 c2 : WalkObjectContext),
      slotsMatch W mem1 mem2 pairs x1 x2 sl1 sl2 = true → RelocCtx pairs c1 c2 →
      RelocCtx pairs (patchAll W mem1 x1 sl1 c1) (patchAll W mem2 x2 sl2 c2) ∧
        (AgreeOutside W (sl1.map (fun p => padd W (c1.ObjectStart + p) (-(x1 : Int))))
            c1.File c2.File →
          AgreeOutside W [] (patchAll W mem1 x1 sl1 c1).File (patchAll W mem2 x2 sl2 c2).File) := by
  intro sl1
  induction sl1 with
  | nil =>
    intro sl2 c1 c2 hm hc
    cases sl2 with
    | nil => exact ⟨hc, fun h => h⟩
    | cons p2 t2 => simp [slotsMatch] at hm
  | cons p1 t1 ih =>
    intro sl2 c1 c2 hm hc
    cases sl2 with
    | nil => simp [slotsMatch] at hm
    | cons p2 t2 =>
      simp only [slotsMatch, Bool.and_eq_true, decide_eq_true_eq] at hm
      obtain ⟨⟨hoff, ht⟩, hrest⟩ := hm
      obtain ⟨e1, e2⟩ := EachObjectReference_reloc W mem1 mem2 pairs hbij hsize x1 x2 p1 p2 c1 c2
        hc hoff ht
      obtain ⟨i1, i2⟩ := ih t2 _ _ hrest e1
      rw [patchAll_cons, patchAll_cons]
      refine ⟨i1, ?_⟩
      intro hag
      apply i2
      rw [EachObjectReference_objectStart]
      exact e2 _ hag

theorem bytes_ext (l1 l2 : List Nat) (hlen : l1.length = l2.length)
    (h : ∀ j, l1.getD j 0 = l2.getD j 0) : l1 = l2 := by
  apply List.ext_getElem hlen
  intro j h1 h2
  have := h j
  rw [List.getD_eq_getElem _ _ h1, List.getD_eq_getElem _ _ h2] at this
  exact this


theorem writeRecord_byteAt_gen (W : Nat) (hW : W = 4 ∨ W = 8) (mem : Mem) (st : SerState)
    (x tok q : Nat) :
    (writeRecord W mem st x tok).1.byteAt q =
      if q < st.file.pos then st.file.byteAt q
      else if q < st.file.pos + W then 0
      else if q < st.file.pos + 2 * W then leByte tok (q - st.file.pos - W)
      else if q < st.file.pos + 2 * W + contentsLen W mem x then
        mem (x + W + (q - st.file.pos - 2 * W)) % 256
      else if q < st.file.pos + 2 * W + contentsLen W mem x +
          PADDING W (GetObjectSize2 W mem x) W % 4294967296 then 0
      else st.file.byteAt q := by
  have hWm : W % 4294967296 = W := by rcases hW with rfl | rfl <;> rfl
  simp only [writeRecord, WriteFileAndMoveCurrentFilePointer, OFile.byteAt_write, OFile.pos_write,
    hWm, contentsLen]
  split_ifs <;> first | rfl | omega | (congr 2; omega) | (congr 1; omega)

theorem writeRecord_length_max (W : Nat) (mem : Mem) (st : SerState) (x tok : Nat) :
    (writeRecord W mem st x tok).1.bytes.length =
      max st.file.bytes.length (st.file.pos + writtenLen W mem x) := by
  simp only [writeRecord, WriteFileAndMoveCurrentFilePointer, OFile.length_write, OFile.pos_write,
    writtenLen]
  omega

theorem writtenLen_eq_contents (W : Nat) (hW : W = 4 ∨ W = 8) (mem : Mem) (x : Nat) :
    writtenLen W mem x =
      2 * W + contentsLen W mem x + PADDING W (GetObjectSize2 W mem x) W % 4294967296 := by
  have hWm : W % 4294967296 = W := by rcases hW with rfl | rfl <;> rfl
  unfold writtenLen contentsLen
  rw [hWm]
  omega

theorem relocatedAt_spec (W : Nat) (mem1 mem2 : Mem) (F : Nat) (pairs : List (Nat × Nat))
    (x1 x2 : Nat) (h : relocatedAt W mem1 mem2 F pairs x1 x2 = true) :
    GetObjectSize2 W mem1 x1 = GetObjectSize2 W mem2 x2 ∧
      ∃ sl1 sl2, walkSlots W mem1 F x1 = some sl1 ∧ walkSlots W mem2 F x2 = some sl2 ∧
        slotsMatch W mem1 mem2 pairs x1 x2 sl1 sl2 = true ∧
        ∀ i, i < contentsLen W mem1 x1 →
          mem1 (x1 + W + i) % 256 = mem2 (x2 + W + i) % 256 ∨
            ∃ p ∈ sl1, p ≤ x1 + W + i ∧ x1 + W + i < p + W := by
  unfold relocatedAt at h
  rw [Bool.and_eq_true, decide_eq_true_eq] at h
  obtain ⟨hs, hm⟩ := h
  refine ⟨hs, ?_⟩
  cases h1 : walkSlots W mem1 F x1 with
  | none => rw [h1] at hm; simp at hm
  | some sl1 =>
    cases h2 : walkSlots W mem2 F x2 with
    | none => rw [h1, h2] at hm; simp at hm
    | some sl2 =>
      rw [h1, h2] at hm
      simp only [Bool.and_eq_true] at hm
      refine ⟨sl1, sl2, rfl, rfl, hm.1, ?_⟩
      intro i hi
      have := hm.2
      unfold payloadMatch at this
      rw [List.all_eq_true] at this
      have := this i (List.mem_range.2 hi)
      rw [Bool.or_eq_true, decide_eq_true_eq, List.any_eq_true] at this
      rcases this with h | ⟨p, hp, hcov⟩
      · exact Or.inl h
      · exact Or.inr ⟨p, hp, by simpa using hcov⟩

theorem assignToken_reloc (W : Nat) (mem1 mem2 : Mem) (pairs : List (Nat × Nat))
    (htb : ∀ a ∈ pairs, ∀ b ∈ pairs, GetMTFromObject W mem1 a.1 = GetMTFromObject W mem1 b.1 ↔
      GetMTFromObject W mem2 a.2 = GetMTFromObject W mem2 b.2)
    (st1 st2 : SerState) (x1 x2 : Nat) (hx : (x1, x2) ∈ pairs)
    (htm : List.Forall₂ (fun e1 e2 => TypesCorrespond W mem1 mem2 pairs e1.1 e2.1 ∧ e1.2 = e2.2)
      st1.mtTokenMap st2.mtTokenMap)
    (htt : List.Forall₂ (fun e1 e2 => TypesCorrespond W mem1 mem2 pairs e1.1 e2.1 ∧ e1.2 = e2.2)
      st1.methodTableTokenTupleList st2.methodTableTokenTupleList) :
    (assignToken st1 (GetMTFromObject W mem1 x1)).1 =
        (assignToken st2 (GetMTFromObject W mem2 x2)).1 ∧
      List.Forall₂ (fun e1 e2 => TypesCorrespond W mem1 mem2 pairs e1.1 e2.1 ∧ e1.2 = e2.2)
        (assignToken st1 (GetMTFromObject W mem1 x1)).2.1
        (assignToken st2 (GetMTFromObject W mem2 x2)).2.1 ∧
      List.Forall₂ (fun e1 e2 => TypesCorrespond W mem1 mem2 pairs e1.1 e2.1 ∧ e1.2 = e2.2)
        (assignToken st1 (GetMTFromObject W mem1 x1)).2.2
        (assignToken st2 (GetMTFromObject W mem2 x2)).2.2 := by
  have hlk : st1.mtTokenMap.lookup (GetMTFromObject W mem1 x1) =
      st2.mtTokenMap.lookup (GetMTFromObject W mem2 x2) := by
    apply lookup_rel
    refine htm.imp ?_
    rintro e1 e2 ⟨⟨a, ha, a1, a2⟩, hv⟩
    refine ⟨?_, hv⟩
    rw [← a1, ← a2]
    exact htb (x1, x2) hx a ha
  have hlen := htm.length_eq
  have hT : TypesCorrespond W mem1 mem2 pairs (GetMTFromObject W mem1 x1)
      (GetMTFromObject W mem2 x2) := ⟨(x1, x2), hx, rfl, rfl⟩
  unfold assignToken
  cases h1 : st1.mtTokenMap.lookup (GetMTFromObject W mem1 x1) with
  | none =>
    rw [h1] at hlk
    rw [← hlk]
    dsimp only
    refine ⟨hlen, ?_, ?_⟩
    · exact List.rel_append htm (List.Forall₂.cons ⟨hT, hlen⟩ List.Forall₂.nil)
    · exact List.rel_append htt (List.Forall₂.cons ⟨hT, hlen⟩ List.Forall₂.nil)
  | some t =>
    rw [h1] at hlk
    rw [← hlk]
    exact ⟨rfl, htm, htt⟩


theorem forall2_tail {α β : Type} (R : α → β → Prop) :
    ∀ (l1 : List α) (l2 : List β), List.Forall₂ R l1 l2 → List.Forall₂ R l1.tail l2.tail := by
  intro l1 l2 h
  cases h with
  | nil => exact List.Forall₂.nil
  | cons _ ht => exact ht

theorem serializeStep_reloc (W : Nat) (hW : W = 4 ∨ W = 8) (mem1 mem2 : Mem) (F fp1 fp2 : Nat)
    (pairs : List (Nat × Nat)) (hrel : Relocated W mem1 mem2 F pairs)
    (x1 x2 : Nat) (q1 q2 : List Nat) (st1 st2 : SerState)
    (hst : RelocState W mem1 mem2 fp1 fp2 pairs st1 st2)
    (hq1 : st1.objectQueue = x1 :: q1) (hq2 : st2.objectQueue = x2 :: q2) :
    ∃ n1 n2, serializeStep W mem1 fp1 F x1 st1 = some n1 ∧
      serializeStep W mem2 fp2 F x2 st2 = some n2 ∧ RelocState W mem1 mem2 fp1 fp2 pairs n1 n2 := by
  obtain ⟨hbij, htb, hall⟩ := hrel
  have hqq := hst.queue
  rw [hq1, hq2] at hqq
  have hx : (x1, x2) ∈ pairs := by
    cases hqq with
    | cons h _ => exact h
  have hsize : ∀ a ∈ pairs, GetObjectSize2 W mem1 a.1 = GetObjectSize2 W mem2 a.2 :=
    fun a ha => (relocatedAt_spec W mem1 mem2 F pairs a.1 a.2 (hall a ha)).1
  obtain ⟨hs, sl1, sl2, hw1, hw2, hsm, hpay⟩ :=
    relocatedAt_spec W mem1 mem2 F pairs x1 x2 (hall (x1, x2) hx)
  obtain ⟨htok, htm, htt⟩ := assignToken_reloc W mem1 mem2 pairs htb st1 st2 x1 x2 hx
    hst.tmap hst.tuples
  have hWm : W % 4294967296 = W := by rcases hW with rfl | rfl <;> rfl
  have hwl : writtenLen W mem1 x1 = writtenLen W mem2 x2 := by
    unfold writtenLen
    rw [hs]
  have hcl : contentsLen W mem1 x1 = contentsLen W mem2 x2 := by
    unfold contentsLen
    rw [hs]
  have hos : objectStartOf W st1 = objectStartOf W st2 := by
    unfold objectStartOf WriteFileAndMoveCurrentFilePointer
    rw [hst.cfp]
  have hcfp : (writeRecord W mem1 st1 x1 (assignToken st1 (GetMTFromObject W mem1 x1)).1).2 =
      (writeRecord W mem2 st2 x2 (assignToken st2 (GetMTFromObject W mem2 x2)).1).2 := by
    rw [writeRecord_snd, writeRecord_snd]
    unfold cfpAfter
    rw [hst.cfp, hs]
  have hpos : (writeRecord W mem1 st1 x1 (assignToken st1 (GetMTFromObject W mem1 x1)).1).1.pos =
      (writeRecord W mem2 st2 x2 (assignToken st2 (GetMTFromObject W mem2 x2)).1).1.pos := by
    rw [writeRecord_pos, writeRecord_pos, hst.pos, hwl]
  have hlen :
      (writeRecord W mem1 st1 x1 (assignToken st1 (GetMTFromObject W mem1 x1)).1).1.bytes.length =
      (writeRecord W mem2 st2 x2 (assignToken st2 (GetMTFromObject W mem2 x2)).1).1.bytes.length := by
    rw [writeRecord_length_max, writeRecord_length_max, hst.pos, hwl, hst.len]
  have hctx : RelocCtx pairs (stepContext W mem1 x1 st1) (stepContext W mem2 x2 st2) :=
    { omap := hst.omap, queue := hst.queue, os := hos, lre := hst.lre, pos := hpos, len := hlen }
  obtain ⟨hfin, hag⟩ := patchAll_reloc W mem1 mem2 pairs hbij hsize x1 x2 sl1 sl2 _ _ hsm hctx
  refine ⟨stepState W mem1 fp1 x1 st1 (patchAll W mem1 x1 sl1 (stepContext W mem1 x1 st1)),
    stepState W mem2 fp2 x2 st2 (patchAll W mem2 x2 sl2 (stepContext W mem2 x2 st2)),
    by rw [serializeStep_eq, hw1]; rfl, by rw [serializeStep_eq, hw2]; rfl, ?_⟩
  refine
    { queue := ?_, omap := ?_, tmap := ?_, tuples := ?_, fixups := ?_, cfp := ?_,
      lre := ?_, pos := ?_, pos_cfp := ?_, len := ?_, bytes := ?_, records := ?_ }
  rotate_left 1
  · exact hfin.omap
  · exact htm
  · exact htt
  rotate_left 1
  · exact hcfp
  · exact hfin.lre
  · exact hcfp
  · rfl
  · exact hfin.len
  rotate_left 2
  · show List.Forall₂ (fun a b => (a, b) ∈ pairs)
      (patchAll W mem1 x1 sl1 (stepContext W mem1 x1 st1)).ObjectQueue.tail
      (patchAll W mem2 x2 sl2 (stepContext W mem2 x2 st2)).ObjectQueue.tail
    exact forall2_tail _ _ _ hfin.queue
  · show SentinelsCorrespond W mem1 mem2 fp1 fp2 pairs →
      (if GetMTFromObject W mem1 x1 = fp1 then
        st1.functionPointerFixupList ++ [objectStartOf W st1]
      else st1.functionPointerFixupList) =
      (if GetMTFromObject W mem2 x2 = fp2 then
        st2.functionPointerFixupList ++ [objectStartOf W st2]
      else st2.functionPointerFixupList)
    intro hfp
    have := hfp (x1, x2) hx
    simp only at this
    by_cases h1 : GetMTFromObject W mem1 x1 = fp1
    · rw [if_pos h1, if_pos (this.1 h1), hst.fixups hfp, hos]
    · rw [if_neg h1, if_neg (fun h => h1 (this.2 h)), hst.fixups hfp]
  · show (patchAll W mem1 x1 sl1 (stepContext W mem1 x1 st1)).File.bytes.length < wordMod W →
      (patchAll W mem1 x1 sl1 (stepContext W mem1 x1 st1)).File.bytes =
        (patchAll W mem2 x2 sl2 (stepContext W mem2 x2 st2)).File.bytes
    intro hfit
    have hl1 := patchAll_length W mem1 x1 sl1 (stepContext W mem1 x1 st1)
    have hl2 : (stepContext W mem1 x1 st1).File.bytes.length =
        max st1.file.bytes.length (st1.file.pos + writtenLen W mem1 x1) :=
      writeRecord_length_max W mem1 st1 x1 _
    have hbytes := hst.bytes (by omega)
    have hba : ∀ k, st1.file.byteAt k = st2.file.byteAt k := by
      intro k
      unfold OFile.byteAt
      rw [hbytes]
    apply bytes_ext _ _ hfin.len
    intro j
    refine hag ?_ j (by simp)
    intro j hj
    show (writeRecord W mem1 st1 x1 (assignToken st1 (GetMTFromObject W mem1 x1)).1).1.byteAt j =
      (writeRecord W mem2 st2 x2 (assignToken st2 (GetMTFromObject W mem2 x2)).1).1.byteAt j
    rw [writeRecord_byteAt_gen W hW, writeRecord_byteAt_gen W hW, ← htok, ← hst.pos, ← hcl, ← hs]
    have hwc := writtenLen_eq_contents W hW mem1 x1
    split_ifs with c1 c2 c3 c4 c5
    · exact hba j
    · rfl
    · rfl
    · rcases hpay (j - st1.file.pos - 2 * W) (by omega) with h | ⟨p, hp, d1, d2⟩
      · exact h
      · exfalso
        apply hj _ (List.mem_map_of_mem _ hp)
        have hosv : (stepContext W mem1 x1 st1).ObjectStart = st1.file.pos + W := by
          show objectStartOf W st1 = _
          unfold objectStartOf WriteFileAndMoveCurrentFilePointer
          rw [hWm, ← hst.pos_cfp]
          exact Nat.mod_eq_of_lt (by omega)
        rw [hosv, padd_slot W (st1.file.pos + W) p x1 (by omega) (by omega)]
        omega
    · rfl
    · exact hba j
  · show List.Forall₂ _ (st1.records ++ [_]) (st2.records ++ [_])
    refine List.rel_append hst.records (List.Forall₂.cons ?_ List.Forall₂.nil)
    exact ⟨hx, htok, hst.pos, hpos, hos⟩

theorem serializeLoop_reloc (W : Nat) (hW : W = 4 ∨ W = 8) (mem1 mem2 : Mem) (F fp1 fp2 : Nat)
    (pairs : List (Nat × Nat)) (hrel : Relocated W mem1 mem2 F pairs) :
    ∀ (fuel : Nat) (st1 st2 : SerState), RelocState W mem1 mem2 fp1 fp2 pairs st1 st2 →
      OptRel (RelocState W mem1 mem2 fp1 fp2 pairs) (serializeLoop W mem1 fp1 F fuel st1)
        (serializeLoop W mem2 fp2 F fuel st2) := by
  intro fuel
  induction fuel with
  | zero => intro st1 st2 _; exact OptRel.none
  | succ n ih =>
    intro st1 st2 hst
    have hqq := hst.queue
    cases hq1 : st1.objectQueue with
    | nil =>
      rw [hq1] at hqq
      cases hq2 : st2.objectQueue with
      | nil =>
        simp only [serializeLoop, hq1, hq2]
        exact OptRel.some hst
      | cons x2 q2 => rw [hq2] at hqq; cases hqq
    | cons x1 q1 =>
      rw [hq1] at hqq
      cases hq2 : st2.objectQueue with
      | nil => rw [hq2] at hqq; cases hqq
      | cons x2 q2 =>
        obtain ⟨n1, n2, e1, e2, hn⟩ := serializeStep_reloc W hW mem1 mem2 F fp1 fp2 pairs hrel
          x1 x2 q1 q2 st1 st2 hst hq1 hq2
        simp only [serializeLoop, hq1, hq2, e1, e2]
        exact ih n1 n2 hn

theorem RelocState_init (W : Nat) (mem1 mem2 : Mem) (F fp1 fp2 : Nat) (pairs : List (Nat × Nat))
    (hrel : Relocated W mem1 mem2 F pairs) (root1 root2 : Nat)
    (hroot : (root1, root2) ∈ pairs) :
    RelocState W mem1 mem2 fp1 fp2 pairs (initState W mem1 root1) (initState W mem2 root2) := by
  have hs := (relocatedAt_spec W mem1 mem2 F pairs root1 root2 (hrel.2.2 (root1, root2) hroot)).1
  refine
    { queue := ?_, omap := ?_, tmap := ?_, tuples := ?_, fixups := ?_, cfp := ?_, lre := ?_,
      pos := ?_, pos_cfp := ?_, len := ?_, bytes := ?_, records := ?_ }
  · exact List.Forall₂.cons hroot List.Forall₂.nil
  · exact List.Forall₂.nil
  · exact List.Forall₂.nil
  · exact List.Forall₂.nil
  · exact fun _ => rfl
  · rfl
  rotate_left 1
  · rfl
  · rfl
  · rfl
  · exact fun _ => rfl
  · exact List.Forall₂.nil
  show (GetObjectSize2 W mem1 root1 + PADDING W (GetObjectSize2 W mem1 root1) W) % wordMod W =
    (GetObjectSize2 W mem2 root2 + PADDING W (GetObjectSize2 W mem2 root2) W) % wordMod W
  rw [hs]

theorem slotsMatch_left (W : Nat) (mem1 mem2 : Mem) (pairs : List (Nat × Nat)) (x1 x2 : Nat) :
    ∀ (sl1 sl2 : List Nat), slotsMatch W mem1 mem2 pairs x1 x2 sl1 sl2 = true →
      (∀ p ∈ sl1, readLE mem1 p W ∈ pairs.map Prod.fst) ∧
        (∀ p ∈ sl2, readLE mem2 p W ∈ pairs.map Prod.snd) := by
  intro sl1
  induction sl1 with
  | nil =>
    intro sl2 h
    cases sl2 with
    | nil => exact ⟨by simp, by simp⟩
    | cons p2 t2 => simp [slotsMatch] at h
  | cons p1 t1 ih =>
    intro sl2 h
    cases sl2 with
    | nil => simp [slotsMatch] at h
    | cons p2 t2 =>
      simp only [slotsMatch, Bool.and_eq_true, decide_eq_true_eq] at h
      obtain ⟨⟨_, ht⟩, hrest⟩ := h
      obtain ⟨i1, i2⟩ := ih t2 hrest
      constructor
      · intro p hp
        rcases List.mem_cons.1 hp with rfl | hp
        · exact List.mem_map_of_mem Prod.fst ht
        · exact i1 p hp
      · intro p hp
        rcases List.mem_cons.1 hp with rfl | hp
        · exact List.mem_map_of_mem Prod.snd ht
        · exact i2 p hp

theorem Relocated_closed (W : Nat) (mem1 mem2 : Mem) (F : Nat) (pairs : List (Nat × Nat))
    (hrel : Relocated W mem1 mem2 F pairs) (root1 root2 : Nat)
    (hroot : (root1, root2) ∈ pairs) :
    Closed W mem1 F root1 (pairs.map Prod.fst) ∧ Closed W mem2 F root2 (pairs.map Prod.snd) := by
  constructor
  · refine ⟨List.mem_map_of_mem Prod.fst hroot, ?_⟩
    intro x hx
    obtain ⟨a, ha, rfl⟩ := List.mem_map.1 hx
    obtain ⟨_, sl1, sl2, hw1, _, hsm, _⟩ :=
      relocatedAt_spec W mem1 mem2 F pairs a.1 a.2 (hrel.2.2 a ha)
    unfold closedAt
    rw [hw1]
    simp only [List.all_eq_true, decide_eq_true_eq]
    exact (slotsMatch_left W mem1 mem2 pairs a.1 a.2 sl1 sl2 hsm).1
  · refine ⟨List.mem_map_of_mem Prod.snd hroot, ?_⟩
    intro x hx
    obtain ⟨a, ha, rfl⟩ := List.mem_map.1 hx
    obtain ⟨_, sl1, sl2, _, hw2, hsm, _⟩ :=
      relocatedAt_spec W mem1 mem2 F pairs a.1 a.2 (hrel.2.2 a ha)
    unfold closedAt
    rw [hw2]
    simp only [List.all_eq_true, decide_eq_true_eq]
    exact (slotsMatch_left W mem1 mem2 pairs a.1 a.2 sl1 sl2 hsm).2


/-! ## Claim C21 -/

theorem forall2_map_snd {α : Type} (R : α → α → Prop) :
    ∀ (l1 l2 : List (α × Nat)), List.Forall₂ (fun e1 e2 => R e1.1 e2.1 ∧ e1.2 = e2.2) l1 l2 →
      l1.map Prod.snd = l2.map Prod.snd := by
  intro l1 l2 h
  induction h with
  | nil => rfl
  | cons he _ ih => simp only [List.map_cons, he.2, ih]

theorem assignToken_fst (st : SerState) (mt : Nat) :
    (assignToken st mt).1 = (st.mtTokenMap.lookup mt).getD st.mtTokenMap.length := by
  unfold assignToken
  cases st.mtTokenMap.lookup mt <;> rfl

theorem EachObjectReference_value (W : Nat) (mem : Mem) (x p : Nat) (ctx : WalkObjectContext) :
    ∀ i, i < W → (EachObjectReference W mem x p ctx).File.byteAt
        (padd W (ctx.ObjectStart + p) (-(x : Int)) + i) =
      leByte ((ctx.SerializedObjectMap.lookup (readLE mem p W)).getD
        ((ctx.LastReservedObjectEnd + W) % wordMod W)) i := by
  intro i hi
  unfold EachObjectReference
  dsimp only
  cases ctx.SerializedObjectMap.lookup (readLE mem p W) <;>
  · simp only [WriteFileAtPosition, OFile.byteAt_write, OFile.seekp, Option.getD]
    rw [if_pos (by omega)]
    congr 1
    omega

end FrozenObjects
